import Mathlib

/-!
# A limit order book: shallow embedding of `src/main.cpp`

The classes `Order`, `Trade` and `Orderbook` of `src/main.cpp` are embedded as
pure functions over an explicit book state.

Modelling conventions.

* `std::map<Price, OrderPointers, Cmp>` is a list of `(price, sequence)` pairs
  kept in the iteration order of the map (`begin()` is the head of the list),
  accessed by key at the first level with that key;
  `std::unordered_map<OrderId, OrderEntry>` is an association list that is only
  ever accessed by key.
* A `std::list` node is a `Node`: the number `loc` is the identity of the node
  (what a `std::list::iterator` designates) and `order` is the `Order` object
  its shared pointer refers to.  An `OrderEntry` of the registry holds the same
  pointer and the iterator; the sharing of the object is kept by writing a
  filled order back to the entry that designates the same node
  (`Registry.share`).
* A C++ reference stays bound to the object it was taken from and reads the
  value that object last had: `bid` and `ask` in `MatchOrders` denote the two
  front orders also after `pop_front`; `bids`/`asks` denote the sequences of
  the two levels selected by the outer loop, which read as empty once the level
  has been erased; `order` and `iterator` in `CancelOrder` and `existingOrder`
  in `MatchOrder` denote the fields of the registry entry also after the entry
  has been erased.
* Exceptions and undefined behaviour are results of type `Error`.  The two
  `while` loops carry a step budget `fuel`, a parameter of every operation
  that runs them: a result other than `fuelExhausted` is the result of the run
  that ends within the budget.
-/

namespace OB

/-- The enumeration of `Side.h`. -/
inductive Side where
  | Buy
  | Sell
deriving DecidableEq

/-- The enumeration of `OrderType.h`. -/
inductive OrderType where
  | GoodTillCancel
  | FillAndKill
deriving DecidableEq

/-- Modelled from the spec: `Constants.h` is not part of the sources; the spec
calls the limit price an integer, so `Price` is an unbounded integer. -/
abbrev Price := Int

/-- Modelled from the spec: `Constants.h` is not part of the sources; the spec
calls quantities non-negative integers (`0 ≤ remaining ≤ initial`). -/
abbrev Quantity := Nat

/-- Modelled from the spec: `Constants.h` is not part of the sources; the spec
calls the identifier a caller-assigned integer. -/
abbrev OrderId := Nat

/-- What an operation can signal instead of returning. -/
inductive Error where
  /-- `throw "invalid quantity"` of `Order::Fill`. -/
  | invalidQuantity
  /-- `std::out_of_range` thrown by `std::map::at`. -/
  | outOfRange
  /-- An access the C++ standard leaves undefined: `front()` of an empty
  sequence, `erase` through an iterator that is not in the sequence. -/
  | undefinedBehaviour
  /-- The step budget of a loop ran out. -/
  | fuelExhausted
deriving DecidableEq

/-- The fields of `class Order`. -/
structure Order where
  orderType_ : OrderType
  orderId_ : OrderId
  side_ : Side
  price_ : Price
  quantity_ : Quantity
  initial_quantity_ : Quantity
  remaining_quantity : Quantity
deriving DecidableEq

/-- The constructor `Order::Order`. -/
def Order.new (orderType : OrderType) (orderId : OrderId) (side : Side) (price : Price)
    (quantity : Quantity) : Order :=
  { orderType_ := orderType, orderId_ := orderId, side_ := side, price_ := price,
    quantity_ := quantity, initial_quantity_ := quantity, remaining_quantity := quantity }

def Order.GetOrderId (o : Order) : OrderId := o.orderId_
def Order.GetOrderType (o : Order) : OrderType := o.orderType_
def Order.GetPrice (o : Order) : Price := o.price_
def Order.GetSide (o : Order) : Side := o.side_
def Order.GetQuantity (o : Order) : Quantity := o.quantity_
def Order.GetInitialQuantity (o : Order) : Quantity := o.initial_quantity_
def Order.GetRemainingQuantity (o : Order) : Quantity := o.remaining_quantity
def Order.IsFilled (o : Order) : Bool := o.GetRemainingQuantity == 0

/-- The method `Order::Fill`: throws when `quantity` exceeds the remaining
quantity, otherwise subtracts it. -/
def Order.Fill (o : Order) (quantity : Quantity) : Except Error Order :=
  if quantity > o.GetRemainingQuantity then
    .error .invalidQuantity
  else
    .ok { o with remaining_quantity := o.remaining_quantity - quantity }

/-- A node of a `std::list<OrderPointer>`. -/
structure Node where
  loc : Nat
  order : Order
deriving DecidableEq

abbrev OrderPointers := List Node

/-- The fields of `class OrderModify`. -/
structure OrderModify where
  orderId_ : OrderId
  price_ : Price
  side_ : Side
  quantity_ : Quantity
deriving DecidableEq

/-- The method `OrderModify::ToOrderPointer`. -/
def OrderModify.ToOrderPointer (m : OrderModify) (type : OrderType) : Order :=
  Order.new type m.orderId_ m.side_ m.price_ m.quantity_

structure TradeInfo where
  orderId_ : OrderId
  price_ : Price
  quantity_ : Quantity
deriving DecidableEq

structure Trade where
  bidTrade_ : TradeInfo
  askTrade_ : TradeInfo
deriving DecidableEq

abbrev Trades := List Trade

/-- The struct `Orderbook::OrderEntry`. -/
structure OrderEntry where
  order_ : Order
  location_ : Nat
deriving DecidableEq

/-- One side of the book, best price first. -/
abbrev Ladder := List (Price × OrderPointers)

abbrev Registry := List (OrderId × OrderEntry)

/-- The data members of `class Orderbook`. -/
structure Book where
  bids_ : Ladder
  asks_ : Ladder
  orders_ : Registry
deriving DecidableEq

/-- A default-constructed `Orderbook`. -/
def Book.empty : Book := { bids_ := [], asks_ := [], orders_ := [] }

/-- The comparator `std::greater<Price>` of `bids_`. -/
def greaterPrice (a b : Price) : Bool := decide (a > b)

/-- The comparator `std::less<Price>` of `asks_`. -/
def lessPrice (a b : Price) : Bool := decide (a < b)

/-! ## Container operations -/

/-- The sequence of the level keyed `price`, if the ladder has one
(`std::map::find`). -/
def levelAt : Ladder → Price → Option OrderPointers
  | [], _ => none
  | (p, os) :: rest, price => if p = price then some os else levelAt rest price

/-- What a reference to the sequence of the level keyed `price` reads: the
sequence, and the empty sequence once the level is gone. -/
def boundLevel (l : Ladder) (price : Price) : OrderPointers :=
  (levelAt l price).getD []

/-- Assignment through a reference to the sequence of the level `price` (the
keys of a `std::map` are unique: the level is the first one keyed `price`). -/
def setLevel (price : Price) (os : OrderPointers) : Ladder → Ladder
  | [] => []
  | (p, ps) :: rest =>
    if p = price then (p, os) :: rest else (p, ps) :: setLevel price os rest

/-- The call `std::map::erase(price)`: the level keyed `price` is removed. -/
def eraseLevel (price : Price) : Ladder → Ladder
  | [] => []
  | (p, ps) :: rest =>
    if p = price then rest else (p, ps) :: eraseLevel price rest

/-- The statements `auto& orders = ladder[price]; orders.push_back(n)`: the
level is created at its place in the order `before` when it is absent. -/
def pushBack (before : Price → Price → Bool) (price : Price) (n : Node) : Ladder → Ladder
  | [] => [(price, [n])]
  | (p, os) :: rest =>
    if p = price then (p, os ++ [n]) :: rest
    else if before price p then (price, [n]) :: (p, os) :: rest
    else (p, os) :: pushBack before price n rest

/-- The call `std::unordered_map::find`. -/
def Registry.find : Registry → OrderId → Option OrderEntry
  | [], _ => none
  | (k, e) :: rest, orderId => if k = orderId then some e else Registry.find rest orderId

/-- The call `std::unordered_map::insert`, which keeps an existing element. -/
def Registry.insert (r : Registry) (orderId : OrderId) (e : OrderEntry) : Registry :=
  match r.find orderId with
  | some _ => r
  | none => r ++ [(orderId, e)]

/-- The call `std::unordered_map::erase(orderId)`. -/
def Registry.erase (r : Registry) (orderId : OrderId) : Registry :=
  r.filter (fun kv => decide (kv.1 ≠ orderId))

/-- A mutation of the order object of node `loc`, seen through the shared
pointer of the registry entry that designates this node. -/
def Registry.share (r : Registry) (loc : Nat) (o : Order) : Registry :=
  r.map (fun kv => if kv.2.location_ = loc then (kv.1, { kv.2 with order_ := o }) else kv)

/-- The node identities in use in a ladder. -/
def ladderLocs (l : Ladder) : List Nat :=
  (l.map (fun lv => lv.2.map Node.loc)).flatten

/-- The nodes resting in a ladder, level by level. -/
def ladderNodes (l : Ladder) : List Node :=
  (l.map (fun lv => lv.2)).flatten

/-- The identity of a newly allocated list node: distinct from every node in
use. -/
def Book.freshLoc (b : Book) : Nat :=
  (ladderLocs b.bids_ ++ ladderLocs b.asks_ ++ b.orders_.map (fun kv => kv.2.location_)).foldr
    max 0 + 1

/-! ## The operations of `class Orderbook` -/

/-- The method `Orderbook::CanMatch`. -/
def CanMatch (b : Book) (side : Side) (price : Price) : Bool :=
  if side = Side.Buy then
    match b.asks_ with
    | [] => false
    | (bestAsk, _) :: _ => decide (price ≥ bestAsk)
  else
    match b.bids_ with
    | [] => false
    | (bestBid, _) :: _ => decide (price ≤ bestBid)

/-- The statements `auto& orders = ladder.at(price); orders.erase(iterator);
if (orders.empty()) ladder.erase(price);` of `CancelOrder`. -/
def cancelIn (l : Ladder) (price : Price) (location : Nat) : Except Error Ladder :=
  match levelAt l price with
  | none => .error .outOfRange
  | some orders =>
    if orders.any (fun n => n.loc == location) then
      let orders1 := orders.eraseP (fun n => n.loc == location)
      if orders1.isEmpty then .ok (eraseLevel price l)
      else .ok (setLevel price orders1 l)
    else .error .undefinedBehaviour

/-- The method `Orderbook::CancelOrder`. -/
def CancelOrder (orderId : OrderId) (b : Book) : Except Error Book :=
  match b.orders_.find orderId with
  | none => .ok b
  | some entry =>
    let orders1 := b.orders_.erase orderId
    if entry.order_.GetSide = Side.Sell then
      match cancelIn b.asks_ entry.order_.GetPrice entry.location_ with
      | .error e => .error e
      | .ok asks1 => .ok { bids_ := b.bids_, asks_ := asks1, orders_ := orders1 }
    else
      match cancelIn b.bids_ entry.order_.GetPrice entry.location_ with
      | .error e => .error e
      | .ok bids1 => .ok { bids_ := bids1, asks_ := b.asks_, orders_ := orders1 }

/-- The state after the two `Fill` calls, the two `pop_front`/`erase` blocks and
the two level erasures of one pass through the body of the inner loop, for the
filled front orders `bid` and `ask`. -/
def settle (bidPrice askPrice : Price) (bidN askN : Node) (bidRest askRest : OrderPointers)
    (bid ask : Order) (b : Book) : Book :=
  -- the two objects have been mutated in place
  let orders0 := (b.orders_.share bidN.loc bid).share askN.loc ask
  -- if (bid->IsFilled()) { bids.pop_front(); orders_.erase(bid->GetOrderId()); }
  let bids1 : OrderPointers := if bid.IsFilled then bidRest else { bidN with order := bid } :: bidRest
  let orders1 := if bid.IsFilled then orders0.erase bid.GetOrderId else orders0
  -- if (ask->IsFilled()) { asks.pop_front(); orders_.erase(ask->GetOrderId()); }
  let asks1 : OrderPointers := if ask.IsFilled then askRest else { askN with order := ask } :: askRest
  let orders2 := if ask.IsFilled then orders1.erase ask.GetOrderId else orders1
  -- if (bids.empty()) bids_.erase(bidPrice);  if (asks.empty()) asks_.erase(askPrice);
  { bids_ := if bids1.isEmpty then eraseLevel bidPrice (setLevel bidPrice bids1 b.bids_)
             else setLevel bidPrice bids1 b.bids_,
    asks_ := if asks1.isEmpty then eraseLevel askPrice (setLevel askPrice asks1 b.asks_)
             else setLevel askPrice asks1 b.asks_,
    orders_ := orders2 }

/-- One pass through the body of the inner loop of `MatchOrders`, on the levels
`bidPrice` and `askPrice` selected by the outer loop. -/
def matchStep (bidPrice askPrice : Price) (b : Book) : Except Error (Book × Trade) :=
  match boundLevel b.bids_ bidPrice, boundLevel b.asks_ askPrice with
  | bidN :: bidRest, askN :: askRest =>
    let quantity := min bidN.order.GetRemainingQuantity askN.order.GetInitialQuantity
    match bidN.order.Fill quantity with
    | .error e => .error e
    | .ok bid =>
      match askN.order.Fill quantity with
      | .error e => .error e
      | .ok ask =>
        .ok (settle bidPrice askPrice bidN askN bidRest askRest bid ask b,
             { bidTrade_ := { orderId_ := bid.GetOrderId, price_ := bid.GetPrice,
                              quantity_ := quantity },
               askTrade_ := { orderId_ := ask.GetOrderId, price_ := ask.GetPrice,
                              quantity_ := quantity } })
  | _, _ => .error .undefinedBehaviour

/-- The inner loop `while (bids.size() && asks.size())` of `MatchOrders`. -/
def innerLoop : Nat → Price → Price → Book → Trades → Except Error (Book × Trades)
  | 0, _, _, _, _ => .error .fuelExhausted
  | fuel + 1, bidPrice, askPrice, b, trades =>
    if (boundLevel b.bids_ bidPrice).length ≠ 0 ∧ (boundLevel b.asks_ askPrice).length ≠ 0 then
      match matchStep bidPrice askPrice b with
      | .error e => .error e
      | .ok (b1, t) => innerLoop fuel bidPrice askPrice b1 (trades ++ [t])
    else .ok (b, trades)

/-- The outer loop `while (true)` of `MatchOrders`. -/
def outerLoop : Nat → Book → Trades → Except Error (Book × Trades)
  | 0, _, _ => .error .fuelExhausted
  | fuel + 1, b, trades =>
    match b.bids_, b.asks_ with
    | [], _ => .ok (b, trades)
    | _ :: _, [] => .ok (b, trades)
    | (bidPrice, _) :: _, (askPrice, _) :: _ =>
      if bidPrice < askPrice then .ok (b, trades)
      else
        match innerLoop (fuel + 1) bidPrice askPrice b trades with
        | .error e => .error e
        | .ok (b1, trades1) => outerLoop fuel b1 trades1

/-- The block after the loops of `MatchOrders`, for one ladder: the front order
of the best level is cancelled when it is `FillAndKill`. -/
def killFront (l : Ladder) (b : Book) : Except Error Book :=
  match l with
  | [] => .ok b
  | (_, []) :: _ => .error .undefinedBehaviour
  | (_, order :: _) :: _ =>
    if order.order.GetOrderType = OrderType.FillAndKill then CancelOrder order.order.GetOrderId b
    else .ok b

/-- The method `Orderbook::MatchOrders`, with the step budget `fuel` for its
loops. -/
def MatchOrders (fuel : Nat) (b : Book) : Except Error (Book × Trades) :=
  match outerLoop fuel b [] with
  | .error e => .error e
  | .ok (b1, trades) =>
    match killFront b1.bids_ b1 with
    | .error e => .error e
    | .ok b2 =>
      match killFront b2.asks_ b2 with
      | .error e => .error e
      | .ok b3 => .ok (b3, trades)

/-- The method `Orderbook::AddOrder`, with the step budget `fuel` for the loops
of `MatchOrders`. -/
def AddOrder (fuel : Nat) (order : Order) (b : Book) : Except Error (Book × Trades) :=
  if b.orders_.find order.GetOrderId = none then .ok (b, [])
  else if order.GetOrderType = OrderType.FillAndKill
      ∧ ¬ CanMatch b order.GetSide order.GetPrice = true then .ok (b, [])
  else
    let iterator := b.freshLoc
    let b1 : Book :=
      if order.GetSide = Side.Buy then
        { b with bids_ := pushBack greaterPrice order.GetPrice { loc := iterator, order := order } b.bids_ }
      else
        { b with asks_ := pushBack lessPrice order.GetPrice { loc := iterator, order := order } b.asks_ }
    MatchOrders fuel
      { b1 with orders_ := b1.orders_.insert order.GetOrderId
                  { order_ := order, location_ := iterator } }

/-- The method `Orderbook::MatchOrder` (modify), with the step budget `fuel`
for the loops of `MatchOrders`. -/
def MatchOrder (fuel : Nat) (order : OrderModify) (b : Book) : Except Error (Book × Trades) :=
  match b.orders_.find order.orderId_ with
  | none => .ok (b, [])
  | some entry =>
    match CancelOrder order.orderId_ b with
    | .error e => .error e
    | .ok b1 => AddOrder fuel (order.ToOrderPointer entry.order_.GetOrderType) b1

/-- The method `Orderbook::Size`. -/
def Size (b : Book) : Nat := b.orders_.length

/-- The struct `LevelInfo`. -/
structure LevelInfo where
  price_ : Price
  quantity_ : Quantity
deriving DecidableEq

abbrev LevelInfos := List LevelInfo

/-- The data members of `class OrderBookLevelInfos`. -/
structure OrderBookLevelInfos where
  bids_ : LevelInfos
  asks_ : LevelInfos
deriving DecidableEq

/-- The lambda `CreateLevelInfos` of `GetOrderInfos`: the loop adds the
remaining quantity of each order of the sequence to `totalQuantity`. -/
def CreateLevelInfos (price : Price) (orders : OrderPointers) : LevelInfo :=
  { price_ := price,
    quantity_ := orders.foldl
      (fun totalQuantity order => totalQuantity + order.order.GetRemainingQuantity) 0 }

/-- The method `Orderbook::GetOrderInfos`, a `const` method: one `LevelInfo` is
pushed for each element of `bids_`, then of `asks_`, in iteration order. -/
def GetOrderInfos (b : Book) : OrderBookLevelInfos :=
  { bids_ := b.bids_.map (fun lv => CreateLevelInfos lv.1 lv.2),
    asks_ := b.asks_.map (fun lv => CreateLevelInfos lv.1 lv.2) }

/-- The order object once the call `Fill(quantity)` has returned or thrown: the
`throw` comes before the only assignment of the method. -/
def Order.afterFill (o : Order) (quantity : Quantity) : Order :=
  if quantity > o.GetRemainingQuantity then o
  else { o with remaining_quantity := o.remaining_quantity - quantity }

/-! ## Predicates on books -/

deriving instance DecidableEq for Except

/-- The ladder of one side. -/
def Book.ladder (b : Book) (side : Side) : Ladder :=
  if side = Side.Sell then b.asks_ else b.bids_

/-- The prices of the levels of a ladder, in iteration order. -/
def ladderKeys (l : Ladder) : List Price := l.map Prod.fst

/-- What the containers guarantee by themselves: the keys of `bids_` descend
strictly, the keys of `asks_` ascend strictly, the keys of `orders_` are
distinct, and distinct list nodes have distinct identities. -/
def Book.Valid (b : Book) : Prop :=
  (ladderKeys b.bids_).Pairwise (fun x y => x > y)
  ∧ (ladderKeys b.asks_).Pairwise (fun x y => x < y)
  ∧ (b.orders_.map Prod.fst).Nodup
  ∧ (ladderLocs b.bids_ ++ ladderLocs b.asks_).Nodup

instance (b : Book) : Decidable b.Valid := by
  unfold Book.Valid; infer_instance

/-- Every registry entry is filed under the identifier of its order, and its
node rests in the level of the order's own side and price. -/
def Book.EntriesRest (b : Book) : Prop :=
  ∀ kv ∈ b.orders_, kv.2.order_.orderId_ = kv.1
    ∧ ({ loc := kv.2.location_, order := kv.2.order_ } : Node)
        ∈ boundLevel (b.ladder kv.2.order_.side_) kv.2.order_.price_

instance (b : Book) : Decidable b.EntriesRest := by
  unfold Book.EntriesRest; infer_instance

/-- Every node resting in ladder `l` has its registry entry. -/
def Book.Registered (b : Book) (l : Ladder) : Prop :=
  ∀ lv ∈ l, ∀ n ∈ lv.2,
    b.orders_.find n.order.orderId_ = some { order_ := n.order, location_ := n.loc }

instance (b : Book) (l : Ladder) : Decidable (b.Registered l) := by
  unfold Book.Registered; infer_instance

/-- No level of the ladder has an empty sequence. -/
def NoEmptyLevel (l : Ladder) : Prop := ∀ lv ∈ l, lv.2 ≠ []

instance (l : Ladder) : Decidable (NoEmptyLevel l) := by
  unfold NoEmptyLevel; infer_instance

/-- A well-formed book: each registered identifier maps to exactly one order,
resting at the level of its own side and price; every resting order is
registered; no level is empty. -/
def Book.WellFormed (b : Book) : Prop :=
  b.Valid ∧ b.EntriesRest ∧ b.Registered b.bids_ ∧ b.Registered b.asks_
  ∧ NoEmptyLevel b.bids_ ∧ NoEmptyLevel b.asks_

instance (b : Book) : Decidable b.WellFormed := by
  unfold Book.WellFormed; infer_instance

/-- The order cannot immediately cross. Buy: the ask ladder is empty or the
price is below the best ask. Sell: the bid ladder is empty or the price is
above the best bid. -/
def CannotCross (b : Book) (side : Side) (price : Price) : Prop :=
  match side with
  | Side.Buy =>
    match b.asks_ with
    | [] => True
    | (bestAsk, _) :: _ => price < bestAsk
  | Side.Sell =>
    match b.bids_ with
    | [] => True
    | (bestBid, _) :: _ => price > bestBid

/-- There is no cross: a ladder is empty, or the best bid price is strictly
less than the best ask price. -/
def NoCross (b : Book) : Prop :=
  match b.bids_, b.asks_ with
  | (bestBid, _) :: _, (bestAsk, _) :: _ => bestBid < bestAsk
  | _, _ => True

instance (b : Book) : Decidable (NoCross b) := by
  unfold NoCross; split <;> infer_instance

/-- Passes through the body of the inner loop of `MatchOrders` lead from the
book `b` to the book `b1`. -/
inductive MatchSteps : Book → Book → Prop where
  | start (b : Book) : MatchSteps b b
  | next {b b1 b2 : Book} {t : Trade} (bidPrice askPrice : Price) :
      MatchSteps b b1 → matchStep bidPrice askPrice b1 = .ok (b2, t) → MatchSteps b b2

/-- The trade `t` comes from a pass through the body of the inner loop on a
book `pre` that matching from `b` went through; `bidN` and `askN` are the two
front orders as they stood immediately before that pass, and the traded
quantity is at most the remaining quantity of each. -/
def TradeBounded (b : Book) (t : Trade) : Prop :=
  ∃ pre post bidPrice askPrice bidN bidRest askN askRest,
    MatchSteps b pre
    ∧ matchStep bidPrice askPrice pre = .ok (post, t)
    ∧ boundLevel pre.bids_ bidPrice = bidN :: bidRest
    ∧ boundLevel pre.asks_ askPrice = askN :: askRest
    ∧ t.bidTrade_.orderId_ = bidN.order.orderId_
    ∧ t.askTrade_.orderId_ = askN.order.orderId_
    ∧ t.bidTrade_.quantity_ ≤ bidN.order.remaining_quantity
    ∧ t.askTrade_.quantity_ ≤ askN.order.remaining_quantity

/-- A crossed book: a buy order of 10 and a sell order of 4, both at price
100. -/
def bookCrossed : Book :=
  { bids_ := [(100, [{ loc := 1, order := Order.new .GoodTillCancel 1 .Buy 100 10 }])],
    asks_ := [(100, [{ loc := 2, order := Order.new .GoodTillCancel 2 .Sell 100 4 }])],
    orders_ := [(1, { order_ := Order.new .GoodTillCancel 1 .Buy 100 10, location_ := 1 }),
                (2, { order_ := Order.new .GoodTillCancel 2 .Sell 100 4, location_ := 2 })] }

/-- The levels of `b1` are among the levels of `b`, in the same order. -/
def KeysShrink (b b1 : Book) : Prop :=
  (ladderKeys b1.bids_).Sublist (ladderKeys b.bids_)
  ∧ (ladderKeys b1.asks_).Sublist (ladderKeys b.asks_)

/-- The books a caller can obtain from a default-constructed book through the
public methods `AddOrder`, `CancelOrder` and `MatchOrder`. -/
inductive Reachable : Book → Prop where
  | start : Reachable Book.empty
  | add {b b1 : Book} {trades : Trades} (fuel : Nat) (order : Order) :
      Reachable b → AddOrder fuel order b = .ok (b1, trades) → Reachable b1
  | cancel {b b1 : Book} (orderId : OrderId) :
      Reachable b → CancelOrder orderId b = .ok b1 → Reachable b1
  | modify {b b1 : Book} {trades : Trades} (fuel : Nat) (order : OrderModify) :
      Reachable b → MatchOrder fuel order b = .ok (b1, trades) → Reachable b1

/-- A book with one resting, registered buy order: identifier 1, price 100,
quantity 10. -/
def bookOneBid : Book :=
  { bids_ := [(100, [{ loc := 1, order := Order.new .GoodTillCancel 1 .Buy 100 10 }])],
    asks_ := [],
    orders_ := [(1, { order_ := Order.new .GoodTillCancel 1 .Buy 100 10, location_ := 1 })] }

/-- A well-formed book with two buy orders (identifiers 1 and 2) queued at
price 100 and one sell order (identifier 3) at price 105. -/
def bookThree : Book :=
  { bids_ := [(100, [{ loc := 1, order := Order.new .GoodTillCancel 1 .Buy 100 10 },
                     { loc := 2, order := Order.new .GoodTillCancel 2 .Buy 100 5 }])],
    asks_ := [(105, [{ loc := 3, order := Order.new .GoodTillCancel 3 .Sell 105 7 }])],
    orders_ := [(1, { order_ := Order.new .GoodTillCancel 1 .Buy 100 10, location_ := 1 }),
                (2, { order_ := Order.new .GoodTillCancel 2 .Buy 100 5, location_ := 2 }),
                (3, { order_ := Order.new .GoodTillCancel 3 .Sell 105 7, location_ := 3 })] }

/-- Following the words of the spec for `modify`: nothing happens for an
unknown identifier; otherwise the existing order is cancelled and a fresh
order with the same order type and identifier and the new side, price and
quantity is submitted. -/
def cancelThenSubmit (fuel : Nat) (orderId : OrderId) (side : Side) (price : Price)
    (quantity : Quantity) (b : Book) : Except Error (Book × Trades) :=
  match b.orders_.find orderId with
  | none => .ok (b, [])
  | some existing =>
    match CancelOrder orderId b with
    | .error e => .error e
    | .ok b1 => AddOrder fuel (Order.new existing.order_.orderType_ orderId side price quantity) b1

/-- The body of `Orderbook::MatchOrder` with its call of `AddOrder` taken as the
parameter `submit`: what is handed to the submission is the order built by
`ToOrderPointer` from the type of the existing order, and the book is the one
`CancelOrder` left. -/
def MatchOrderWith (submit : Order → Book → Except Error (Book × Trades))
    (order : OrderModify) (b : Book) : Except Error (Book × Trades) :=
  match b.orders_.find order.orderId_ with
  | none => .ok (b, [])
  | some entry =>
    match CancelOrder order.orderId_ b with
    | .error e => .error e
    | .ok b1 => submit (order.ToOrderPointer entry.order_.GetOrderType) b1

/-- A submission that only records the order it is handed, as one trade leg
per field group. -/
def recordSubmit (o : Order) (b : Book) : Except Error (Book × Trades) :=
  .ok (b, [{ bidTrade_ := { orderId_ := o.orderId_, price_ := o.price_,
                            quantity_ := o.remaining_quantity },
             askTrade_ := { orderId_ := (if o.orderType_ = OrderType.FillAndKill then 1 else 0)
                              + (if o.side_ = Side.Sell then 2 else 0),
                            price_ := o.price_, quantity_ := o.initial_quantity_ } }])

/-- The links between the registry and the ladders that a well-formed book has
and that every operation keeps: distinct list nodes have distinct identities,
and every registry entry is filed under the identifier of its order, with its
node resting in the level of the order's own side and price. -/
def Book.Linked (b : Book) : Prop :=
  (ladderLocs b.bids_ ++ ladderLocs b.asks_).Nodup ∧ b.EntriesRest

instance (b : Book) : Decidable b.Linked := by
  unfold Book.Linked; infer_instance

/-- The best level of the ladder `l` holds exactly one order: it sits in the
list node `loc`, is `FillAndKill` and carries the identifier `orderId`. -/
def FrontIs (l : Ladder) (loc : Nat) (orderId : OrderId) : Prop :=
  ∃ p n rest, l = (p, [n]) :: rest ∧ n.loc = loc
    ∧ n.order.orderType_ = OrderType.FillAndKill ∧ n.order.orderId_ = orderId

/-- The state of a `FillAndKill` order `orderId` that `AddOrder` queued in the
list node `loc` on the side `side`, while `MatchOrders` runs: no registry
entry designates the node, and either the identifier has left the registry or
the order is alone at the front of its ladder. -/
def Pending (side : Side) (loc : Nat) (orderId : OrderId) (b : Book) : Prop :=
  (∀ kv ∈ b.orders_, kv.2.location_ ≠ loc)
  ∧ (b.orders_.find orderId = none ∨ FrontIs (b.ladder side) loc orderId)

/-- The orders resting in the book, bids first. -/
def Book.resting (b : Book) : List Node := ladderNodes b.bids_ ++ ladderNodes b.asks_

/-- The registry invariant of the spec: an identifier is in the registry if
and only if an order with that identifier rests in a ladder. -/
def RegistryInvariant (b : Book) : Prop :=
  ∀ orderId : OrderId,
    b.orders_.find orderId ≠ none ↔ ∃ n ∈ b.resting, n.order.orderId_ = orderId

/-- Every resting order has `0 < remaining ≤ initial`. -/
def QuantitiesBounded (b : Book) : Prop :=
  ∀ n ∈ b.resting, 0 < n.order.remaining_quantity
    ∧ n.order.remaining_quantity ≤ n.order.initial_quantity_

instance (b : Book) : Decidable (QuantitiesBounded b) := by
  unfold QuantitiesBounded; infer_instance

/-- Every order resting in the ladder has `remaining ≤ initial`. -/
def RemainingLeInitial (l : Ladder) : Prop :=
  ∀ n ∈ ladderNodes l, n.order.remaining_quantity ≤ n.order.initial_quantity_

instance (l : Ladder) : Decidable (RemainingLeInitial l) := by
  unfold RemainingLeInitial; infer_instance

/-- Every order resting in the ladder is `GoodTillCancel`. -/
def OnlyGoodTillCancel (l : Ladder) : Prop :=
  ∀ n ∈ ladderNodes l, n.order.orderType_ = OrderType.GoodTillCancel

instance (l : Ladder) : Decidable (OnlyGoodTillCancel l) := by
  unfold OnlyGoodTillCancel; infer_instance

/-- The total remaining quantity of a ladder. -/
def ladderRemaining (l : Ladder) : Nat :=
  ((ladderNodes l).map (fun n => n.order.remaining_quantity)).sum

/-- The sum of the executed quantities of a trade list. -/
def executedTotal (trades : Trades) : Nat :=
  (trades.map (fun t => t.bidTrade_.quantity_)).sum

/-- A well-formed crossed book whose resting sell order is partially filled:
a buy order of 10 and a sell order of initial quantity 10 with 4 remaining,
both at price 100. -/
def bookPartialAsk : Book :=
  { bids_ := [(100, [{ loc := 1, order := Order.new .GoodTillCancel 1 .Buy 100 10 }])],
    asks_ := [(100, [{ loc := 2, order :=
                { Order.new .GoodTillCancel 2 .Sell 100 10 with remaining_quantity := 4 } }])],
    orders_ := [(1, { order_ := Order.new .GoodTillCancel 1 .Buy 100 10, location_ := 1 }),
                (2, { order_ := { Order.new .GoodTillCancel 2 .Sell 100 10 with
                                  remaining_quantity := 4 }, location_ := 2 })] }

/-- A crossed book whose best bid level has an empty sequence. -/
def bookEmptyLevel : Book :=
  { bids_ := [(100, [])],
    asks_ := [(100, [{ loc := 1, order := Order.new .GoodTillCancel 1 .Sell 100 5 }])],
    orders_ := [(1, { order_ := Order.new .GoodTillCancel 1 .Sell 100 5, location_ := 1 })] }

/-- A well-formed crossed book of unfilled orders: two buy orders of 3 and 4
queued at price 101 and one sell order of 5 at price 100. -/
def bookTwoBids : Book :=
  { bids_ := [(101, [{ loc := 1, order := Order.new .GoodTillCancel 1 .Buy 101 3 },
                     { loc := 2, order := Order.new .GoodTillCancel 2 .Buy 101 4 }])],
    asks_ := [(100, [{ loc := 3, order := Order.new .GoodTillCancel 3 .Sell 100 5 }])],
    orders_ := [(1, { order_ := Order.new .GoodTillCancel 1 .Buy 101 3, location_ := 1 }),
                (2, { order_ := Order.new .GoodTillCancel 2 .Buy 101 4, location_ := 2 }),
                (3, { order_ := Order.new .GoodTillCancel 3 .Sell 100 5, location_ := 3 })] }

/-- A well-formed crossed book with two bid levels and two ask levels: a buy
order of 5 at 101 and one of 5 at 99; sell orders of 3 and 2 queued at 100 and
one of 6 at 102. -/
def bookDeep : Book :=
  { bids_ := [(101, [{ loc := 1, order := Order.new .GoodTillCancel 1 .Buy 101 5 }]),
              (99, [{ loc := 2, order := Order.new .GoodTillCancel 2 .Buy 99 5 }])],
    asks_ := [(100, [{ loc := 3, order := Order.new .GoodTillCancel 3 .Sell 100 3 },
                     { loc := 4, order := Order.new .GoodTillCancel 4 .Sell 100 2 }]),
              (102, [{ loc := 5, order := Order.new .GoodTillCancel 5 .Sell 102 6 }])],
    orders_ := [(1, { order_ := Order.new .GoodTillCancel 1 .Buy 101 5, location_ := 1 }),
                (2, { order_ := Order.new .GoodTillCancel 2 .Buy 99 5, location_ := 2 }),
                (3, { order_ := Order.new .GoodTillCancel 3 .Sell 100 3, location_ := 3 }),
                (4, { order_ := Order.new .GoodTillCancel 4 .Sell 100 2, location_ := 4 }),
                (5, { order_ := Order.new .GoodTillCancel 5 .Sell 102 6, location_ := 5 })] }

/-- A well-formed book without a cross: a buy order 1 of 4 at 90 and a sell
order 2 of 5 at 100. -/
def bookQuote : Book :=
  { bids_ := [(90, [{ loc := 1, order := Order.new .GoodTillCancel 1 .Buy 90 4 }])],
    asks_ := [(100, [{ loc := 2, order := Order.new .GoodTillCancel 2 .Sell 100 5 }])],
    orders_ := [(1, { order_ := Order.new .GoodTillCancel 1 .Buy 90 4, location_ := 1 }),
                (2, { order_ := Order.new .GoodTillCancel 2 .Sell 100 5, location_ := 2 })] }

/-- Neither ladder has a level with an empty sequence. -/
def LevelsNonEmpty (b : Book) : Prop := NoEmptyLevel b.bids_ ∧ NoEmptyLevel b.asks_

instance (b : Book) : Decidable (LevelsNonEmpty b) := by
  unfold LevelsNonEmpty; infer_instance

/-- The book `bookOneBid` with 6 of the 10 of its buy order remaining and an
empty registry. -/
def bookOneBidUnregistered : Book :=
  { bids_ := [(100, [{ loc := 1, order :=
                { Order.new .GoodTillCancel 1 .Buy 100 10 with remaining_quantity := 6 } }])],
    asks_ := [],
    orders_ := [] }

/-! ## Theorems -/

theorem AddOrder_of_find_none (fuel : Nat) (order : Order) (b : Book)
    (h : b.orders_.find order.GetOrderId = none) : AddOrder fuel order b = .ok (b, []) := by
  simp [AddOrder, h]

theorem CancelOrder_of_find_none (orderId : OrderId) (b : Book)
    (h : b.orders_.find orderId = none) : CancelOrder orderId b = .ok b := by
  simp [CancelOrder, h]

theorem MatchOrder_of_find_none (fuel : Nat) (order : OrderModify) (b : Book)
    (h : b.orders_.find order.orderId_ = none) : MatchOrder fuel order b = .ok (b, []) := by
  simp [MatchOrder, h]

/-! ## The registry -/

theorem Registry.mem_of_find {r : Registry} {orderId : OrderId} {e : OrderEntry}
    (h : r.find orderId = some e) : (orderId, e) ∈ r := by
  induction r with
  | nil => simp [Registry.find] at h
  | cons kv rest ih =>
    obtain ⟨k, v⟩ := kv
    unfold Registry.find at h
    by_cases hk : k = orderId
    · simp [hk] at h
      subst hk; subst h
      exact List.mem_cons_self _ _
    · simp [hk] at h
      exact List.mem_cons_of_mem _ (ih h)

theorem Registry.find_of_mem {r : Registry} {orderId : OrderId} {e : OrderEntry}
    (hn : (r.map Prod.fst).Nodup) (h : (orderId, e) ∈ r) : r.find orderId = some e := by
  induction r with
  | nil => simp at h
  | cons kv rest ih =>
    obtain ⟨k, v⟩ := kv
    simp only [List.map_cons, List.nodup_cons] at hn
    unfold Registry.find
    rcases List.mem_cons.mp h with heq | hmem
    · cases heq; simp
    · have hne : k ≠ orderId := by
        intro hk
        apply hn.1
        subst hk
        exact List.mem_map_of_mem Prod.fst hmem
      simp [hne]
      exact ih hn.2 hmem

theorem Registry.find_erase_self (r : Registry) (orderId : OrderId) :
    (r.erase orderId).find orderId = none := by
  induction r with
  | nil => rfl
  | cons kv rest ih =>
    obtain ⟨k, v⟩ := kv
    unfold Registry.erase at ih ⊢
    by_cases hk : k = orderId
    · simp [List.filter_cons, hk]
      subst hk
      simpa using ih
    · simp [List.filter_cons, hk, Registry.find]
      simpa using ih

theorem Registry.find_erase_ne (r : Registry) {orderId k : OrderId} (h : k ≠ orderId) :
    (r.erase orderId).find k = r.find k := by
  induction r with
  | nil => rfl
  | cons kv rest ih =>
    obtain ⟨k1, v⟩ := kv
    unfold Registry.erase at ih ⊢
    by_cases hk : k1 = orderId
    · have : k1 ≠ k := by rw [hk]; exact fun h2 => h h2.symm
      simp [List.filter_cons, hk, Registry.find]
      rw [← hk] 
      simp [this]
      simpa [hk] using ih
    · simp [List.filter_cons, hk, Registry.find]
      by_cases hkk : k1 = k
      · simp [hkk]
      · simp [hkk]; simpa using ih

theorem Registry.erase_of_not_mem (r : Registry) (orderId : OrderId)
    (h : orderId ∉ r.map Prod.fst) : r.erase orderId = r := by
  unfold Registry.erase
  apply List.filter_eq_self.mpr
  intro kv hkv
  simp only [ne_eq, decide_not, Bool.not_eq_true', decide_eq_false_iff_not]
  intro heq
  exact h (heq ▸ List.mem_map_of_mem Prod.fst hkv)

theorem Registry.length_erase {r : Registry} {orderId : OrderId} {e : OrderEntry}
    (hn : (r.map Prod.fst).Nodup) (h : r.find orderId = some e) :
    (r.erase orderId).length + 1 = r.length := by
  induction r with
  | nil => simp [Registry.find] at h
  | cons kv rest ih =>
    obtain ⟨k, v⟩ := kv
    simp only [List.map_cons, List.nodup_cons] at hn
    unfold Registry.find at h
    by_cases hk : k = orderId
    · subst hk
      have := Registry.erase_of_not_mem rest k hn.1
      unfold Registry.erase at this ⊢
      simp [List.filter_cons]
      simpa using congrArg List.length this
    · simp [hk] at h
      have := ih hn.2 h
      unfold Registry.erase at this ⊢
      simp [List.filter_cons, hk]
      simpa using this

/-! ## Ladders -/

theorem levelAt_nil (q : Price) : levelAt [] q = none := rfl

theorem levelAt_cons (p q : Price) (ps : OrderPointers) (rest : Ladder) :
    levelAt ((p, ps) :: rest) q = if p = q then some ps else levelAt rest q := rfl

theorem setLevel_cons (price p : Price) (os ps : OrderPointers) (rest : Ladder) :
    setLevel price os ((p, ps) :: rest)
      = if p = price then (p, os) :: rest else (p, ps) :: setLevel price os rest := rfl

theorem eraseLevel_cons (price p : Price) (ps : OrderPointers) (rest : Ladder) :
    eraseLevel price ((p, ps) :: rest)
      = if p = price then rest else (p, ps) :: eraseLevel price rest := rfl

theorem levelAt_setLevel (l : Ladder) (price q : Price) (os : OrderPointers) :
    levelAt (setLevel price os l) q
      = if q = price then (levelAt l price).map (fun _ => os) else levelAt l q := by
  induction l with
  | nil => simp [setLevel, levelAt]
  | cons lv rest ih =>
    obtain ⟨p, ps⟩ := lv
    rw [setLevel_cons]
    by_cases hp : p = price
    · rw [if_pos hp, levelAt_cons, levelAt_cons, levelAt_cons]
      subst hp
      by_cases hq : q = p
      · subst hq; simp
      · have hq2 : ¬ p = q := fun h => hq h.symm
        simp [hq, hq2]
    · rw [if_neg hp, levelAt_cons, levelAt_cons, levelAt_cons, ih]
      by_cases hq : q = price
      · subst hq; simp [hp]
      · simp [hq]

theorem levelAt_eraseLevel_ne (l : Ladder) {price q : Price} (hq : q ≠ price) :
    levelAt (eraseLevel price l) q = levelAt l q := by
  induction l with
  | nil => rfl
  | cons lv rest ih =>
    obtain ⟨p, ps⟩ := lv
    rw [eraseLevel_cons]
    by_cases hp : p = price
    · rw [if_pos hp, levelAt_cons]
      have hq2 : ¬ p = q := fun h => hq (h ▸ hp)
      simp [hq2]
    · rw [if_neg hp, levelAt_cons, levelAt_cons, ih]

theorem levelAt_eq_none_of_not_mem (l : Ladder) (price : Price)
    (h : price ∉ ladderKeys l) : levelAt l price = none := by
  induction l with
  | nil => rfl
  | cons lv rest ih =>
    obtain ⟨p, ps⟩ := lv
    simp only [ladderKeys, List.map_cons, List.mem_cons, not_or] at h
    rw [levelAt_cons, if_neg (fun hp => h.1 hp.symm)]
    exact ih h.2

theorem levelAt_eraseLevel_self (l : Ladder) (price : Price) (hn : (ladderKeys l).Nodup) :
    levelAt (eraseLevel price l) price = none := by
  induction l with
  | nil => rfl
  | cons lv rest ih =>
    obtain ⟨p, ps⟩ := lv
    simp only [ladderKeys, List.map_cons, List.nodup_cons] at hn
    rw [eraseLevel_cons]
    by_cases hp : p = price
    · rw [if_pos hp]
      subst hp
      exact levelAt_eq_none_of_not_mem rest p hn.1
    · rw [if_neg hp, levelAt_cons, if_neg hp]
      exact ih hn.2

theorem mem_of_levelAt {l : Ladder} {price : Price} {os : OrderPointers}
    (h : levelAt l price = some os) : (price, os) ∈ l := by
  induction l with
  | nil => simp [levelAt] at h
  | cons lv rest ih =>
    obtain ⟨p, ps⟩ := lv
    unfold levelAt at h
    by_cases hp : p = price
    · simp [hp] at h
      subst hp; subst h
      exact List.mem_cons_self _ _
    · simp [hp] at h
      exact List.mem_cons_of_mem _ (ih h)

theorem levelAt_ne_none_of_mem_bound {l : Ladder} {price : Price} {n : Node}
    (h : n ∈ boundLevel l price) : ∃ os, levelAt l price = some os ∧ n ∈ os := by
  unfold boundLevel at h
  cases hl : levelAt l price with
  | none => simp [hl] at h
  | some os => exact ⟨os, rfl, by simpa [hl] using h⟩

theorem locs_nodup_of_mem {l : Ladder} {lv : Price × OrderPointers}
    (hn : (ladderLocs l).Nodup) (h : lv ∈ l) : (lv.2.map Node.loc).Nodup := by
  unfold ladderLocs at hn
  have := (List.nodup_flatten.mp hn).1
  exact this _ (List.mem_map_of_mem (fun lv => lv.2.map Node.loc) h)

theorem eraseP_loc_of_mem {os : OrderPointers} {n : Node}
    (hn : (os.map Node.loc).Nodup) (h : n ∈ os) :
    ∃ front back, os = front ++ n :: back
      ∧ os.eraseP (fun m => m.loc == n.loc) = front ++ back := by
  induction os with
  | nil => simp at h
  | cons m rest ih =>
    simp only [List.map_cons, List.nodup_cons] at hn
    rcases List.mem_cons.mp h with heq | hmem
    · subst heq
      exact ⟨[], rest, rfl, by simp [List.eraseP_cons]⟩
    · obtain ⟨front, back, h1, h2⟩ := ih hn.2 hmem
      have hne : m.loc ≠ n.loc := by
        intro hk
        apply hn.1
        rw [hk]
        exact List.mem_map_of_mem Node.loc hmem
      refine ⟨m :: front, back, by simp [h1], ?_⟩
      simp [List.eraseP_cons, hne, h2]

theorem cancelIn_of_mem {l : Ladder} {price : Price} {n : Node}
    (hk : (ladderKeys l).Nodup) (hn : (ladderLocs l).Nodup) (h : n ∈ boundLevel l price) :
    ∃ front back l1, boundLevel l price = front ++ n :: back
      ∧ cancelIn l price n.loc = .ok l1
      ∧ boundLevel l1 price = front ++ back
      ∧ (levelAt l1 price = none ↔ front ++ back = [])
      ∧ (∀ q, q ≠ price → levelAt l1 q = levelAt l q)
      ∧ l1 = (if front ++ back = [] then eraseLevel price l
              else setLevel price (front ++ back) l) := by
  obtain ⟨os, hos, hmem⟩ := levelAt_ne_none_of_mem_bound h
  have hnd : (os.map Node.loc).Nodup := locs_nodup_of_mem hn (mem_of_levelAt hos)
  obtain ⟨front, back, h1, h2⟩ := eraseP_loc_of_mem hnd hmem
  have hany : os.any (fun m => m.loc == n.loc) = true :=
    List.any_eq_true.mpr ⟨n, hmem, by simp⟩
  by_cases he : front ++ back = []
  · refine ⟨front, back, eraseLevel price l, by simp [boundLevel, hos, h1], ?_, ?_, ?_, ?_, ?_⟩
    · simp [cancelIn, hos, hany, h2, he]
    · simp [boundLevel, levelAt_eraseLevel_self l price hk, he]
    · simp [levelAt_eraseLevel_self l price hk, he]
    · intro q hq; exact levelAt_eraseLevel_ne l hq
    · simp [he]
  · refine ⟨front, back, setLevel price (front ++ back) l, by simp [boundLevel, hos, h1],
      ?_, ?_, ?_, ?_, ?_⟩
    · have : (front ++ back).isEmpty = false := by
        cases hfb : front ++ back with
        | nil => exact absurd hfb he
        | cons a as => rfl
      simp only [cancelIn, hos, hany, h2, if_true, this]
      simp
    · simp [boundLevel, levelAt_setLevel, hos]
    · simp [levelAt_setLevel, hos, he]
    · intro q hq; simp [levelAt_setLevel, hq]
    · simp [he]

/-! ## Cancellation -/

theorem not_mem_of_nodup_middle {front back : OrderPointers} {n : Node}
    (h : ((front ++ n :: back).map Node.loc).Nodup) : n ∉ front ++ back := by
  intro hmem
  rw [List.map_append, List.map_cons, List.nodup_middle, ← List.map_append] at h
  exact (List.nodup_cons.mp h).1 (List.mem_map_of_mem Node.loc hmem)

/-- What `CancelOrder` does for a registered identifier of a well-formed book. -/
theorem CancelOrder_of_registered {b : Book} {orderId : OrderId} {entry : OrderEntry}
    (hw : b.WellFormed) (hf : b.orders_.find orderId = some entry) :
    ∃ b1 front back,
      CancelOrder orderId b = .ok b1
      ∧ entry.order_.orderId_ = orderId
      ∧ b1.orders_ = b.orders_.erase orderId
      ∧ boundLevel (b.ladder entry.order_.side_) entry.order_.price_
          = front ++ { loc := entry.location_, order := entry.order_ } :: back
      ∧ ({ loc := entry.location_, order := entry.order_ } : Node) ∉ front ++ back
      ∧ boundLevel (b1.ladder entry.order_.side_) entry.order_.price_ = front ++ back
      ∧ (levelAt (b1.ladder entry.order_.side_) entry.order_.price_ = none ↔ front ++ back = [])
      ∧ (∀ q, q ≠ entry.order_.price_ →
          levelAt (b1.ladder entry.order_.side_) q = levelAt (b.ladder entry.order_.side_) q)
      ∧ (∀ s, s ≠ entry.order_.side_ → b1.ladder s = b.ladder s) := by
  obtain ⟨hv, hrest, -, -, -, -⟩ := hw
  obtain ⟨hbs, has, -, hlocs⟩ := hv
  have hkb : (ladderKeys b.bids_).Nodup := hbs.imp (fun h => ne_of_gt h)
  have hka : (ladderKeys b.asks_).Nodup := has.imp (fun h => ne_of_lt h)
  have hkl : (ladderKeys (b.ladder entry.order_.side_)).Nodup := by
    unfold Book.ladder; split <;> assumption
  obtain ⟨hid, hnode⟩ := hrest _ (Registry.mem_of_find hf)
  simp only at hid hnode
  have hlb : (ladderLocs b.bids_).Nodup := List.Nodup.of_append_left hlocs
  have hla : (ladderLocs b.asks_).Nodup := List.Nodup.of_append_right hlocs
  have hl : (ladderLocs (b.ladder entry.order_.side_)).Nodup := by
    unfold Book.ladder; split <;> assumption
  obtain ⟨front, back, l1, h1, h2, h3, h4, h5, -⟩ := cancelIn_of_mem hkl hl hnode
  have hnd : ((front ++ ({ loc := entry.location_, order := entry.order_ } : Node) :: back).map
      Node.loc).Nodup := by
    obtain ⟨os, hos, -⟩ := levelAt_ne_none_of_mem_bound hnode
    have := locs_nodup_of_mem hl (mem_of_levelAt hos)
    have hb : boundLevel (b.ladder entry.order_.side_) entry.order_.price_ = os := by
      simp [boundLevel, hos]
    rw [← h1, hb]; exact this
  simp only at h2
  cases hs : entry.order_.side_ with
  | Sell =>
    rw [hs] at h1 h2 h5
    have hlad : b.ladder Side.Sell = b.asks_ := by simp [Book.ladder]
    rw [hlad] at h1 h2 h5
    refine ⟨{ bids_ := b.bids_, asks_ := l1, orders_ := b.orders_.erase orderId }, front, back,
      ?_, hid, rfl, ?_, not_mem_of_nodup_middle hnd, ?_, ?_, ?_, ?_⟩
    · simp [CancelOrder, hf, Order.GetSide, Order.GetPrice, hs, h2]
    · rw [hlad]; exact h1
    · simpa [Book.ladder] using h3
    · simpa [Book.ladder] using h4
    · intro q hq; simpa [Book.ladder] using h5 q hq
    · intro s hne
      cases s with
      | Buy => simp [Book.ladder]
      | Sell => exact absurd rfl hne
  | Buy =>
    rw [hs] at h1 h2 h5
    have hlad : b.ladder Side.Buy = b.bids_ := by simp [Book.ladder]
    rw [hlad] at h1 h2 h5
    refine ⟨{ bids_ := l1, asks_ := b.asks_, orders_ := b.orders_.erase orderId }, front, back,
      ?_, hid, rfl, ?_, not_mem_of_nodup_middle hnd, ?_, ?_, ?_, ?_⟩
    · simp [CancelOrder, hf, Order.GetSide, Order.GetPrice, hs, h2]
    · rw [hlad]; exact h1
    · simpa [Book.ladder] using h3
    · simpa [Book.ladder] using h4
    · intro q hq; simpa [Book.ladder] using h5 q hq
    · intro s hne
      cases s with
      | Buy => exact absurd rfl hne
      | Sell => simp [Book.ladder]

/-! ## The matching loops -/

theorem KeysShrink.refl (b : Book) : KeysShrink b b :=
  ⟨List.Sublist.refl _, List.Sublist.refl _⟩

theorem KeysShrink.trans {a b c : Book} (h1 : KeysShrink a b) (h2 : KeysShrink b c) :
    KeysShrink a c :=
  ⟨h2.1.trans h1.1, h2.2.trans h1.2⟩

theorem ladderKeys_setLevel (price : Price) (os : OrderPointers) (l : Ladder) :
    ladderKeys (setLevel price os l) = ladderKeys l := by
  induction l with
  | nil => rfl
  | cons lv rest ih =>
    obtain ⟨p, ps⟩ := lv
    rw [setLevel_cons]
    unfold ladderKeys at ih ⊢
    by_cases hp : p = price <;> simp [hp, ih]

theorem ladderKeys_eraseLevel (price : Price) (l : Ladder) :
    (ladderKeys (eraseLevel price l)).Sublist (ladderKeys l) := by
  induction l with
  | nil => exact List.Sublist.refl _
  | cons lv rest ih =>
    obtain ⟨p, ps⟩ := lv
    rw [eraseLevel_cons]
    unfold ladderKeys at ih ⊢
    by_cases hp : p = price
    · rw [if_pos hp]; exact List.sublist_cons_self _ _
    · rw [if_neg hp]; exact List.Sublist.cons₂ _ ih

theorem ladderKeys_step (price : Price) (os : OrderPointers) (l : Ladder) :
    (ladderKeys (if os.isEmpty then eraseLevel price (setLevel price os l)
      else setLevel price os l)).Sublist (ladderKeys l) := by
  split
  · have := ladderKeys_eraseLevel price (setLevel price os l)
    rwa [ladderKeys_setLevel] at this
  · rw [ladderKeys_setLevel]

theorem settle_keysShrink (bidPrice askPrice : Price) (bidN askN : Node)
    (bidRest askRest : OrderPointers) (bid ask : Order) (b : Book) :
    KeysShrink b (settle bidPrice askPrice bidN askN bidRest askRest bid ask b) :=
  ⟨ladderKeys_step _ _ _, ladderKeys_step _ _ _⟩

/-- What a successful pass through the body of the inner loop did. -/
theorem matchStep_ok {bidPrice askPrice : Price} {b b1 : Book} {t : Trade}
    (h : matchStep bidPrice askPrice b = .ok (b1, t)) :
    ∃ bidN bidRest askN askRest bid ask,
      boundLevel b.bids_ bidPrice = bidN :: bidRest
      ∧ boundLevel b.asks_ askPrice = askN :: askRest
      ∧ bidN.order.Fill (min bidN.order.GetRemainingQuantity askN.order.GetInitialQuantity)
          = .ok bid
      ∧ askN.order.Fill (min bidN.order.GetRemainingQuantity askN.order.GetInitialQuantity)
          = .ok ask
      ∧ b1 = settle bidPrice askPrice bidN askN bidRest askRest bid ask b
      ∧ t = ⟨⟨bid.GetOrderId, bid.GetPrice,
              min bidN.order.GetRemainingQuantity askN.order.GetInitialQuantity⟩,
             ⟨ask.GetOrderId, ask.GetPrice,
              min bidN.order.GetRemainingQuantity askN.order.GetInitialQuantity⟩⟩ := by
  unfold matchStep at h
  split at h
  · rename_i bidN bidRest askN askRest hb ha
    simp only at h
    split at h
    · cases h
    · rename_i bid hbid
      split at h
      · cases h
      · rename_i ask hask
        simp only [Except.ok.injEq, Prod.mk.injEq] at h
        exact ⟨bidN, bidRest, askN, askRest, bid, ask, hb, ha, hbid, hask, h.1.symm, h.2.symm⟩
  · cases h

theorem Fill_ok {o o1 : Order} {quantity : Quantity} (h : o.Fill quantity = .ok o1) :
    quantity ≤ o.remaining_quantity
    ∧ o1 = { o with remaining_quantity := o.remaining_quantity - quantity } := by
  unfold Order.Fill Order.GetRemainingQuantity at h
  split at h
  · cases h
  · rename_i hq
    simp only [Except.ok.injEq] at h
    exact ⟨Nat.le_of_not_lt hq, h.symm⟩

/-- A property kept by every pass through the body is kept by the inner loop. -/
theorem innerLoop_invariant (P : Book → Trades → Prop)
    (hstep : ∀ bidPrice askPrice b trades b1 t, P b trades →
      matchStep bidPrice askPrice b = .ok (b1, t) → P b1 (trades ++ [t])) :
    ∀ (fuel : Nat) (bidPrice askPrice : Price) (b : Book) (trades : Trades) (b1 : Book)
      (trades1 : Trades), P b trades →
      innerLoop fuel bidPrice askPrice b trades = .ok (b1, trades1) → P b1 trades1 := by
  intro fuel
  induction fuel with
  | zero => intro _ _ _ _ _ _ _ h; simp [innerLoop] at h
  | succ fuel ih =>
    intro bidPrice askPrice b trades b1 trades1 hP h
    unfold innerLoop at h
    split at h
    · split at h
      · cases h
      · rename_i b2 t hs
        exact ih bidPrice askPrice b2 (trades ++ [t]) b1 trades1
          (hstep bidPrice askPrice b trades b2 t hP hs) h
    · simp only [Except.ok.injEq, Prod.mk.injEq] at h
      rw [← h.1, ← h.2]; exact hP

/-- A property kept by every pass through the body is kept by the outer loop. -/
theorem outerLoop_invariant (P : Book → Trades → Prop)
    (hstep : ∀ bidPrice askPrice b trades b1 t, P b trades →
      matchStep bidPrice askPrice b = .ok (b1, t) → P b1 (trades ++ [t])) :
    ∀ (fuel : Nat) (b : Book) (trades : Trades) (b1 : Book) (trades1 : Trades), P b trades →
      outerLoop fuel b trades = .ok (b1, trades1) → P b1 trades1 := by
  intro fuel
  induction fuel with
  | zero => intro _ _ _ _ _ h; simp [outerLoop] at h
  | succ fuel ih =>
    intro b trades b1 trades1 hP h
    unfold outerLoop at h
    split at h
    · simp only [Except.ok.injEq, Prod.mk.injEq] at h
      rw [← h.1, ← h.2]; exact hP
    · simp only [Except.ok.injEq, Prod.mk.injEq] at h
      rw [← h.1, ← h.2]; exact hP
    · split at h
      · simp only [Except.ok.injEq, Prod.mk.injEq] at h
        rw [← h.1, ← h.2]; exact hP
      · split at h
        · cases h
        · rename_i b2 trades2 hin
          exact ih b2 trades2 b1 trades1
            (innerLoop_invariant P hstep _ _ _ _ _ _ _ hP hin) h

theorem noCross_iff (b : Book) :
    NoCross b ↔ ∀ x ∈ (ladderKeys b.bids_).head?, ∀ y ∈ (ladderKeys b.asks_).head?, x < y := by
  unfold NoCross ladderKeys
  cases hb : b.bids_ with
  | nil => simp
  | cons lb rb =>
    obtain ⟨bp, bs⟩ := lb
    cases ha : b.asks_ with
    | nil => simp
    | cons la ra =>
      obtain ⟨ap, as⟩ := la
      simp

/-- The outer loop is left only when there is no cross. -/
theorem outerLoop_noCross : ∀ (fuel : Nat) (b : Book) (trades : Trades) (b1 : Book)
    (trades1 : Trades), outerLoop fuel b trades = .ok (b1, trades1) → NoCross b1 := by
  intro fuel
  induction fuel with
  | zero => intro _ _ _ _ h; simp [outerLoop] at h
  | succ fuel ih =>
    intro b trades b1 trades1 h
    unfold outerLoop at h
    split at h
    · rename_i hb
      simp only [Except.ok.injEq, Prod.mk.injEq] at h
      rw [← h.1, noCross_iff, hb]; simp [ladderKeys]
    · rename_i hb ha
      simp only [Except.ok.injEq, Prod.mk.injEq] at h
      rw [← h.1, noCross_iff, ha]; simp [ladderKeys]
    · rename_i hb ha
      split at h
      · rename_i hlt
        simp only [Except.ok.injEq, Prod.mk.injEq] at h
        rw [← h.1, noCross_iff, hb, ha]; simpa [ladderKeys] using hlt
      · split at h
        · cases h
        · exact ih _ _ _ _ h

theorem outerLoop_keysShrink {fuel : Nat} {b b1 : Book} {trades trades1 : Trades}
    (h : outerLoop fuel b trades = .ok (b1, trades1)) : KeysShrink b b1 := by
  refine outerLoop_invariant (fun b2 _ => KeysShrink b b2) ?_ fuel b trades b1 trades1
    (KeysShrink.refl b) h
  intro bidPrice askPrice b2 _ b3 t hP hs
  obtain ⟨bidN, bidRest, askN, askRest, bid, ask, -, -, -, -, hb3, -⟩ := matchStep_ok hs
  rw [hb3]
  exact hP.trans (settle_keysShrink _ _ _ _ _ _ _ _ _)

theorem cancelIn_keys {l l1 : Ladder} {price : Price} {location : Nat}
    (h : cancelIn l price location = .ok l1) : (ladderKeys l1).Sublist (ladderKeys l) := by
  unfold cancelIn at h
  split at h
  · cases h
  · split at h
    · simp only at h
      split at h
      · simp only [Except.ok.injEq] at h
        rw [← h]; exact ladderKeys_eraseLevel _ _
      · simp only [Except.ok.injEq] at h
        rw [← h, ladderKeys_setLevel]
    · cases h

theorem CancelOrder_keysShrink {b b1 : Book} {orderId : OrderId}
    (h : CancelOrder orderId b = .ok b1) : KeysShrink b b1 := by
  unfold CancelOrder at h
  split at h
  · simp only [Except.ok.injEq] at h
    rw [← h]; exact KeysShrink.refl b
  · simp only at h
    split at h
    · split at h
      · cases h
      · rename_i asks1 hc
        simp only [Except.ok.injEq] at h
        rw [← h]
        exact ⟨List.Sublist.refl _, cancelIn_keys hc⟩
    · split at h
      · cases h
      · rename_i bids1 hc
        simp only [Except.ok.injEq] at h
        rw [← h]
        exact ⟨cancelIn_keys hc, List.Sublist.refl _⟩

theorem killFront_keysShrink {l : Ladder} {b b1 : Book}
    (h : killFront l b = .ok b1) : KeysShrink b b1 := by
  unfold killFront at h
  split at h
  · simp only [Except.ok.injEq] at h
    rw [← h]; exact KeysShrink.refl b
  · cases h
  · split at h
    · exact CancelOrder_keysShrink h
    · simp only [Except.ok.injEq] at h
      rw [← h]; exact KeysShrink.refl b

theorem head_of_sublist {R : Price → Price → Prop} {l1 l : List Price}
    (hs : l1.Sublist l) (hp : l.Pairwise R) :
    ∀ x ∈ l1.head?, ∃ y ∈ l.head?, x = y ∨ R y x := by
  intro x hx
  cases l1 with
  | nil => simp at hx
  | cons a t1 =>
    simp only [List.head?_cons, Option.mem_def, Option.some.injEq] at hx
    subst hx
    have hmem : a ∈ l := hs.subset (List.mem_cons_self _ _)
    cases l with
    | nil => simp at hmem
    | cons y t =>
      refine ⟨y, by simp, ?_⟩
      rcases List.mem_cons.mp hmem with h | h
      · exact Or.inl h
      · exact Or.inr ((List.pairwise_cons.mp hp).1 a h)

/-- Removing levels from sorted ladders does not create a cross. -/
theorem NoCross_of_keysShrink {b b1 : Book}
    (hb : (ladderKeys b.bids_).Pairwise (fun x y => x > y))
    (ha : (ladderKeys b.asks_).Pairwise (fun x y => x < y))
    (hs : KeysShrink b b1) (hn : NoCross b) : NoCross b1 := by
  rw [noCross_iff] at hn ⊢
  intro x hx y hy
  obtain ⟨x0, hx0, hxx⟩ := head_of_sublist hs.1 hb x hx
  obtain ⟨y0, hy0, hyy⟩ := head_of_sublist hs.2 ha y hy
  have := hn x0 hx0 y0 hy0
  rcases hxx with h1 | h1 <;> rcases hyy with h2 | h2 <;> linarith

theorem mem_ladderKeys_pushBack (before : Price → Price → Bool) (price : Price) (n : Node)
    (l : Ladder) (q : Price) (h : q ∈ ladderKeys (pushBack before price n l)) :
    q = price ∨ q ∈ ladderKeys l := by
  induction l with
  | nil => simpa [pushBack, ladderKeys] using h
  | cons lv rest ih =>
    obtain ⟨p, ps⟩ := lv
    unfold pushBack at h
    split at h
    · right; simpa [ladderKeys] using h
    · split at h
      · simp only [ladderKeys, List.map_cons, List.mem_cons] at h ⊢
        exact h
      · simp only [ladderKeys, List.map_cons, List.mem_cons] at h ⊢
        rcases h with h | h
        · exact Or.inr (Or.inl h)
        · rcases ih h with h2 | h2
          · exact Or.inl h2
          · exact Or.inr (Or.inr h2)

theorem pushBack_bids_sorted (price : Price) (n : Node) (l : Ladder)
    (h : (ladderKeys l).Pairwise (fun x y => x > y)) :
    (ladderKeys (pushBack greaterPrice price n l)).Pairwise (fun x y => x > y) := by
  induction l with
  | nil => simp [pushBack, ladderKeys]
  | cons lv rest ih =>
    obtain ⟨p, ps⟩ := lv
    have h0 := h
    simp only [ladderKeys, List.map_cons, List.pairwise_cons] at h
    unfold pushBack
    split
    · simpa [ladderKeys] using h
    · rename_i hne
      split
      · rename_i hlt
        simp only [greaterPrice, gt_iff_lt, decide_eq_true_eq] at hlt
        simp only [ladderKeys, List.map_cons, List.pairwise_cons, List.mem_cons]
        refine ⟨?_, ?_, h.2⟩
        · intro a ha
          rcases ha with ha | ha
          · rw [ha]; exact hlt
          · exact lt_trans (h.1 a ha) hlt
        · exact h.1
      · rename_i hlt
        simp only [greaterPrice, gt_iff_lt, decide_eq_true_eq, not_lt] at hlt
        have hih := ih h.2
        show List.Pairwise _ (p :: ladderKeys (pushBack greaterPrice price n rest))
        refine List.pairwise_cons.mpr ⟨?_, hih⟩
        intro a ha
        rcases mem_ladderKeys_pushBack _ _ _ _ _ ha with h2 | h2
        · rw [h2]; exact lt_of_le_of_ne hlt (fun h3 => hne h3.symm)
        · exact h.1 a h2

theorem pushBack_asks_sorted (price : Price) (n : Node) (l : Ladder)
    (h : (ladderKeys l).Pairwise (fun x y => x < y)) :
    (ladderKeys (pushBack lessPrice price n l)).Pairwise (fun x y => x < y) := by
  induction l with
  | nil => simp [pushBack, ladderKeys]
  | cons lv rest ih =>
    obtain ⟨p, ps⟩ := lv
    have h0 := h
    simp only [ladderKeys, List.map_cons, List.pairwise_cons] at h
    unfold pushBack
    split
    · simpa [ladderKeys] using h
    · rename_i hne
      split
      · rename_i hlt
        simp only [lessPrice, decide_eq_true_eq] at hlt
        simp only [ladderKeys, List.map_cons, List.pairwise_cons, List.mem_cons]
        refine ⟨?_, ?_, h.2⟩
        · intro a ha
          rcases ha with ha | ha
          · rw [ha]; exact hlt
          · exact lt_trans hlt (h.1 a ha)
        · exact h.1
      · rename_i hlt
        simp only [lessPrice, decide_eq_true_eq, not_lt] at hlt
        have hih := ih h.2
        show List.Pairwise _ (p :: ladderKeys (pushBack lessPrice price n rest))
        refine List.pairwise_cons.mpr ⟨?_, hih⟩
        intro a ha
        rcases mem_ladderKeys_pushBack _ _ _ _ _ ha with h2 | h2
        · rw [h2]; exact lt_of_le_of_ne hlt hne
        · exact h.1 a h2

/-- The three stages of a call of `MatchOrders` that returns. -/
theorem MatchOrders_ok {fuel : Nat} {b b3 : Book} {trades : Trades}
    (h : MatchOrders fuel b = .ok (b3, trades)) :
    ∃ b1 b2, outerLoop fuel b [] = .ok (b1, trades)
      ∧ killFront b1.bids_ b1 = .ok b2 ∧ killFront b2.asks_ b2 = .ok b3 := by
  unfold MatchOrders at h
  split at h
  · cases h
  · rename_i b1 trades1 h1
    split at h
    · cases h
    · rename_i b2 h2
      split at h
      · cases h
      · rename_i b4 h3
        simp only [Except.ok.injEq, Prod.mk.injEq] at h
        obtain ⟨h4, h5⟩ := h
        subst h4; subst h5
        exact ⟨b1, b2, h1, h2, h3⟩

/-- After `MatchOrders` returns on a book with sorted ladders there is no
cross. -/
theorem MatchOrders_noCross {fuel : Nat} {b b3 : Book} {trades : Trades}
    (hb : (ladderKeys b.bids_).Pairwise (fun x y => x > y))
    (ha : (ladderKeys b.asks_).Pairwise (fun x y => x < y))
    (h : MatchOrders fuel b = .ok (b3, trades)) : NoCross b3 := by
  obtain ⟨b1, b2, h1, h2, h3⟩ := MatchOrders_ok h
  have hk1 := outerLoop_keysShrink h1
  have hn1 := outerLoop_noCross _ _ _ _ _ h1
  have hb1 := hb.sublist hk1.1
  have ha1 := ha.sublist hk1.2
  have hk2 := killFront_keysShrink h2
  have hn2 := NoCross_of_keysShrink hb1 ha1 hk2 hn1
  have hb2 := hb1.sublist hk2.1
  have ha2 := ha1.sublist hk2.2
  exact NoCross_of_keysShrink hb2 ha2 (killFront_keysShrink h3) hn2

/-- Every book reachable through the public methods is the empty book. -/
theorem Reachable.eq_empty {b : Book} (h : Reachable b) : b = Book.empty := by
  induction h with
  | start => rfl
  | add fuel order _ hadd ih =>
    subst ih
    rw [AddOrder_of_find_none fuel order Book.empty rfl] at hadd
    cases hadd; rfl
  | cancel orderId _ hc ih =>
    subst ih
    rw [CancelOrder_of_find_none orderId Book.empty rfl] at hc
    cases hc; rfl
  | modify fuel order _ hm ih =>
    subst ih
    rw [MatchOrder_of_find_none fuel order Book.empty rfl] at hm
    cases hm; rfl

/-- C1, evaluated on a well-formed book: submitting a second order under the
registered identifier 1 is not rejected; whenever the call returns, the new
order has been appended to the level at price 100 while the registry keeps its
single entry. -/
theorem AddOrder_duplicate_id_inserts :
    bookOneBid.WellFormed
    ∧ bookOneBid.orders_.find 1 ≠ none
    ∧ (∀ fuel, AddOrder (fuel + 1) (Order.new .GoodTillCancel 1 .Buy 100 5) bookOneBid
        = .ok ({ bids_ := [(100, [{ loc := 1, order := Order.new .GoodTillCancel 1 .Buy 100 10 },
                                  { loc := 2, order := Order.new .GoodTillCancel 1 .Buy 100 5 }])],
                 asks_ := [],
                 orders_ := bookOneBid.orders_ }, []))
    ∧ ∀ fuel b1 trades,
        AddOrder fuel (Order.new .GoodTillCancel 1 .Buy 100 5) bookOneBid = .ok (b1, trades) →
        b1.bids_ ≠ bookOneBid.bids_ := by
  have h2 : ∀ fuel, AddOrder (fuel + 1) (Order.new .GoodTillCancel 1 .Buy 100 5) bookOneBid
      = .ok ({ bids_ := [(100, [{ loc := 1, order := Order.new .GoodTillCancel 1 .Buy 100 10 },
                                  { loc := 2, order := Order.new .GoodTillCancel 1 .Buy 100 5 }])],
                 asks_ := [],
                 orders_ := bookOneBid.orders_ }, []) := fun _ => rfl
  refine ⟨by decide, by decide, h2, ?_⟩
  intro fuel b1 trades h
  cases fuel with
  | zero =>
    have h0 : AddOrder 0 (Order.new .GoodTillCancel 1 .Buy 100 5) bookOneBid
        = .error .fuelExhausted := rfl
    rw [h0] at h
    cases h
  | succ fuel =>
    rw [h2] at h
    cases h
    decide

/-- C2, evaluated on the empty book: a GoodTillCancel order under the new
identifier 1 is not inserted; the call returns no trades, the book stays empty
and `Size` stays 0. The same happens on every book for every order whose
identifier is not registered. -/
theorem AddOrder_new_id_not_inserted :
    Book.empty.WellFormed
    ∧ Book.empty.orders_.find 1 = none
    ∧ CannotCross Book.empty Side.Buy 100
    ∧ (∀ fuel, AddOrder fuel (Order.new .GoodTillCancel 1 .Buy 100 10) Book.empty
        = .ok (Book.empty, []))
    ∧ Size Book.empty = 0
    ∧ (∀ fuel b order, b.orders_.find order.GetOrderId = none →
        AddOrder fuel order b = .ok (b, [])) :=
  ⟨by decide, rfl, trivial, fun _ => rfl, rfl, fun fuel b order h => AddOrder_of_find_none fuel order b h⟩

/-- C3, evaluated at `(p, q1, q2) = (100, 10, 10)` and `(100, 10, 4)`: from the
empty book the buy order 1 is not inserted, and the sell order 2 then returns
no trade at all and leaves the book empty. The same happens for every price
and all quantities. -/
theorem AddOrder_scenario_no_trade :
    (∀ fuel, AddOrder fuel (Order.new .GoodTillCancel 1 .Buy 100 10) Book.empty
      = .ok (Book.empty, []))
    ∧ (∀ fuel, AddOrder fuel (Order.new .GoodTillCancel 2 .Sell 100 10) Book.empty
      = .ok (Book.empty, []))
    ∧ (∀ fuel, AddOrder fuel (Order.new .GoodTillCancel 2 .Sell 100 4) Book.empty
      = .ok (Book.empty, []))
    ∧ (∀ fuel p q1 q2,
        AddOrder fuel (Order.new .GoodTillCancel 1 .Buy p q1) Book.empty = .ok (Book.empty, [])
        ∧ AddOrder fuel (Order.new .GoodTillCancel 2 .Sell p q2) Book.empty
            = .ok (Book.empty, [])) :=
  ⟨fun _ => rfl, fun _ => rfl, fun _ => rfl, fun _ _ _ _ => ⟨rfl, rfl⟩⟩

theorem CanMatch_of_cannotCross {b : Book} {side : Side} {price : Price}
    (hc : CannotCross b side price) : CanMatch b side price = false := by
  unfold CannotCross at hc
  unfold CanMatch
  cases side with
  | Buy =>
    simp only [if_true]
    cases ha : b.asks_ with
    | nil => rfl
    | cons lv rest =>
      obtain ⟨p, os⟩ := lv
      rw [ha] at hc
      simp only at hc
      simp only [ge_iff_le, decide_eq_false_iff_not, not_le]
      exact hc
  | Sell =>
    simp only [reduceCtorEq, if_false]
    cases hb : b.bids_ with
    | nil => rfl
    | cons lv rest =>
      obtain ⟨p, os⟩ := lv
      rw [hb] at hc
      simp only at hc
      simp only [decide_eq_false_iff_not, not_le]
      exact hc

/-- C4: on every book, a FillAndKill order that cannot immediately cross is
rejected: `AddOrder` returns no trades and leaves the ladders and the registry
as they were. -/
theorem AddOrder_fillAndKill_cannot_cross (fuel : Nat) (b : Book) (order : Order)
    (hk : order.GetOrderType = OrderType.FillAndKill)
    (hc : CannotCross b order.GetSide order.GetPrice) :
    AddOrder fuel order b = .ok (b, []) := by
  have hcm := CanMatch_of_cannotCross hc
  unfold AddOrder
  by_cases hf : b.orders_.find order.GetOrderId = none
  · simp [hf]
  · simp [hf, hk, hcm]

/-- C4 on the empty book: a FillAndKill buy order yields no trades, no change,
and `Size` stays 0. -/
theorem AddOrder_fillAndKill_cannot_cross_witness :
    CannotCross Book.empty Side.Buy 100
    ∧ AddOrder 5 (Order.new .FillAndKill 1 .Buy 100 10) Book.empty = .ok (Book.empty, [])
    ∧ Size Book.empty = 0 :=
  ⟨trivial,
   AddOrder_fillAndKill_cannot_cross 5 Book.empty (Order.new .FillAndKill 1 .Buy 100 10) rfl
     trivial,
   rfl⟩

/-- C6: on a well-formed book without a cross, whenever `AddOrder` returns,
afterwards a ladder is empty or the best bid price is strictly less than the
best ask price. -/
theorem AddOrder_noCross (fuel : Nat) (b : Book) (order : Order) (b1 : Book) (trades : Trades)
    (hw : b.WellFormed) (hn : NoCross b) (h : AddOrder fuel order b = .ok (b1, trades)) :
    NoCross b1 := by
  obtain ⟨⟨hb, ha, -, -⟩, -⟩ := hw
  unfold AddOrder at h
  split at h
  · simp only [Except.ok.injEq, Prod.mk.injEq] at h
    rw [← h.1]; exact hn
  · split at h
    · simp only [Except.ok.injEq, Prod.mk.injEq] at h
      rw [← h.1]; exact hn
    · simp only at h
      refine MatchOrders_noCross ?_ ?_ h
      · split
        · exact pushBack_bids_sorted _ _ _ hb
        · exact hb
      · split
        · exact ha
        · exact pushBack_asks_sorted _ _ _ ha

/-- C6 on a book with bids at 100 and an ask at 105: a sell order at 100 is
matched against the bids and no cross is left. -/
theorem AddOrder_noCross_witness :
    bookThree.WellFormed ∧ NoCross bookThree
    ∧ AddOrder 5 (Order.new .GoodTillCancel 3 .Sell 100 4) bookThree
        = .ok ({ bids_ := [(100, [{ loc := 1, order :=
                              { Order.new .GoodTillCancel 1 .Buy 100 10 with
                                remaining_quantity := 6 } },
                            { loc := 2, order := Order.new .GoodTillCancel 2 .Buy 100 5 }])],
                 asks_ := [(105, [{ loc := 3, order := Order.new .GoodTillCancel 3 .Sell 105 7 }])],
                 orders_ := [(1, { order_ := { Order.new .GoodTillCancel 1 .Buy 100 10 with
                                               remaining_quantity := 6 }, location_ := 1 }),
                             (2, { order_ := Order.new .GoodTillCancel 2 .Buy 100 5,
                                   location_ := 2 })] },
               [⟨⟨1, 100, 4⟩, ⟨3, 100, 4⟩⟩])
    ∧ NoCross { bids_ := [(100, [{ loc := 1, order :=
                              { Order.new .GoodTillCancel 1 .Buy 100 10 with
                                remaining_quantity := 6 } },
                            { loc := 2, order := Order.new .GoodTillCancel 2 .Buy 100 5 }])],
                 asks_ := [(105, [{ loc := 3, order := Order.new .GoodTillCancel 3 .Sell 105 7 }])],
                 orders_ := [(1, { order_ := { Order.new .GoodTillCancel 1 .Buy 100 10 with
                                               remaining_quantity := 6 }, location_ := 1 }),
                             (2, { order_ := Order.new .GoodTillCancel 2 .Buy 100 5,
                                   location_ := 2 })] } :=
  ⟨by decide, by decide, rfl,
   AddOrder_noCross 5 bookThree (Order.new .GoodTillCancel 3 .Sell 100 4) _ _ (by decide)
     (by decide) rfl⟩

theorem matchStep_tradeBounded {b pre post : Book} {bidPrice askPrice : Price} {t : Trade}
    (hr : MatchSteps b pre) (hs : matchStep bidPrice askPrice pre = .ok (post, t)) :
    t.bidTrade_.quantity_ = t.askTrade_.quantity_ ∧ TradeBounded b t := by
  obtain ⟨bidN, bidRest, askN, askRest, bid, ask, hb, ha, hfb, hfa, -, ht⟩ := matchStep_ok hs
  obtain ⟨hqb, hbid⟩ := Fill_ok hfb
  obtain ⟨hqa, hask⟩ := Fill_ok hfa
  refine ⟨by rw [ht], pre, post, bidPrice, askPrice, bidN, bidRest, askN, askRest, hr, hs, hb, ha,
    ?_, ?_, ?_, ?_⟩
  · rw [ht, hbid]; rfl
  · rw [ht, hask]; rfl
  · rw [ht]; exact hqb
  · rw [ht]; exact hqa

/-- C7: on every book, each trade returned by `MatchOrders` has equal
quantities on its bid leg and its ask leg, and that quantity is at most the
remaining quantity the bid order had and at most the remaining quantity the ask
order had immediately before the pass of the loop that made the trade. -/
theorem MatchOrders_trade_bounded (fuel : Nat) (b b1 : Book) (trades : Trades)
    (h : MatchOrders fuel b = .ok (b1, trades)) :
    ∀ t ∈ trades, t.bidTrade_.quantity_ = t.askTrade_.quantity_ ∧ TradeBounded b t := by
  obtain ⟨b2, b3, h1, -, -⟩ := MatchOrders_ok h
  have key := outerLoop_invariant
    (fun b4 ts => MatchSteps b b4
      ∧ ∀ t ∈ ts, t.bidTrade_.quantity_ = t.askTrade_.quantity_ ∧ TradeBounded b t)
    (by
      intro bidPrice askPrice b4 ts b5 t hP hs
      refine ⟨MatchSteps.next bidPrice askPrice hP.1 hs, ?_⟩
      intro t1 ht1
      rcases List.mem_append.mp ht1 with h2 | h2
      · exact hP.2 t1 h2
      · rw [List.mem_singleton.mp h2]
        exact matchStep_tradeBounded hP.1 hs)
    fuel b [] b2 trades ⟨MatchSteps.start b, by simp⟩ h1
  exact key.2

/-- C7 on a crossed book: the single trade has quantity 4 on both legs. -/
theorem MatchOrders_trade_bounded_witness :
    MatchOrders 5 bookCrossed
      = .ok ({ bids_ := [(100, [{ loc := 1, order :=
                            { Order.new .GoodTillCancel 1 .Buy 100 10 with
                              remaining_quantity := 6 } }])],
               asks_ := [],
               orders_ := [(1, { order_ := { Order.new .GoodTillCancel 1 .Buy 100 10 with
                                             remaining_quantity := 6 }, location_ := 1 })] },
             [⟨⟨1, 100, 4⟩, ⟨2, 100, 4⟩⟩])
    ∧ ∀ t ∈ [(⟨⟨1, 100, 4⟩, ⟨2, 100, 4⟩⟩ : Trade)],
        t.bidTrade_.quantity_ = t.askTrade_.quantity_ ∧ TradeBounded bookCrossed t :=
  ⟨rfl, MatchOrders_trade_bounded 5 bookCrossed _ _ rfl⟩

/-- C8: on every well-formed book and for every identifier, registered or not,
`CancelOrder` returns, and a second `CancelOrder` of the same identifier
returns the book the first one produced. -/
theorem CancelOrder_idempotent (b : Book) (orderId : OrderId) (hw : b.WellFormed) :
    ∃ b1, CancelOrder orderId b = .ok b1 ∧ CancelOrder orderId b1 = .ok b1 := by
  cases hf : b.orders_.find orderId with
  | none =>
    exact ⟨b, CancelOrder_of_find_none orderId b hf, CancelOrder_of_find_none orderId b hf⟩
  | some entry =>
    obtain ⟨b1, -, -, h1, -, h2, -⟩ := CancelOrder_of_registered hw hf
    refine ⟨b1, h1, CancelOrder_of_find_none orderId b1 ?_⟩
    rw [h2]
    exact Registry.find_erase_self _ _

theorem CancelOrder_idempotent_witness :
    bookThree.WellFormed
    ∧ ∃ b1, CancelOrder 2 bookThree = .ok b1 ∧ CancelOrder 2 b1 = .ok b1 :=
  ⟨by decide, CancelOrder_idempotent bookThree 2 (by decide)⟩

/-- C9: on a well-formed book, `CancelOrder` of a registered identifier returns
and removes exactly that order. The identifier leaves the registry, `Size`
drops by one and every other identifier keeps its entry. The level of the
order's own side and price, `front ++ node :: back` before the call, reads
`front ++ back` afterwards and is absent from the ladder exactly when
`front ++ back` is empty. Every other level of that ladder and the whole
ladder of the other side are as before. -/
theorem CancelOrder_removes_exactly (b : Book) (orderId : OrderId) (entry : OrderEntry)
    (hw : b.WellFormed) (hf : b.orders_.find orderId = some entry) :
    ∃ b1 front back,
      CancelOrder orderId b = .ok b1
      ∧ entry.order_.orderId_ = orderId
      ∧ b1.orders_.find orderId = none
      ∧ Size b1 + 1 = Size b
      ∧ (∀ k, k ≠ orderId → b1.orders_.find k = b.orders_.find k)
      ∧ boundLevel (b.ladder entry.order_.side_) entry.order_.price_
          = front ++ { loc := entry.location_, order := entry.order_ } :: back
      ∧ ({ loc := entry.location_, order := entry.order_ } : Node) ∉ front ++ back
      ∧ boundLevel (b1.ladder entry.order_.side_) entry.order_.price_ = front ++ back
      ∧ (levelAt (b1.ladder entry.order_.side_) entry.order_.price_ = none ↔ front ++ back = [])
      ∧ (∀ q, q ≠ entry.order_.price_ →
          levelAt (b1.ladder entry.order_.side_) q = levelAt (b.ladder entry.order_.side_) q)
      ∧ (∀ s, s ≠ entry.order_.side_ → b1.ladder s = b.ladder s) := by
  obtain ⟨b1, front, back, h1, hid, h2, h3, h4, h5, h6, h7, h8⟩ :=
    CancelOrder_of_registered hw hf
  refine ⟨b1, front, back, h1, hid, ?_, ?_, ?_, h3, h4, h5, h6, h7, h8⟩
  · rw [h2]; exact Registry.find_erase_self _ _
  · unfold Size
    rw [h2]
    exact Registry.length_erase hw.1.2.2.1 hf
  · intro k hk
    rw [h2]
    exact Registry.find_erase_ne _ hk

theorem CancelOrder_removes_exactly_witness :
    bookThree.WellFormed
    ∧ bookThree.orders_.find 2
        = some { order_ := Order.new .GoodTillCancel 2 .Buy 100 5, location_ := 2 }
    ∧ ∃ b1 front back,
      CancelOrder 2 bookThree = .ok b1
      ∧ (Order.new .GoodTillCancel 2 .Buy 100 5).orderId_ = 2
      ∧ b1.orders_.find 2 = none
      ∧ Size b1 + 1 = Size bookThree
      ∧ (∀ k, k ≠ 2 → b1.orders_.find k = bookThree.orders_.find k)
      ∧ boundLevel (bookThree.ladder Side.Buy) 100
          = front ++ { loc := 2, order := Order.new .GoodTillCancel 2 .Buy 100 5 } :: back
      ∧ ({ loc := 2, order := Order.new .GoodTillCancel 2 .Buy 100 5 } : Node) ∉ front ++ back
      ∧ boundLevel (b1.ladder Side.Buy) 100 = front ++ back
      ∧ (levelAt (b1.ladder Side.Buy) 100 = none ↔ front ++ back = [])
      ∧ (∀ q, q ≠ 100 → levelAt (b1.ladder Side.Buy) q = levelAt (bookThree.ladder Side.Buy) q)
      ∧ (∀ s, s ≠ Side.Buy → b1.ladder s = bookThree.ladder s) :=
  ⟨by decide, rfl,
   CancelOrder_removes_exactly bookThree 2
     { order_ := Order.new .GoodTillCancel 2 .Buy 100 5, location_ := 2 } (by decide) rfl⟩

/-- C10: on every book, `MatchOrder` (modify) of an identifier that is not
registered returns no trades and leaves the ladders and the registry as they
were, whatever the side, price and quantity. -/
theorem MatchOrder_unknown_id (fuel : Nat) (b : Book) (order : OrderModify)
    (h : b.orders_.find order.orderId_ = none) :
    MatchOrder fuel order b = .ok (b, []) := by
  simp [MatchOrder, h]

/-- C10 at identifier 99, on a book where only identifier 1 was registered. -/
theorem MatchOrder_unknown_id_witness :
    bookOneBid.orders_.find 99 = none
    ∧ MatchOrder 5 { orderId_ := 99, price_ := 101, side_ := Side.Sell, quantity_ := 5 }
        bookOneBid = .ok (bookOneBid, []) :=
  ⟨rfl, MatchOrder_unknown_id 5 bookOneBid
    { orderId_ := 99, price_ := 101, side_ := Side.Sell, quantity_ := 5 } rfl⟩

theorem foldl_remaining (orders : OrderPointers) (start : Nat) :
    orders.foldl (fun totalQuantity order => totalQuantity + order.order.GetRemainingQuantity)
        start
      = start + (orders.map (fun n => n.order.remaining_quantity)).sum := by
  induction orders generalizing start with
  | nil => simp
  | cons n rest ih =>
    rw [List.foldl_cons, ih, List.map_cons, List.sum_cons]
    unfold Order.GetRemainingQuantity
    omega

theorem CreateLevelInfos_eq (price : Price) (orders : OrderPointers) :
    CreateLevelInfos price orders
      = ⟨price, (orders.map (fun n => n.order.remaining_quantity)).sum⟩ := by
  unfold CreateLevelInfos
  rw [foldl_remaining]
  simp

theorem levelAt_of_mem {l : Ladder} {lv : Price × OrderPointers}
    (hn : (ladderKeys l).Nodup) (h : lv ∈ l) : levelAt l lv.1 = some lv.2 := by
  induction l with
  | nil => simp at h
  | cons hd rest ih =>
    obtain ⟨p, ps⟩ := hd
    simp only [ladderKeys, List.map_cons, List.nodup_cons] at hn
    rw [levelAt_cons]
    rcases List.mem_cons.mp h with heq | hmem
    · subst heq; simp
    · have hne : ¬ p = lv.1 := by
        intro hp
        apply hn.1
        rw [hp]
        exact List.mem_map_of_mem Prod.fst hmem
      rw [if_neg hne]
      exact ih hn.2 hmem

/-- C12: on every book, `GetOrderInfos` returns for each side one entry per
level of that ladder, in ladder order, carrying the price of the level and the
exact sum of the remaining quantities of the orders of its sequence. In a book
with the ordering the containers guarantee, the bid entries descend strictly
in price, the ask entries ascend strictly, and the quantity of an entry is the
sum over exactly the orders resting at its price on its side. The method is a
function of the book and returns no new book. -/
theorem GetOrderInfos_levels (b : Book) :
    (GetOrderInfos b).bids_
        = b.bids_.map (fun lv =>
            (⟨lv.1, (lv.2.map (fun n => n.order.remaining_quantity)).sum⟩ : LevelInfo))
    ∧ (GetOrderInfos b).asks_
        = b.asks_.map (fun lv =>
            (⟨lv.1, (lv.2.map (fun n => n.order.remaining_quantity)).sum⟩ : LevelInfo))
    ∧ (GetOrderInfos b).bids_.map LevelInfo.price_ = ladderKeys b.bids_
    ∧ (GetOrderInfos b).asks_.map LevelInfo.price_ = ladderKeys b.asks_
    ∧ (b.Valid →
        ((GetOrderInfos b).bids_.map LevelInfo.price_).Pairwise (fun x y => x > y)
        ∧ ((GetOrderInfos b).asks_.map LevelInfo.price_).Pairwise (fun x y => x < y)
        ∧ (∀ info ∈ (GetOrderInfos b).bids_, ∃ orders,
            levelAt b.bids_ info.price_ = some orders
            ∧ info.quantity_ = (orders.map (fun n => n.order.remaining_quantity)).sum)
        ∧ (∀ info ∈ (GetOrderInfos b).asks_, ∃ orders,
            levelAt b.asks_ info.price_ = some orders
            ∧ info.quantity_ = (orders.map (fun n => n.order.remaining_quantity)).sum)) := by
  have hb : (GetOrderInfos b).bids_
        = b.bids_.map (fun lv =>
            (⟨lv.1, (lv.2.map (fun n => n.order.remaining_quantity)).sum⟩ : LevelInfo)) := by
    simp only [GetOrderInfos, CreateLevelInfos_eq]
  have ha : (GetOrderInfos b).asks_
        = b.asks_.map (fun lv =>
            (⟨lv.1, (lv.2.map (fun n => n.order.remaining_quantity)).sum⟩ : LevelInfo)) := by
    simp only [GetOrderInfos, CreateLevelInfos_eq]
  have hkb : (GetOrderInfos b).bids_.map LevelInfo.price_ = ladderKeys b.bids_ := by
    rw [hb]; simp [ladderKeys, Function.comp_def]
  have hka : (GetOrderInfos b).asks_.map LevelInfo.price_ = ladderKeys b.asks_ := by
    rw [ha]; simp [ladderKeys, Function.comp_def]
  refine ⟨hb, ha, hkb, hka, ?_⟩
  intro hv
  obtain ⟨hsb, hsa, -, -⟩ := hv
  refine ⟨by rw [hkb]; exact hsb, by rw [hka]; exact hsa, ?_, ?_⟩
  · intro info hinfo
    rw [hb] at hinfo
    obtain ⟨lv, hlv, rfl⟩ := List.mem_map.mp hinfo
    exact ⟨lv.2, levelAt_of_mem (hsb.imp (fun h => ne_of_gt h)) hlv, rfl⟩
  · intro info hinfo
    rw [ha] at hinfo
    obtain ⟨lv, hlv, rfl⟩ := List.mem_map.mp hinfo
    exact ⟨lv.2, levelAt_of_mem (hsa.imp (fun h => ne_of_lt h)) hlv, rfl⟩

/-- C13: `Fill(q)` on an order with remaining quantity `r`. If `q ≤ r` the call
succeeds and the order has remaining `r - q` and every other field as before.
If `q > r` the call signals the invalid-fill error and the order is as it was. -/
theorem Fill_spec (o : Order) (q : Quantity) :
    (q ≤ o.remaining_quantity →
      o.Fill q = .ok (o.afterFill q)
      ∧ (o.afterFill q).remaining_quantity = o.remaining_quantity - q
      ∧ (o.afterFill q).orderId_ = o.orderId_
      ∧ (o.afterFill q).orderType_ = o.orderType_
      ∧ (o.afterFill q).side_ = o.side_
      ∧ (o.afterFill q).price_ = o.price_
      ∧ (o.afterFill q).quantity_ = o.quantity_
      ∧ (o.afterFill q).initial_quantity_ = o.initial_quantity_)
    ∧ (q > o.remaining_quantity →
      o.Fill q = .error .invalidQuantity ∧ o.afterFill q = o) := by
  constructor
  · intro h
    have hn : ¬ q > o.GetRemainingQuantity := Nat.not_lt.mpr h
    simp [Order.Fill, Order.afterFill, hn]
  · intro h
    have hn : q > o.GetRemainingQuantity := h
    simp [Order.Fill, Order.afterFill, hn]

/-- C13 on an order with 10 remaining: `Fill(4)` leaves 6, `Fill(11)` throws. -/
theorem Fill_spec_witness :
    (Order.new .GoodTillCancel 1 .Buy 100 10).Fill 4
        = .ok { Order.new .GoodTillCancel 1 .Buy 100 10 with remaining_quantity := 6 }
    ∧ (Order.new .GoodTillCancel 1 .Buy 100 10).Fill 11 = .error .invalidQuantity
    ∧ (Order.new .GoodTillCancel 1 .Buy 100 10).afterFill 11
        = Order.new .GoodTillCancel 1 .Buy 100 10 :=
  ⟨((Fill_spec (Order.new .GoodTillCancel 1 .Buy 100 10) 4).1 (by decide)).1,
   ((Fill_spec (Order.new .GoodTillCancel 1 .Buy 100 10) 11).2 (by decide)).1,
   ((Fill_spec (Order.new .GoodTillCancel 1 .Buy 100 10) 11).2 (by decide)).2⟩

/-- C20: in every book reached from the empty book by a finite sequence of
`AddOrder`, `CancelOrder` and `MatchOrder` calls, both ladders and the
registry are empty and `Size` is 0, and every further call returns no trades
and leaves the book empty. -/
theorem Reachable_always_empty (b : Book) (hr : Reachable b) :
    b.bids_ = [] ∧ b.asks_ = [] ∧ b.orders_ = [] ∧ Size b = 0
    ∧ (∀ fuel order, AddOrder fuel order b = .ok (Book.empty, []))
    ∧ (∀ orderId, CancelOrder orderId b = .ok Book.empty)
    ∧ (∀ fuel order, MatchOrder fuel order b = .ok (Book.empty, [])) := by
  have hb := hr.eq_empty
  subst hb
  exact ⟨rfl, rfl, rfl, rfl, fun _ _ => rfl, fun _ => rfl, fun _ _ => rfl⟩

/-- C20 after three calls: an `AddOrder`, a `MatchOrder` and a `CancelOrder`. -/
theorem Reachable_always_empty_witness :
    Reachable Book.empty
    ∧ AddOrder 5 (Order.new .GoodTillCancel 1 .Buy 100 10) Book.empty = .ok (Book.empty, [])
    ∧ MatchOrder 5 { orderId_ := 1, price_ := 101, side_ := Side.Buy, quantity_ := 5 } Book.empty
        = .ok (Book.empty, [])
    ∧ CancelOrder 1 Book.empty = .ok Book.empty
    ∧ Size Book.empty = 0 :=
  have h := Reachable_always_empty Book.empty
    (Reachable.cancel 1
      (Reachable.modify 5 { orderId_ := 1, price_ := 101, side_ := Side.Buy, quantity_ := 5 }
        (Reachable.add 5 (Order.new .GoodTillCancel 1 .Buy 100 10) Reachable.start rfl) rfl)
      rfl)
  ⟨Reachable.start, h.2.2.2.2.1 5 _, h.2.2.2.2.2.2 5 _, h.2.2.2.2.2.1 1, h.2.2.2.1⟩

theorem registryInvariant_bookOneBid : RegistryInvariant bookOneBid := by
  intro orderId
  by_cases h : orderId = 1
  · subst h
    constructor
    · intro _
      exact ⟨{ loc := 1, order := Order.new .GoodTillCancel 1 .Buy 100 10 }, by decide, rfl⟩
    · intro _; decide
  · constructor
    · intro hf
      exfalso
      apply hf
      have h1 : ¬ (1 : OrderId) = orderId := fun h2 => h h2.symm
      simp [bookOneBid, Registry.find, h1]
    · rintro ⟨n, hn, hid⟩
      exfalso
      have : n = { loc := 1, order := Order.new .GoodTillCancel 1 .Buy 100 10 } := by
        simpa [Book.resting, ladderNodes, bookOneBid] using hn
      subst this
      exact h hid.symm

/-- C14, evaluated on a book that satisfies the registry invariant: a sell
order submitted under the registered identifier 1 is accepted, trades against
the resting buy order 1 and is filled; erasing its identifier removes the
registry entry of the buy order, which still rests with 6 remaining. Afterwards
identifier 1 rests in a ladder and is not in the registry, and `Size` is 0 with
one order resting. -/
theorem AddOrder_breaks_registry_invariant :
    bookOneBid.WellFormed ∧ RegistryInvariant bookOneBid ∧ QuantitiesBounded bookOneBid
    ∧ (∀ fuel, AddOrder (fuel + 2) (Order.new .GoodTillCancel 1 .Sell 100 4) bookOneBid
        = .ok (bookOneBidUnregistered, [⟨⟨1, 100, 4⟩, ⟨1, 100, 4⟩⟩]))
    ∧ ¬ RegistryInvariant bookOneBidUnregistered
    ∧ Size bookOneBidUnregistered = 0
    ∧ bookOneBidUnregistered.resting.length = 1 := by
  refine ⟨by decide, registryInvariant_bookOneBid, by decide, fun _ => rfl, ?_, rfl, rfl⟩
  intro h
  have h1 := (h 1).mpr ⟨{ loc := 1, order :=
    { Order.new .GoodTillCancel 1 .Buy 100 10 with remaining_quantity := 6 } }, by decide, rfl⟩
  exact h1 rfl

/-- C16, evaluated on two well-formed crossed books in which every resting
order has `0 < remaining ≤ initial`: `MatchOrders` signals the invalid-fill
error. On `bookTwoBids` all orders are unfilled; the first pass leaves the sell
order with 2 of 5 remaining, and the second pass asks it for
`min 4 5 = 4`. On `bookPartialAsk` the resting sell order has 4 of 10
remaining and the first pass asks it for `min 10 10 = 10`. -/
theorem MatchOrders_invalid_fill :
    bookTwoBids.WellFormed ∧ QuantitiesBounded bookTwoBids
    ∧ (∀ fuel, MatchOrders (fuel + 2) bookTwoBids = .error .invalidQuantity)
    ∧ bookPartialAsk.WellFormed ∧ QuantitiesBounded bookPartialAsk
    ∧ (∀ fuel, MatchOrders (fuel + 1) bookPartialAsk = .error .invalidQuantity) :=
  ⟨by decide, by decide, fun _ => rfl, by decide, by decide, fun _ => rfl⟩

theorem NoEmptyLevel_cons {lv : Price × OrderPointers} {rest : Ladder} :
    NoEmptyLevel (lv :: rest) ↔ lv.2 ≠ [] ∧ NoEmptyLevel rest := by
  simp [NoEmptyLevel]

theorem NoEmptyLevel_setLevel {price : Price} {os : OrderPointers} {l : Ladder}
    (hos : os ≠ []) (h : NoEmptyLevel l) : NoEmptyLevel (setLevel price os l) := by
  induction l with
  | nil => exact h
  | cons lv rest ih =>
    obtain ⟨p, ps⟩ := lv
    rw [NoEmptyLevel_cons] at h
    rw [setLevel_cons]
    split
    · rw [NoEmptyLevel_cons]; exact ⟨hos, h.2⟩
    · rw [NoEmptyLevel_cons]; exact ⟨h.1, ih h.2⟩

theorem NoEmptyLevel_eraseLevel {price : Price} {l : Ladder}
    (h : NoEmptyLevel l) : NoEmptyLevel (eraseLevel price l) := by
  induction l with
  | nil => exact h
  | cons lv rest ih =>
    obtain ⟨p, ps⟩ := lv
    rw [NoEmptyLevel_cons] at h
    rw [eraseLevel_cons]
    split
    · exact h.2
    · rw [NoEmptyLevel_cons]; exact ⟨h.1, ih h.2⟩

theorem eraseLevel_setLevel (price : Price) (os : OrderPointers) (l : Ladder) :
    eraseLevel price (setLevel price os l) = eraseLevel price l := by
  induction l with
  | nil => rfl
  | cons lv rest ih =>
    obtain ⟨p, ps⟩ := lv
    rw [setLevel_cons]
    by_cases hp : p = price
    · rw [if_pos hp, eraseLevel_cons, eraseLevel_cons, if_pos hp, if_pos hp]
    · rw [if_neg hp, eraseLevel_cons, eraseLevel_cons, if_neg hp, if_neg hp, ih]

theorem NoEmptyLevel_step {price : Price} {os : OrderPointers} {l : Ladder}
    (h : NoEmptyLevel l) :
    NoEmptyLevel (if os.isEmpty then eraseLevel price (setLevel price os l)
      else setLevel price os l) := by
  split
  · rw [eraseLevel_setLevel]; exact NoEmptyLevel_eraseLevel h
  · rename_i he
    refine NoEmptyLevel_setLevel ?_ h
    intro h0
    exact he (by rw [h0]; rfl)

theorem settle_levelsNonEmpty (bidPrice askPrice : Price) (bidN askN : Node)
    (bidRest askRest : OrderPointers) (bid ask : Order) {b : Book} (h : LevelsNonEmpty b) :
    LevelsNonEmpty (settle bidPrice askPrice bidN askN bidRest askRest bid ask b) :=
  ⟨NoEmptyLevel_step h.1, NoEmptyLevel_step h.2⟩

theorem matchStep_levelsNonEmpty {bidPrice askPrice : Price} {b b1 : Book} {t : Trade}
    (h : LevelsNonEmpty b) (hs : matchStep bidPrice askPrice b = .ok (b1, t)) :
    LevelsNonEmpty b1 := by
  obtain ⟨bidN, bidRest, askN, askRest, bid, ask, -, -, -, -, hb1, -⟩ := matchStep_ok hs
  rw [hb1]
  exact settle_levelsNonEmpty _ _ _ _ _ _ _ _ h

theorem outerLoop_levelsNonEmpty {fuel : Nat} {b b1 : Book} {trades trades1 : Trades}
    (h : LevelsNonEmpty b) (hl : outerLoop fuel b trades = .ok (b1, trades1)) :
    LevelsNonEmpty b1 :=
  outerLoop_invariant (fun b2 _ => LevelsNonEmpty b2)
    (fun _ _ _ _ _ _ hP hs => matchStep_levelsNonEmpty hP hs) fuel b trades b1 trades1 h hl

theorem NoEmptyLevel_pushBack (before : Price → Price → Bool) (price : Price) (n : Node)
    {l : Ladder} (h : NoEmptyLevel l) : NoEmptyLevel (pushBack before price n l) := by
  induction l with
  | nil => simp [pushBack, NoEmptyLevel]
  | cons lv rest ih =>
    obtain ⟨p, ps⟩ := lv
    have h0 := h
    rw [NoEmptyLevel_cons] at h
    unfold pushBack
    split
    · rw [NoEmptyLevel_cons]; exact ⟨by simp, h.2⟩
    · split
      · rw [NoEmptyLevel_cons]; exact ⟨by simp, h0⟩
      · rw [NoEmptyLevel_cons]; exact ⟨h.1, ih h.2⟩

theorem cancelIn_noEmptyLevel {l l1 : Ladder} {price : Price} {location : Nat}
    (hl : NoEmptyLevel l) (h : cancelIn l price location = .ok l1) : NoEmptyLevel l1 := by
  unfold cancelIn at h
  split at h
  · cases h
  · split at h
    · simp only at h
      split at h
      · simp only [Except.ok.injEq] at h
        rw [← h]; exact NoEmptyLevel_eraseLevel hl
      · rename_i he
        simp only [Except.ok.injEq] at h
        rw [← h]
        refine NoEmptyLevel_setLevel ?_ hl
        intro h0
        exact he (by rw [h0]; rfl)
    · cases h

theorem CancelOrder_levelsNonEmpty {b b1 : Book} {orderId : OrderId}
    (hl : LevelsNonEmpty b) (h : CancelOrder orderId b = .ok b1) : LevelsNonEmpty b1 := by
  unfold CancelOrder at h
  split at h
  · simp only [Except.ok.injEq] at h
    rw [← h]; exact hl
  · simp only at h
    split at h
    · split at h
      · cases h
      · rename_i asks1 hc
        simp only [Except.ok.injEq] at h
        rw [← h]
        exact ⟨hl.1, cancelIn_noEmptyLevel hl.2 hc⟩
    · split at h
      · cases h
      · rename_i bids1 hc
        simp only [Except.ok.injEq] at h
        rw [← h]
        exact ⟨cancelIn_noEmptyLevel hl.1 hc, hl.2⟩

theorem killFront_levelsNonEmpty {l : Ladder} {b b1 : Book}
    (hl : LevelsNonEmpty b) (h : killFront l b = .ok b1) : LevelsNonEmpty b1 := by
  unfold killFront at h
  split at h
  · simp only [Except.ok.injEq] at h
    rw [← h]; exact hl
  · cases h
  · split at h
    · exact CancelOrder_levelsNonEmpty hl h
    · simp only [Except.ok.injEq] at h
      rw [← h]; exact hl

theorem MatchOrders_levelsNonEmpty {fuel : Nat} {b b3 : Book} {trades : Trades}
    (hl : LevelsNonEmpty b) (h : MatchOrders fuel b = .ok (b3, trades)) :
    LevelsNonEmpty b3 := by
  obtain ⟨b1, b2, h1, h2, h3⟩ := MatchOrders_ok h
  exact killFront_levelsNonEmpty
    (killFront_levelsNonEmpty (outerLoop_levelsNonEmpty hl h1) h2) h3

theorem AddOrder_levelsNonEmpty {fuel : Nat} {order : Order} {b b1 : Book} {trades : Trades}
    (hl : LevelsNonEmpty b) (h : AddOrder fuel order b = .ok (b1, trades)) :
    LevelsNonEmpty b1 := by
  unfold AddOrder at h
  split at h
  · simp only [Except.ok.injEq, Prod.mk.injEq] at h
    rw [← h.1]; exact hl
  · split at h
    · simp only [Except.ok.injEq, Prod.mk.injEq] at h
      rw [← h.1]; exact hl
    · simp only at h
      refine MatchOrders_levelsNonEmpty ?_ h
      constructor
      · show NoEmptyLevel (Book.bids_ _)
        split
        · exact NoEmptyLevel_pushBack _ _ _ hl.1
        · exact hl.1
      · show NoEmptyLevel (Book.asks_ _)
        split
        · exact hl.2
        · exact NoEmptyLevel_pushBack _ _ _ hl.2

theorem MatchOrder_levelsNonEmpty {fuel : Nat} {order : OrderModify} {b b1 : Book}
    {trades : Trades} (hl : LevelsNonEmpty b)
    (h : MatchOrder fuel order b = .ok (b1, trades)) : LevelsNonEmpty b1 := by
  unfold MatchOrder at h
  split at h
  · simp only [Except.ok.injEq, Prod.mk.injEq] at h
    rw [← h.1]; exact hl
  · split at h
    · cases h
    · rename_i b2 hc
      exact AddOrder_levelsNonEmpty (CancelOrder_levelsNonEmpty hl hc) h

/-- C15: on a well-formed book, in which no level is empty, whenever
`AddOrder`, `CancelOrder` or `MatchOrder` returns, neither ladder of the
resulting book contains a level with an empty sequence. -/
theorem operations_keep_levels_nonempty (fuel : Nat) (b : Book) (hw : b.WellFormed) :
    (∀ order b1 trades, AddOrder fuel order b = .ok (b1, trades) →
      NoEmptyLevel b1.bids_ ∧ NoEmptyLevel b1.asks_)
    ∧ (∀ orderId b1, CancelOrder orderId b = .ok b1 →
      NoEmptyLevel b1.bids_ ∧ NoEmptyLevel b1.asks_)
    ∧ (∀ order b1 trades, MatchOrder fuel order b = .ok (b1, trades) →
      NoEmptyLevel b1.bids_ ∧ NoEmptyLevel b1.asks_) := by
  have hl : LevelsNonEmpty b := ⟨hw.2.2.2.2.1, hw.2.2.2.2.2⟩
  exact ⟨fun _ _ _ h => AddOrder_levelsNonEmpty hl h,
    fun _ _ h => CancelOrder_levelsNonEmpty hl h,
    fun _ _ _ h => MatchOrder_levelsNonEmpty hl h⟩

theorem boundLevel_head (price : Price) (os : OrderPointers) (rest : Ladder) :
    boundLevel ((price, os) :: rest) price = os := by
  simp [boundLevel, levelAt_cons]

/-- One turn of the outer loop on a crossed book. -/
theorem outerLoop_crossed {fuel : Nat} {b : Book} {trades : Trades} {bidPrice askPrice : Price}
    {bids asks : OrderPointers} {bidsTail asksTail : Ladder}
    (hb : b.bids_ = (bidPrice, bids) :: bidsTail) (ha : b.asks_ = (askPrice, asks) :: asksTail)
    (hx : ¬ bidPrice < askPrice) :
    outerLoop (fuel + 1) b trades
      = match innerLoop (fuel + 1) bidPrice askPrice b trades with
        | .error e => .error e
        | .ok (b1, trades1) => outerLoop fuel b1 trades1 := by
  rw [outerLoop, hb, ha]
  simp only [hx, if_false]

/-- One turn of the inner loop while both sequences have orders. -/
theorem innerLoop_step {fuel : Nat} {b : Book} {trades : Trades} {bidPrice askPrice : Price}
    {bidN askN : Node} {bidRest askRest : OrderPointers}
    (hb : boundLevel b.bids_ bidPrice = bidN :: bidRest)
    (ha : boundLevel b.asks_ askPrice = askN :: askRest) :
    innerLoop (fuel + 1) bidPrice askPrice b trades
      = match matchStep bidPrice askPrice b with
        | .error e => .error e
        | .ok (b1, t) => innerLoop fuel bidPrice askPrice b1 (trades ++ [t]) := by
  rw [innerLoop, hb, ha]
  simp only [List.length_cons, ne_eq, Nat.add_one_ne_zero, not_false_eq_true, and_self,
    if_true]

theorem innerLoop_extends {fuel : Nat} {bidPrice askPrice : Price} {b b1 : Book}
    {trades trades1 : Trades}
    (h : innerLoop fuel bidPrice askPrice b trades = .ok (b1, trades1)) :
    ∃ more, trades1 = trades ++ more :=
  innerLoop_invariant (fun _ ts => ∃ more, ts = trades ++ more)
    (fun _ _ _ ts _ t hP _ => by
      obtain ⟨more, hm⟩ := hP
      exact ⟨more ++ [t], by rw [hm, List.append_assoc]⟩)
    fuel bidPrice askPrice b trades b1 trades1 ⟨[], by simp⟩ h

theorem outerLoop_extends {fuel : Nat} {b b1 : Book} {trades trades1 : Trades}
    (h : outerLoop fuel b trades = .ok (b1, trades1)) :
    ∃ more, trades1 = trades ++ more :=
  outerLoop_invariant (fun _ ts => ∃ more, ts = trades ++ more)
    (fun _ _ _ ts _ t hP _ => by
      obtain ⟨more, hm⟩ := hP
      exact ⟨more ++ [t], by rw [hm, List.append_assoc]⟩)
    fuel b trades b1 trades1 ⟨[], by simp⟩ h

theorem head_max_of_sorted {R : Price → Price → Prop} {p : Price} {rest : List Price}
    (h : (p :: rest).Pairwise R) : ∀ q ∈ p :: rest, q = p ∨ R p q := by
  intro q hq
  rcases List.mem_cons.mp hq with h1 | h1
  · exact Or.inl h1
  · exact Or.inr ((List.pairwise_cons.mp h).1 q h1)

/-- C17: on a well-formed crossed book on which `MatchOrders` returns, the
bid level at the head of `bids_` has the highest bid price and the ask level at
the head of `asks_` the lowest ask price, and the first trade returned carries,
on its bid leg, the identifier and the limit price of the first order of that
bid level and, on its ask leg, the identifier and the limit price of the first
order of that ask level, as these orders stood before the call. -/
theorem MatchOrders_first_trade (fuel : Nat) (b b1 : Book) (trades : Trades)
    (bidPrice askPrice : Price) (bidN askN : Node) (bidRest askRest : OrderPointers)
    (bidsTail asksTail : Ladder) (hw : b.WellFormed)
    (hb : b.bids_ = (bidPrice, bidN :: bidRest) :: bidsTail)
    (ha : b.asks_ = (askPrice, askN :: askRest) :: asksTail)
    (hx : askPrice ≤ bidPrice)
    (h : MatchOrders fuel b = .ok (b1, trades)) :
    (∀ p ∈ ladderKeys b.bids_, p ≤ bidPrice)
    ∧ (∀ p ∈ ladderKeys b.asks_, askPrice ≤ p)
    ∧ ∃ t rest, trades = t :: rest
        ∧ t.bidTrade_.orderId_ = bidN.order.orderId_
        ∧ t.bidTrade_.price_ = bidN.order.price_
        ∧ t.askTrade_.orderId_ = askN.order.orderId_
        ∧ t.askTrade_.price_ = askN.order.price_ := by
  obtain ⟨⟨hsb, hsa, -, -⟩, -⟩ := hw
  refine ⟨?_, ?_, ?_⟩
  · intro p hp
    rw [hb] at hsb hp
    rcases head_max_of_sorted hsb p hp with h1 | h1
    · exact le_of_eq h1
    · exact le_of_lt h1
  · intro p hp
    rw [ha] at hsa hp
    rcases head_max_of_sorted hsa p hp with h1 | h1
    · exact le_of_eq h1.symm
    · exact le_of_lt h1
  · obtain ⟨b2, b3, h1, -, -⟩ := MatchOrders_ok h
    cases fuel with
    | zero => simp [outerLoop] at h1
    | succ fuel =>
      rw [outerLoop_crossed hb ha (not_lt.mpr hx)] at h1
      have hbl : boundLevel b.bids_ bidPrice = bidN :: bidRest := by
        rw [hb]; exact boundLevel_head _ _ _
      have hal : boundLevel b.asks_ askPrice = askN :: askRest := by
        rw [ha]; exact boundLevel_head _ _ _
      rw [innerLoop_step hbl hal] at h1
      cases hs : matchStep bidPrice askPrice b with
      | error e => rw [hs] at h1; cases h1
      | ok r =>
        obtain ⟨b4, t⟩ := r
        rw [hs] at h1
        simp only at h1
        cases hin : innerLoop fuel bidPrice askPrice b4 ([] ++ [t]) with
        | error e => rw [hin] at h1; cases h1
        | ok r2 =>
          obtain ⟨b5, trades5⟩ := r2
          rw [hin] at h1
          simp only at h1
          obtain ⟨more1, hm1⟩ := innerLoop_extends hin
          obtain ⟨more2, hm2⟩ := outerLoop_extends h1
          obtain ⟨bidN1, bidRest1, askN1, askRest1, bid, ask, hb1, ha1, hfb, hfa, -, ht⟩ :=
            matchStep_ok hs
          rw [hbl] at hb1
          rw [hal] at ha1
          cases hb1
          cases ha1
          obtain ⟨-, hbid⟩ := Fill_ok hfb
          obtain ⟨-, hask⟩ := Fill_ok hfa
          refine ⟨t, more1 ++ more2, ?_, ?_, ?_, ?_, ?_⟩
          · rw [hm2, hm1]; simp
          · rw [ht, hbid]; rfl
          · rw [ht, hbid]; rfl
          · rw [ht, hask]; rfl
          · rw [ht, hask]; rfl

/-- C17 on a book with two bid levels and two ask levels: the first trade is
between buy order 1 at 101 and sell order 3 at 100. -/
theorem MatchOrders_first_trade_witness :
    bookDeep.WellFormed
    ∧ MatchOrders 5 bookDeep
        = .ok ({ bids_ := [(99, [{ loc := 2, order := Order.new .GoodTillCancel 2 .Buy 99 5 }])],
                 asks_ := [(102, [{ loc := 5, order := Order.new .GoodTillCancel 5 .Sell 102 6 }])],
                 orders_ := [(2, { order_ := Order.new .GoodTillCancel 2 .Buy 99 5,
                                   location_ := 2 }),
                             (5, { order_ := Order.new .GoodTillCancel 5 .Sell 102 6,
                                   location_ := 5 })] },
               [⟨⟨1, 101, 3⟩, ⟨3, 100, 3⟩⟩, ⟨⟨1, 101, 2⟩, ⟨4, 100, 2⟩⟩])
    ∧ (∀ p ∈ ladderKeys bookDeep.bids_, p ≤ 101)
    ∧ (∀ p ∈ ladderKeys bookDeep.asks_, 100 ≤ p)
    ∧ ∃ t rest, [(⟨⟨1, 101, 3⟩, ⟨3, 100, 3⟩⟩ : Trade), ⟨⟨1, 101, 2⟩, ⟨4, 100, 2⟩⟩] = t :: rest
        ∧ t.bidTrade_.orderId_ = 1 ∧ t.bidTrade_.price_ = 101
        ∧ t.askTrade_.orderId_ = 3 ∧ t.askTrade_.price_ = 100 :=
  ⟨by decide, rfl,
   MatchOrders_first_trade 5 bookDeep _ _ 101 100
     { loc := 1, order := Order.new .GoodTillCancel 1 .Buy 101 5 }
     { loc := 3, order := Order.new .GoodTillCancel 3 .Sell 100 3 }
     [] [{ loc := 4, order := Order.new .GoodTillCancel 4 .Sell 100 2 }]
     [(99, [{ loc := 2, order := Order.new .GoodTillCancel 2 .Buy 99 5 }])]
     [(102, [{ loc := 5, order := Order.new .GoodTillCancel 5 .Sell 102 6 }])]
     (by decide) rfl rfl (by decide) rfl⟩

theorem ladderNodes_cons (p : Price) (os : OrderPointers) (rest : Ladder) :
    ladderNodes ((p, os) :: rest) = os ++ ladderNodes rest := by
  simp [ladderNodes]

theorem levelAt_of_boundLevel {l : Ladder} {price : Price} {n : Node} {rest : OrderPointers}
    (h : boundLevel l price = n :: rest) : levelAt l price = some (n :: rest) := by
  unfold boundLevel at h
  cases hl : levelAt l price with
  | none => rw [hl] at h; simp at h
  | some os => rw [hl] at h; simpa using h

theorem mem_ladderNodes_of_levelAt {l : Ladder} {price : Price} {os : OrderPointers} {n : Node}
    (h : levelAt l price = some os) (hn : n ∈ os) : n ∈ ladderNodes l := by
  have hm := mem_of_levelAt h
  unfold ladderNodes
  exact List.mem_flatten.mpr ⟨os, List.mem_map.mpr ⟨(price, os), hm, rfl⟩, hn⟩

theorem mem_ladderNodes_setLevel {price : Price} {os : OrderPointers} {l : Ladder} {n : Node}
    (h : n ∈ ladderNodes (setLevel price os l)) : n ∈ os ∨ n ∈ ladderNodes l := by
  induction l with
  | nil => simp [setLevel, ladderNodes] at h
  | cons lv rest ih =>
    obtain ⟨p, ps⟩ := lv
    rw [setLevel_cons] at h
    split at h
    · rw [ladderNodes_cons, List.mem_append] at h
      rw [ladderNodes_cons, List.mem_append]
      rcases h with h | h
      · exact Or.inl h
      · exact Or.inr (Or.inr h)
    · rw [ladderNodes_cons, List.mem_append] at h
      rw [ladderNodes_cons, List.mem_append]
      rcases h with h | h
      · exact Or.inr (Or.inl h)
      · rcases ih h with h2 | h2
        · exact Or.inl h2
        · exact Or.inr (Or.inr h2)

theorem mem_ladderNodes_eraseLevel {price : Price} {l : Ladder} {n : Node}
    (h : n ∈ ladderNodes (eraseLevel price l)) : n ∈ ladderNodes l := by
  induction l with
  | nil => simp [eraseLevel, ladderNodes] at h
  | cons lv rest ih =>
    obtain ⟨p, ps⟩ := lv
    rw [eraseLevel_cons] at h
    rw [ladderNodes_cons, List.mem_append]
    split at h
    · exact Or.inr h
    · rw [ladderNodes_cons, List.mem_append] at h
      rcases h with h | h
      · exact Or.inl h
      · exact Or.inr (ih h)

theorem mem_ladderNodes_step {price : Price} {os : OrderPointers} {l : Ladder} {n : Node}
    (h : n ∈ ladderNodes (if os.isEmpty then eraseLevel price (setLevel price os l)
      else setLevel price os l)) : n ∈ os ∨ n ∈ ladderNodes l := by
  split at h
  · rw [eraseLevel_setLevel] at h
    exact Or.inr (mem_ladderNodes_eraseLevel h)
  · exact mem_ladderNodes_setLevel h

theorem sum_setLevel (f : Node → Nat) {price : Price} {old : OrderPointers} (new : OrderPointers)
    {l : Ladder} (h : levelAt l price = some old) :
    ((ladderNodes (setLevel price new l)).map f).sum + (old.map f).sum
      = ((ladderNodes l).map f).sum + (new.map f).sum := by
  induction l with
  | nil => simp [levelAt] at h
  | cons lv rest ih =>
    obtain ⟨p, ps⟩ := lv
    rw [levelAt_cons] at h
    rw [setLevel_cons]
    by_cases hp : p = price
    · rw [if_pos hp] at h ⊢
      simp only [Option.some.injEq] at h
      subst h
      simp only [ladderNodes_cons, List.map_append, List.sum_append]
      omega
    · rw [if_neg hp] at h ⊢
      have := ih h
      simp only [ladderNodes_cons, List.map_append, List.sum_append]
      omega

theorem sum_eraseLevel (f : Node → Nat) {price : Price} {old : OrderPointers}
    {l : Ladder} (h : levelAt l price = some old) :
    ((ladderNodes (eraseLevel price l)).map f).sum + (old.map f).sum
      = ((ladderNodes l).map f).sum := by
  induction l with
  | nil => simp [levelAt] at h
  | cons lv rest ih =>
    obtain ⟨p, ps⟩ := lv
    rw [levelAt_cons] at h
    rw [eraseLevel_cons]
    by_cases hp : p = price
    · rw [if_pos hp] at h ⊢
      simp only [Option.some.injEq] at h
      subst h
      simp only [ladderNodes_cons, List.map_append, List.sum_append]
      omega
    · rw [if_neg hp] at h ⊢
      have := ih h
      simp only [ladderNodes_cons, List.map_append, List.sum_append]
      omega

theorem sum_step (f : Node → Nat) {price : Price} {old : OrderPointers} (new : OrderPointers)
    {l : Ladder} (h : levelAt l price = some old) :
    ((ladderNodes (if new.isEmpty then eraseLevel price (setLevel price new l)
        else setLevel price new l)).map f).sum + (old.map f).sum
      = ((ladderNodes l).map f).sum + (new.map f).sum := by
  split
  · rename_i he
    have hn : new = [] := List.isEmpty_iff.mp he
    rw [eraseLevel_setLevel, sum_eraseLevel f h, hn]
    simp
  · exact sum_setLevel f new h

theorem length_eq_sum_one (l : List Node) : l.length = (l.map (fun _ => 1)).sum := by
  induction l with
  | nil => rfl
  | cons a t ih =>
    simp only [List.length_cons, List.map_cons, List.sum_cons, ih]
    omega

/-- The sequence of a level after one of its front order's `Fill` and the
`pop_front` that follows when the order is filled. -/
theorem front_remaining {n : Node} (rest : OrderPointers) {o : Order} {q : Nat}
    (hq : q ≤ n.order.remaining_quantity)
    (ho : o = { n.order with remaining_quantity := n.order.remaining_quantity - q }) :
    ((if o.IsFilled then rest else { n with order := o } :: rest).map
        (fun m => m.order.remaining_quantity)).sum + q
      = ((n :: rest).map (fun m => m.order.remaining_quantity)).sum := by
  by_cases hf : o.IsFilled = true
  · rw [if_pos hf]
    have h0 : n.order.remaining_quantity - q = 0 := by
      simpa [Order.IsFilled, Order.GetRemainingQuantity, ho] using hf
    simp only [List.map_cons, List.sum_cons]
    unfold Quantity at *
    omega
  · rw [if_neg hf]
    simp only [List.map_cons, List.sum_cons, ho]
    unfold Quantity at *
    omega

theorem front_length (n : Node) (rest : OrderPointers) (o : Order) :
    (if o.IsFilled then rest else { n with order := o } :: rest).length
        + (if o.IsFilled then 1 else 0)
      = (n :: rest).length := by
  by_cases hf : o.IsFilled = true
  · simp [hf]
  · simp [hf]

/-- What a successful pass through the body of the inner loop does to the
total remaining quantities and to the number of resting orders. -/
theorem matchStep_totals {bidPrice askPrice : Price} {b b1 : Book} {t : Trade}
    (hs : matchStep bidPrice askPrice b = .ok (b1, t)) :
    t.bidTrade_.quantity_ = t.askTrade_.quantity_
    ∧ ladderRemaining b1.bids_ + t.bidTrade_.quantity_ = ladderRemaining b.bids_
    ∧ ladderRemaining b1.asks_ + t.bidTrade_.quantity_ = ladderRemaining b.asks_
    ∧ ∃ bidN bidRest askN askRest bid ask,
        boundLevel b.bids_ bidPrice = bidN :: bidRest
        ∧ boundLevel b.asks_ askPrice = askN :: askRest
        ∧ bid = { bidN.order with
                  remaining_quantity := bidN.order.remaining_quantity - t.bidTrade_.quantity_ }
        ∧ ask = { askN.order with
                  remaining_quantity := askN.order.remaining_quantity - t.bidTrade_.quantity_ }
        ∧ t.bidTrade_.quantity_ = min bidN.order.remaining_quantity askN.order.initial_quantity_
        ∧ t.bidTrade_.quantity_ ≤ askN.order.remaining_quantity
        ∧ (ladderNodes b1.bids_).length + (if bid.IsFilled then 1 else 0)
            = (ladderNodes b.bids_).length
        ∧ (ladderNodes b1.asks_).length + (if ask.IsFilled then 1 else 0)
            = (ladderNodes b.asks_).length
        ∧ (∀ n ∈ ladderNodes b1.bids_,
            n ∈ ladderNodes b.bids_ ∨ n = { bidN with order := bid })
        ∧ (∀ n ∈ ladderNodes b1.asks_,
            n ∈ ladderNodes b.asks_ ∨ n = { askN with order := ask })
        ∧ bidN ∈ ladderNodes b.bids_ ∧ askN ∈ ladderNodes b.asks_ := by
  obtain ⟨bidN, bidRest, askN, askRest, bid, ask, hb, ha, hfb, hfa, hb1, ht⟩ := matchStep_ok hs
  obtain ⟨hqb, hbid⟩ := Fill_ok hfb
  obtain ⟨hqa, hask⟩ := Fill_ok hfa
  have hlb := levelAt_of_boundLevel hb
  have hla := levelAt_of_boundLevel ha
  have htq : t.bidTrade_.quantity_
      = min bidN.order.GetRemainingQuantity askN.order.GetInitialQuantity := by rw [ht]
  have hsb := sum_step (fun m => m.order.remaining_quantity)
    (if bid.IsFilled then bidRest else { bidN with order := bid } :: bidRest) hlb
  have hsa := sum_step (fun m => m.order.remaining_quantity)
    (if ask.IsFilled then askRest else { askN with order := ask } :: askRest) hla
  have hcb := sum_step (fun _ => 1)
    (if bid.IsFilled then bidRest else { bidN with order := bid } :: bidRest) hlb
  have hca := sum_step (fun _ => 1)
    (if ask.IsFilled then askRest else { askN with order := ask } :: askRest) hla
  rw [← length_eq_sum_one, ← length_eq_sum_one, ← length_eq_sum_one, ← length_eq_sum_one] at hcb hca
  have hfrb := front_remaining bidRest hqb hbid
  have hfra := front_remaining askRest hqa hask
  have hflb := front_length bidN bidRest bid
  have hfla := front_length askN askRest ask
  have hbids : b1.bids_ = (if (if bid.IsFilled then bidRest
        else { bidN with order := bid } :: bidRest).isEmpty
      then eraseLevel bidPrice (setLevel bidPrice (if bid.IsFilled then bidRest
        else { bidN with order := bid } :: bidRest) b.bids_)
      else setLevel bidPrice (if bid.IsFilled then bidRest
        else { bidN with order := bid } :: bidRest) b.bids_) := by rw [hb1]; rfl
  have hasks : b1.asks_ = (if (if ask.IsFilled then askRest
        else { askN with order := ask } :: askRest).isEmpty
      then eraseLevel askPrice (setLevel askPrice (if ask.IsFilled then askRest
        else { askN with order := ask } :: askRest) b.asks_)
      else setLevel askPrice (if ask.IsFilled then askRest
        else { askN with order := ask } :: askRest) b.asks_) := by rw [hb1]; rfl
  refine ⟨by rw [ht], ?_, ?_, bidN, bidRest, askN, askRest, bid, ask, hb, ha, ?_, ?_, htq, ?_, ?_, ?_,
    ?_, ?_, mem_ladderNodes_of_levelAt hlb (List.mem_cons_self _ _),
    mem_ladderNodes_of_levelAt hla (List.mem_cons_self _ _)⟩
  · unfold ladderRemaining
    rw [hbids, htq]
    unfold Quantity at *
    omega
  · unfold ladderRemaining
    rw [hasks, htq]
    unfold Quantity at *
    omega
  · rw [htq]; exact hbid
  · rw [htq]; exact hask
  · rw [htq]; exact hqa
  · rw [hbids]; omega
  · rw [hasks]; omega
  · intro n hn
    rw [hbids] at hn
    rcases mem_ladderNodes_step hn with h1 | h1
    · split at h1
      · exact Or.inl (mem_ladderNodes_of_levelAt hlb (List.mem_cons_of_mem _ h1))
      · rcases List.mem_cons.mp h1 with h2 | h2
        · exact Or.inr h2
        · exact Or.inl (mem_ladderNodes_of_levelAt hlb (List.mem_cons_of_mem _ h2))
    · exact Or.inl h1
  · intro n hn
    rw [hasks] at hn
    rcases mem_ladderNodes_step hn with h1 | h1
    · split at h1
      · exact Or.inl (mem_ladderNodes_of_levelAt hla (List.mem_cons_of_mem _ h1))
      · rcases List.mem_cons.mp h1 with h2 | h2
        · exact Or.inr h2
        · exact Or.inl (mem_ladderNodes_of_levelAt hla (List.mem_cons_of_mem _ h2))
    · exact Or.inl h1

theorem executedTotal_append (trades : Trades) (t : Trade) :
    executedTotal (trades ++ [t]) = executedTotal trades + t.bidTrade_.quantity_ := by
  simp [executedTotal]

theorem matchStep_onlyGoodTillCancel {bidPrice askPrice : Price} {b b1 : Book} {t : Trade}
    (hb : OnlyGoodTillCancel b.bids_) (ha : OnlyGoodTillCancel b.asks_)
    (hs : matchStep bidPrice askPrice b = .ok (b1, t)) :
    OnlyGoodTillCancel b1.bids_ ∧ OnlyGoodTillCancel b1.asks_ := by
  obtain ⟨-, -, -, bidN, bidRest, askN, askRest, bid, ask, -, -, hbid, hask, -, -, -, -, hnb, hna,
    hmb, hma⟩ := matchStep_totals hs
  constructor
  · intro n hn
    rcases hnb n hn with h1 | h1
    · exact hb n h1
    · rw [h1, hbid]; exact hb bidN hmb
  · intro n hn
    rcases hna n hn with h1 | h1
    · exact ha n h1
    · rw [h1, hask]; exact ha askN hma

theorem killFront_of_onlyGoodTillCancel {l : Ladder} {b b1 : Book}
    (hl : OnlyGoodTillCancel l) (h : killFront l b = .ok b1) : b1 = b := by
  unfold killFront at h
  split at h
  · simp only [Except.ok.injEq] at h; exact h.symm
  · cases h
  · rename_i p order rest tail
    have hg : order.order.orderType_ = OrderType.GoodTillCancel :=
      hl order (by rw [ladderNodes_cons]; exact List.mem_append_left _ (List.mem_cons_self _ _))
    have hne : ¬ order.order.GetOrderType = OrderType.FillAndKill := by
      unfold Order.GetOrderType; rw [hg]; decide
    rw [if_neg hne] at h
    simp only [Except.ok.injEq] at h; exact h.symm

/-- C18: on every book whose resting orders are all `GoodTillCancel`, whenever
`MatchOrders` returns, the sum of the executed quantities of the returned
trades equals the total remaining quantity of the bid ladder before the call
minus its total after the call, and equals the same difference for the ask
ladder; each trade carries the same quantity on both legs. -/
theorem MatchOrders_conserves_quantity (fuel : Nat) (b b1 : Book) (trades : Trades)
    (hb : OnlyGoodTillCancel b.bids_) (ha : OnlyGoodTillCancel b.asks_)
    (h : MatchOrders fuel b = .ok (b1, trades)) :
    executedTotal trades = ladderRemaining b.bids_ - ladderRemaining b1.bids_
    ∧ executedTotal trades = ladderRemaining b.asks_ - ladderRemaining b1.asks_
    ∧ ladderRemaining b1.bids_ ≤ ladderRemaining b.bids_
    ∧ ladderRemaining b1.asks_ ≤ ladderRemaining b.asks_
    ∧ ∀ t ∈ trades, t.bidTrade_.quantity_ = t.askTrade_.quantity_ := by
  obtain ⟨b2, b3, h1, h2, h3⟩ := MatchOrders_ok h
  have key := outerLoop_invariant
    (fun b4 ts => OnlyGoodTillCancel b4.bids_ ∧ OnlyGoodTillCancel b4.asks_
      ∧ ladderRemaining b4.bids_ + executedTotal ts = ladderRemaining b.bids_
      ∧ ladderRemaining b4.asks_ + executedTotal ts = ladderRemaining b.asks_
      ∧ ∀ t ∈ ts, t.bidTrade_.quantity_ = t.askTrade_.quantity_)
    (by
      intro bidPrice askPrice b4 ts b5 t hP hs
      obtain ⟨hgb, hga, hrb, hra, hq⟩ := hP
      obtain ⟨hg1, hg2⟩ := matchStep_onlyGoodTillCancel hgb hga hs
      obtain ⟨hteq, htb, hta, -⟩ := matchStep_totals hs
      refine ⟨hg1, hg2, ?_, ?_, ?_⟩
      · rw [executedTotal_append]; omega
      · rw [executedTotal_append]; omega
      · intro t1 ht1
        rcases List.mem_append.mp ht1 with h4 | h4
        · exact hq t1 h4
        · rw [List.mem_singleton.mp h4]; exact hteq)
    fuel b [] b2 trades ⟨hb, ha, by simp [executedTotal], by simp [executedTotal], by simp⟩ h1
  obtain ⟨hgb, hga, hrb, hra, hq⟩ := key
  have e2 : b3 = b2 := killFront_of_onlyGoodTillCancel hgb h2
  subst e2
  have e3 : b1 = b3 := killFront_of_onlyGoodTillCancel hga h3
  subst e3
  refine ⟨?_, ?_, ?_, ?_, hq⟩ <;> omega

/-- C18 on a book with two bid levels and two ask levels: two trades of 3 and
2; the bid ladder goes from 10 to 5 and the ask ladder from 11 to 6. -/
theorem MatchOrders_conserves_quantity_witness :
    OnlyGoodTillCancel bookDeep.bids_ ∧ OnlyGoodTillCancel bookDeep.asks_
    ∧ MatchOrders 5 bookDeep
        = .ok ({ bids_ := [(99, [{ loc := 2, order := Order.new .GoodTillCancel 2 .Buy 99 5 }])],
                 asks_ := [(102, [{ loc := 5, order := Order.new .GoodTillCancel 5 .Sell 102 6 }])],
                 orders_ := [(2, { order_ := Order.new .GoodTillCancel 2 .Buy 99 5,
                                   location_ := 2 }),
                             (5, { order_ := Order.new .GoodTillCancel 5 .Sell 102 6,
                                   location_ := 5 })] },
               [⟨⟨1, 101, 3⟩, ⟨3, 100, 3⟩⟩, ⟨⟨1, 101, 2⟩, ⟨4, 100, 2⟩⟩])
    ∧ executedTotal [⟨⟨1, 101, 3⟩, ⟨3, 100, 3⟩⟩, ⟨⟨1, 101, 2⟩, ⟨4, 100, 2⟩⟩] = 5
    ∧ ladderRemaining bookDeep.bids_ = 10 ∧ ladderRemaining bookDeep.asks_ = 11
    ∧ executedTotal [⟨⟨1, 101, 3⟩, ⟨3, 100, 3⟩⟩, ⟨⟨1, 101, 2⟩, ⟨4, 100, 2⟩⟩]
        = ladderRemaining bookDeep.bids_
          - ladderRemaining [(99, [{ loc := 2, order := Order.new .GoodTillCancel 2 .Buy 99 5 }])] :=
  ⟨by decide, by decide, rfl, rfl, rfl, rfl,
   (MatchOrders_conserves_quantity 5 bookDeep _ _ (by decide) (by decide) rfl).1⟩

theorem resting_length (b : Book) :
    b.resting.length = (ladderNodes b.bids_).length + (ladderNodes b.asks_).length := by
  simp [Book.resting]

/-- A pass through the body of the inner loop that does not signal an error
removes at least one front order, when the remaining quantity of every resting
sell order is at most its initial quantity. -/
theorem matchStep_removes {bidPrice askPrice : Price} {b b1 : Book} {t : Trade}
    (ha : RemainingLeInitial b.asks_)
    (hs : matchStep bidPrice askPrice b = .ok (b1, t)) :
    b1.resting.length + 1 ≤ b.resting.length := by
  obtain ⟨-, -, -, bidN, bidRest, askN, askRest, bid, ask, -, -, hbid, hask, hq, hqa, hcb, hca,
    -, -, -, hma⟩ := matchStep_totals hs
  have hle := ha askN hma
  rw [resting_length, resting_length]
  by_cases hc : bidN.order.remaining_quantity ≤ askN.order.initial_quantity_
  · have hf : bid.IsFilled = true := by
      rw [hbid]
      simp only [Order.IsFilled, Order.GetRemainingQuantity, beq_iff_eq]
      unfold Quantity at *
      omega
    rw [if_pos hf] at hcb
    have : (if ask.IsFilled = true then 1 else 0) ≥ 0 := Nat.zero_le _
    omega
  · have hf : ask.IsFilled = true := by
      rw [hask]
      simp only [Order.IsFilled, Order.GetRemainingQuantity, beq_iff_eq]
      unfold Quantity at *
      omega
    rw [if_pos hf] at hca
    have : (if bid.IsFilled = true then 1 else 0) ≥ 0 := Nat.zero_le _
    omega

theorem matchStep_remainingLeInitial {bidPrice askPrice : Price} {b b1 : Book} {t : Trade}
    (hb : RemainingLeInitial b.bids_) (ha : RemainingLeInitial b.asks_)
    (hs : matchStep bidPrice askPrice b = .ok (b1, t)) :
    RemainingLeInitial b1.bids_ ∧ RemainingLeInitial b1.asks_ := by
  obtain ⟨-, -, -, bidN, bidRest, askN, askRest, bid, ask, -, -, hbid, hask, -, -, -, -, hnb, hna,
    hmb, hma⟩ := matchStep_totals hs
  constructor
  · intro n hn
    rcases hnb n hn with h1 | h1
    · exact hb n h1
    · have := hb bidN hmb
      rw [h1, hbid]
      simp only
      unfold Quantity at *
      omega
  · intro n hn
    rcases hna n hn with h1 | h1
    · exact ha n h1
    · have := ha askN hma
      rw [h1, hask]
      simp only
      unfold Quantity at *
      omega

/-- What the loops keep when every resting order has `remaining ≤ initial`:
that property, and one resting order less for every trade recorded. -/
theorem matchStep_progress (n0 : Nat) :
    ∀ (bidPrice askPrice : Price) (b : Book) (trades : Trades) (b1 : Book) (t : Trade),
      (RemainingLeInitial b.bids_ ∧ RemainingLeInitial b.asks_
        ∧ b.resting.length + trades.length ≤ n0) →
      matchStep bidPrice askPrice b = .ok (b1, t) →
      (RemainingLeInitial b1.bids_ ∧ RemainingLeInitial b1.asks_
        ∧ b1.resting.length + (trades ++ [t]).length ≤ n0) := by
  intro bidPrice askPrice b trades b1 t hP hs
  obtain ⟨hb, ha, hn⟩ := hP
  obtain ⟨h1, h2⟩ := matchStep_remainingLeInitial hb ha hs
  have h3 := matchStep_removes ha hs
  refine ⟨h1, h2, ?_⟩
  rw [List.length_append, List.length_singleton]
  omega

theorem Fill_cases (o : Order) (quantity : Quantity) :
    o.Fill quantity = .error .invalidQuantity ∨ ∃ o1, o.Fill quantity = .ok o1 := by
  unfold Order.Fill
  split
  · exact Or.inl rfl
  · exact Or.inr ⟨_, rfl⟩

theorem matchStep_ne_fuel {bidPrice askPrice : Price} {b : Book} {bidN askN : Node}
    {bidRest askRest : OrderPointers}
    (hb : boundLevel b.bids_ bidPrice = bidN :: bidRest)
    (ha : boundLevel b.asks_ askPrice = askN :: askRest) :
    matchStep bidPrice askPrice b = .error .invalidQuantity
    ∨ ∃ r, matchStep bidPrice askPrice b = .ok r := by
  unfold matchStep
  rw [hb, ha]
  simp only
  rcases Fill_cases bidN.order
      (min bidN.order.GetRemainingQuantity askN.order.GetInitialQuantity) with h1 | ⟨o1, h1⟩
  · rw [h1]; exact Or.inl rfl
  · rw [h1]
    simp only
    rcases Fill_cases askN.order
        (min bidN.order.GetRemainingQuantity askN.order.GetInitialQuantity) with h2 | ⟨o2, h2⟩
    · rw [h2]; exact Or.inl rfl
    · rw [h2]; exact Or.inr ⟨_, rfl⟩

/-- With a budget above the number of resting orders the inner loop ends: it
returns or signals the invalid-fill error. -/
theorem innerLoop_ends : ∀ (fuel : Nat) (bidPrice askPrice : Price) (b : Book) (trades : Trades),
    RemainingLeInitial b.bids_ → RemainingLeInitial b.asks_ → b.resting.length + 1 ≤ fuel →
    innerLoop fuel bidPrice askPrice b trades = .error .invalidQuantity
    ∨ ∃ r, innerLoop fuel bidPrice askPrice b trades = .ok r := by
  intro fuel
  induction fuel with
  | zero => intro _ _ _ _ _ _ h; omega
  | succ fuel ih =>
    intro bidPrice askPrice b trades hb ha hf
    cases hbl : boundLevel b.bids_ bidPrice with
    | nil => right; exact ⟨(b, trades), by simp [innerLoop, hbl]⟩
    | cons bidN bidRest =>
      cases hal : boundLevel b.asks_ askPrice with
      | nil => right; exact ⟨(b, trades), by simp [innerLoop, hal]⟩
      | cons askN askRest =>
        rw [innerLoop_step hbl hal]
        rcases matchStep_ne_fuel hbl hal with h1 | ⟨r, h1⟩
        · rw [h1]; exact Or.inl rfl
        · obtain ⟨b1, t⟩ := r
          rw [h1]
          simp only
          obtain ⟨hb1, ha1⟩ := matchStep_remainingLeInitial hb ha h1
          have := matchStep_removes ha h1
          exact ih bidPrice askPrice b1 (trades ++ [t]) hb1 ha1 (by omega)

theorem innerLoop_progress {fuel : Nat} {bidPrice askPrice : Price} {b b1 : Book}
    {trades trades1 : Trades}
    (hb : RemainingLeInitial b.bids_) (ha : RemainingLeInitial b.asks_)
    (h : innerLoop fuel bidPrice askPrice b trades = .ok (b1, trades1)) :
    RemainingLeInitial b1.bids_ ∧ RemainingLeInitial b1.asks_
      ∧ b1.resting.length + trades1.length ≤ b.resting.length + trades.length :=
  innerLoop_invariant _ (matchStep_progress (b.resting.length + trades.length))
    fuel bidPrice askPrice b trades b1 trades1 ⟨hb, ha, Nat.le_refl _⟩ h

theorem outerLoop_progress {fuel : Nat} {b b1 : Book} {trades trades1 : Trades}
    (hb : RemainingLeInitial b.bids_) (ha : RemainingLeInitial b.asks_)
    (h : outerLoop fuel b trades = .ok (b1, trades1)) :
    RemainingLeInitial b1.bids_ ∧ RemainingLeInitial b1.asks_
      ∧ b1.resting.length + trades1.length ≤ b.resting.length + trades.length :=
  outerLoop_invariant _ (matchStep_progress (b.resting.length + trades.length))
    fuel b trades b1 trades1 ⟨hb, ha, Nat.le_refl _⟩ h

theorem innerLoop_levelsNonEmpty {fuel : Nat} {bidPrice askPrice : Price} {b b1 : Book}
    {trades trades1 : Trades} (h : LevelsNonEmpty b)
    (hl : innerLoop fuel bidPrice askPrice b trades = .ok (b1, trades1)) :
    LevelsNonEmpty b1 :=
  innerLoop_invariant (fun b2 _ => LevelsNonEmpty b2)
    (fun _ _ _ _ _ _ hP hs => matchStep_levelsNonEmpty hP hs)
    fuel bidPrice askPrice b trades b1 trades1 h hl

/-- With a budget above the number of resting orders the outer loop ends, on a
book without an empty level: it returns or signals the invalid-fill error. -/
theorem outerLoop_ends : ∀ (fuel : Nat) (b : Book) (trades : Trades),
    LevelsNonEmpty b → RemainingLeInitial b.bids_ → RemainingLeInitial b.asks_ →
    b.resting.length + 1 ≤ fuel →
    outerLoop fuel b trades = .error .invalidQuantity
    ∨ ∃ r, outerLoop fuel b trades = .ok r := by
  intro fuel
  induction fuel with
  | zero => intro _ _ _ _ _ h; omega
  | succ fuel ih =>
    intro b trades hl hb ha hf
    cases hbs : b.bids_ with
    | nil => right; exact ⟨(b, trades), by rw [outerLoop, hbs]⟩
    | cons lb bidsTail =>
      obtain ⟨bidPrice, bids⟩ := lb
      cases has : b.asks_ with
      | nil => right; exact ⟨(b, trades), by rw [outerLoop, hbs, has]⟩
      | cons la asksTail =>
        obtain ⟨askPrice, asks⟩ := la
        by_cases hx : bidPrice < askPrice
        · right; exact ⟨(b, trades), by rw [outerLoop, hbs, has]; simp [hx]⟩
        · rw [outerLoop_crossed hbs has hx]
          have hbne : bids ≠ [] := hl.1 (bidPrice, bids) (by rw [hbs]; exact List.mem_cons_self _ _)
          have hane : asks ≠ [] := hl.2 (askPrice, asks) (by rw [has]; exact List.mem_cons_self _ _)
          obtain ⟨bidN, bidRest, hbe⟩ := List.exists_cons_of_ne_nil hbne
          obtain ⟨askN, askRest, hae⟩ := List.exists_cons_of_ne_nil hane
          have hbl : boundLevel b.bids_ bidPrice = bidN :: bidRest := by
            rw [hbs, boundLevel_head, hbe]
          have hal : boundLevel b.asks_ askPrice = askN :: askRest := by
            rw [has, boundLevel_head, hae]
          rcases innerLoop_ends (fuel + 1) bidPrice askPrice b trades hb ha hf with h1 | ⟨r, h1⟩
          · rw [h1]; exact Or.inl rfl
          · obtain ⟨b1, trades1⟩ := r
            rw [h1]
            simp only
            have h2 := h1
            rw [innerLoop_step hbl hal] at h2
            cases hs : matchStep bidPrice askPrice b with
            | error e => rw [hs] at h2; cases h2
            | ok r2 =>
              obtain ⟨b2, t⟩ := r2
              rw [hs] at h2
              simp only at h2
              have hrem := matchStep_removes ha hs
              obtain ⟨hb2, ha2⟩ := matchStep_remainingLeInitial hb ha hs
              have hl2 := matchStep_levelsNonEmpty hl hs
              obtain ⟨hb1, ha1, hn1⟩ := innerLoop_progress hb2 ha2 h2
              have hl1 := innerLoop_levelsNonEmpty hl2 h2
              obtain ⟨more, hm⟩ := innerLoop_extends h2
              have hlen : (trades ++ [t]).length ≤ trades1.length := by
                rw [hm]; simp only [List.length_append]; omega
              exact ih b1 trades1 hl1 hb1 ha1 (by omega)

theorem cancelIn_ne_fuel (l : Ladder) (price : Price) (location : Nat) :
    cancelIn l price location ≠ .error .fuelExhausted := by
  unfold cancelIn
  split
  · simp
  · split
    · simp only
      split <;> simp
    · simp

theorem CancelOrder_ne_fuel (orderId : OrderId) (b : Book) :
    CancelOrder orderId b ≠ .error .fuelExhausted := by
  unfold CancelOrder
  split
  · simp
  · simp only
    split
    · split
      · rename_i e hc
        intro h
        simp only [Except.error.injEq] at h
        exact cancelIn_ne_fuel _ _ _ (h ▸ hc)
      · simp
    · split
      · rename_i e hc
        intro h
        simp only [Except.error.injEq] at h
        exact cancelIn_ne_fuel _ _ _ (h ▸ hc)
      · simp

theorem killFront_ne_fuel (l : Ladder) (b : Book) :
    killFront l b ≠ .error .fuelExhausted := by
  unfold killFront
  split
  · simp
  · simp
  · split
    · exact CancelOrder_ne_fuel _ _
    · simp

/-- Why the loops need the level invariant: on a crossed book whose best bid
level is an empty sequence the inner loop is never entered and the outer loop
repeats on an unchanged book, whatever the step budget. -/
theorem outerLoop_spins_on_empty_level :
    ∀ fuel, outerLoop fuel bookEmptyLevel [] = .error .fuelExhausted := by
  intro fuel
  induction fuel with
  | zero => rfl
  | succ fuel ih =>
    have hstep : outerLoop (fuel + 1) bookEmptyLevel [] = outerLoop fuel bookEmptyLevel [] := rfl
    rw [hstep, ih]

/-- C15 on a book with bids at 100 and an ask at 105: a sell order of 15 at 100
empties the bid level at 100 and its own level, and both levels are gone. -/
theorem operations_keep_levels_nonempty_witness :
    bookThree.WellFormed
    ∧ (∃ b1 trades,
        AddOrder 5 (Order.new .GoodTillCancel 3 .Sell 100 15) bookThree = .ok (b1, trades)
        ∧ b1.bids_ = [] ∧ ladderKeys b1.asks_ = [105]
        ∧ NoEmptyLevel b1.bids_ ∧ NoEmptyLevel b1.asks_)
    ∧ (∃ b1, CancelOrder 3 bookThree = .ok b1
        ∧ b1.asks_ = [] ∧ NoEmptyLevel b1.bids_ ∧ NoEmptyLevel b1.asks_)
    ∧ (∃ b1 trades,
        MatchOrder 5 { orderId_ := 3, price_ := 101, side_ := Side.Sell, quantity_ := 5 }
          bookThree = .ok (b1, trades)
        ∧ NoEmptyLevel b1.bids_ ∧ NoEmptyLevel b1.asks_) :=
  have h := operations_keep_levels_nonempty 5 bookThree (by decide)
  ⟨by decide,
   ⟨_, _, rfl, rfl, rfl, h.1 (Order.new .GoodTillCancel 3 .Sell 100 15) _ _ rfl⟩,
   ⟨_, rfl, rfl, h.2.1 3 _ rfl⟩,
   ⟨_, _, rfl,
    h.2.2 { orderId_ := 3, price_ := 101, side_ := Side.Sell, quantity_ := 5 } _ _ rfl⟩⟩

/-- C12 on a book with two bid levels and two ask levels. -/
theorem GetOrderInfos_levels_witness :
    bookDeep.Valid
    ∧ GetOrderInfos bookDeep
        = { bids_ := [⟨101, 5⟩, ⟨99, 5⟩], asks_ := [⟨100, 5⟩, ⟨102, 6⟩] }
    ∧ (GetOrderInfos bookDeep).bids_.map LevelInfo.price_ = ladderKeys bookDeep.bids_
    ∧ ((GetOrderInfos bookDeep).bids_.map LevelInfo.price_).Pairwise (fun x y => x > y)
    ∧ ((GetOrderInfos bookDeep).asks_.map LevelInfo.price_).Pairwise (fun x y => x < y) :=
  have h := GetOrderInfos_levels bookDeep
  ⟨by decide, rfl, h.2.2.1, (h.2.2.2.2 (by decide)).1, (h.2.2.2.2 (by decide)).2.1⟩

theorem ladderLocs_cons (p : Price) (os : OrderPointers) (rest : Ladder) :
    ladderLocs ((p, os) :: rest) = os.map Node.loc ++ ladderLocs rest := by
  simp [ladderLocs]

theorem mem_ladderLocs_of_levelAt {l : Ladder} {price : Price} {os : OrderPointers} {n : Node}
    (h : levelAt l price = some os) (hn : n ∈ os) : n.loc ∈ ladderLocs l := by
  have hm := mem_of_levelAt h
  unfold ladderLocs
  exact List.mem_flatten.mpr ⟨os.map Node.loc,
    List.mem_map.mpr ⟨(price, os), hm, rfl⟩, List.mem_map_of_mem Node.loc hn⟩

theorem eq_of_loc_eq {os : OrderPointers} {n m : Node} (hn : (os.map Node.loc).Nodup)
    (h1 : n ∈ os) (h2 : m ∈ os) (h : n.loc = m.loc) : n = m :=
  List.inj_on_of_nodup_map hn h1 h2 h

/-- In a ladder whose nodes have distinct identities, a node identity occurs
in one level only, and once there. -/
theorem level_unique {l : Ladder} (hn : (ladderLocs l).Nodup) {p q : Price}
    {L1 L2 : OrderPointers} {n m : Node} (h1 : levelAt l p = some L1)
    (h2 : levelAt l q = some L2) (hn1 : n ∈ L1) (hm2 : m ∈ L2) (h : n.loc = m.loc) :
    p = q ∧ n = m := by
  induction l with
  | nil => simp [levelAt] at h1
  | cons lv rest ih =>
    obtain ⟨k, ks⟩ := lv
    rw [ladderLocs_cons, List.nodup_append] at hn
    obtain ⟨hks, hrest, hdis⟩ := hn
    rw [levelAt_cons] at h1 h2
    by_cases hp : k = p
    · rw [if_pos hp] at h1
      simp only [Option.some.injEq] at h1
      subst h1
      by_cases hq : k = q
      · rw [if_pos hq] at h2
        simp only [Option.some.injEq] at h2
        subst h2
        exact ⟨hp.symm.trans hq, eq_of_loc_eq hks hn1 hm2 h⟩
      · rw [if_neg hq] at h2
        exfalso
        exact hdis (List.mem_map_of_mem Node.loc hn1)
          (by rw [h]; exact mem_ladderLocs_of_levelAt h2 hm2)
    · rw [if_neg hp] at h1
      by_cases hq : k = q
      · rw [if_pos hq] at h2
        simp only [Option.some.injEq] at h2
        subst h2
        exfalso
        exact hdis (List.mem_map_of_mem Node.loc hm2)
          (by rw [← h]; exact mem_ladderLocs_of_levelAt h1 hn1)
      · rw [if_neg hq] at h2
        exact ih hrest h1 h2

theorem ladderLocs_eraseLevel (price : Price) (l : Ladder) :
    (ladderLocs (eraseLevel price l)).Sublist (ladderLocs l) := by
  induction l with
  | nil => exact List.Sublist.refl _
  | cons lv rest ih =>
    obtain ⟨k, ks⟩ := lv
    rw [eraseLevel_cons]
    by_cases hp : k = price
    · rw [if_pos hp, ladderLocs_cons]
      exact List.sublist_append_right _ _
    · rw [if_neg hp, ladderLocs_cons, ladderLocs_cons]
      exact List.Sublist.append (List.Sublist.refl _) ih

theorem ladderLocs_setLevel {price : Price} {old new : OrderPointers} {l : Ladder}
    (h : levelAt l price = some old) (hs : (new.map Node.loc).Sublist (old.map Node.loc)) :
    (ladderLocs (setLevel price new l)).Sublist (ladderLocs l) := by
  induction l with
  | nil => simp [levelAt] at h
  | cons lv rest ih =>
    obtain ⟨k, ks⟩ := lv
    rw [levelAt_cons] at h
    rw [setLevel_cons]
    by_cases hp : k = price
    · rw [if_pos hp] at h ⊢
      simp only [Option.some.injEq] at h
      subst h
      rw [ladderLocs_cons, ladderLocs_cons]
      exact List.Sublist.append hs (List.Sublist.refl _)
    · rw [if_neg hp] at h ⊢
      rw [ladderLocs_cons, ladderLocs_cons]
      exact List.Sublist.append (List.Sublist.refl _) (ih h)

theorem ladderLocs_relevel {price : Price} {old new : OrderPointers} {l : Ladder}
    (h : levelAt l price = some old) (hs : (new.map Node.loc).Sublist (old.map Node.loc)) :
    (ladderLocs (if new.isEmpty then eraseLevel price (setLevel price new l)
      else setLevel price new l)).Sublist (ladderLocs l) := by
  split
  · rw [eraseLevel_setLevel]; exact ladderLocs_eraseLevel _ _
  · exact ladderLocs_setLevel h hs

theorem boundLevel_relevel_ne {price q : Price} (new : OrderPointers) (l : Ladder)
    (hq : q ≠ price) :
    boundLevel (if new.isEmpty then eraseLevel price (setLevel price new l)
      else setLevel price new l) q = boundLevel l q := by
  unfold boundLevel
  split
  · rw [eraseLevel_setLevel, levelAt_eraseLevel_ne l hq]
  · rw [levelAt_setLevel, if_neg hq]

theorem boundLevel_relevel_self {price : Price} {old new : OrderPointers} {l : Ladder}
    (h : levelAt l price = some old) (hne : new ≠ []) :
    boundLevel (if new.isEmpty then eraseLevel price (setLevel price new l)
      else setLevel price new l) price = new := by
  have he : new.isEmpty = false := by
    cases new with
    | nil => exact absurd rfl hne
    | cons a t => rfl
  rw [he]
  simp [boundLevel, levelAt_setLevel, h]

theorem Registry.mem_erase {r : Registry} {orderId : OrderId} {kv : OrderId × OrderEntry} :
    kv ∈ r.erase orderId ↔ kv ∈ r ∧ kv.1 ≠ orderId := by
  simp [Registry.erase, List.mem_filter]

theorem Registry.mem_share {r : Registry} {loc : Nat} {o : Order} {kv : OrderId × OrderEntry}
    (h : kv ∈ r.share loc o) :
    ∃ kv0 ∈ r, kv = (if kv0.2.location_ = loc then (kv0.1, { kv0.2 with order_ := o }) else kv0) := by
  unfold Registry.share at h
  obtain ⟨kv0, h0, h1⟩ := List.mem_map.mp h
  exact ⟨kv0, h0, h1.symm⟩

theorem mem_boundLevel_iff {l : Ladder} {price : Price} {n : Node} :
    n ∈ boundLevel l price ↔ ∃ os, levelAt l price = some os ∧ n ∈ os := by
  constructor
  · exact levelAt_ne_none_of_mem_bound
  · rintro ⟨os, h, hn⟩
    simp [boundLevel, h, hn]

/-- A node other than the front one stays in its level when the front order of
a level is written back or popped. -/
theorem mem_boundLevel_relevel {l : Ladder} {price q : Price} {n m : Node}
    {rest : OrderPointers} (new : Node) (filled : Bool)
    (h : levelAt l price = some (n :: rest)) (hm : m ∈ boundLevel l q) (hne : m.loc ≠ n.loc) :
    m ∈ boundLevel
      (if (if filled then rest else new :: rest).isEmpty
        then eraseLevel price (setLevel price (if filled then rest else new :: rest) l)
        else setLevel price (if filled then rest else new :: rest) l) q := by
  by_cases hq : q = price
  · subst hq
    have hb : boundLevel l q = n :: rest := by simp [boundLevel, h]
    rw [hb] at hm
    have hmr : m ∈ rest := by
      rcases List.mem_cons.mp hm with h1 | h1
      · exact absurd (by rw [h1]) hne
      · exact h1
    have hin : m ∈ (if filled then rest else new :: rest) := by
      split
      · exact hmr
      · exact List.mem_cons_of_mem _ hmr
    rw [boundLevel_relevel_self h (List.ne_nil_of_mem hin)]
    exact hin
  · rw [boundLevel_relevel_ne _ _ hq]
    exact hm

theorem front_locs_sublist (n : Node) (rest : OrderPointers) (o : Order) :
    ((if o.IsFilled then rest else { n with order := o } :: rest).map Node.loc).Sublist
      ((n :: rest).map Node.loc) := by
  split
  · exact List.Sublist.map _ (List.sublist_cons_self _ _)
  · simp

theorem settle_bids (bidPrice askPrice : Price) (bidN askN : Node)
    (bidRest askRest : OrderPointers) (bid ask : Order) (b : Book) :
    (settle bidPrice askPrice bidN askN bidRest askRest bid ask b).bids_
      = (if (if bid.IsFilled then bidRest else { bidN with order := bid } :: bidRest).isEmpty
        then eraseLevel bidPrice (setLevel bidPrice
          (if bid.IsFilled then bidRest else { bidN with order := bid } :: bidRest) b.bids_)
        else setLevel bidPrice
          (if bid.IsFilled then bidRest else { bidN with order := bid } :: bidRest) b.bids_) :=
  rfl

theorem settle_asks (bidPrice askPrice : Price) (bidN askN : Node)
    (bidRest askRest : OrderPointers) (bid ask : Order) (b : Book) :
    (settle bidPrice askPrice bidN askN bidRest askRest bid ask b).asks_
      = (if (if ask.IsFilled then askRest else { askN with order := ask } :: askRest).isEmpty
        then eraseLevel askPrice (setLevel askPrice
          (if ask.IsFilled then askRest else { askN with order := ask } :: askRest) b.asks_)
        else setLevel askPrice
          (if ask.IsFilled then askRest else { askN with order := ask } :: askRest) b.asks_) :=
  rfl

/-- The registry entries after a pass through the body of the inner loop. -/
theorem mem_settle_orders {bidPrice askPrice : Price} {bidN askN : Node}
    {bidRest askRest : OrderPointers} {bid ask : Order} {b : Book}
    {kv : OrderId × OrderEntry}
    (h : kv ∈ (settle bidPrice askPrice bidN askN bidRest askRest bid ask b).orders_) :
    (bid.IsFilled = true → kv.1 ≠ bid.orderId_)
    ∧ (ask.IsFilled = true → kv.1 ≠ ask.orderId_)
    ∧ ∃ kv0 ∈ b.orders_, kv =
        (if (if kv0.2.location_ = bidN.loc then (kv0.1, { kv0.2 with order_ := bid })
              else kv0).2.location_ = askN.loc
          then ((if kv0.2.location_ = bidN.loc then (kv0.1, { kv0.2 with order_ := bid })
              else kv0).1,
            { (if kv0.2.location_ = bidN.loc then (kv0.1, { kv0.2 with order_ := bid })
              else kv0).2 with order_ := ask })
          else (if kv0.2.location_ = bidN.loc then (kv0.1, { kv0.2 with order_ := bid })
              else kv0)) := by
  have hdef : (settle bidPrice askPrice bidN askN bidRest askRest bid ask b).orders_
      = (if ask.IsFilled then
          (if bid.IsFilled then ((b.orders_.share bidN.loc bid).share askN.loc ask).erase
              bid.GetOrderId
            else (b.orders_.share bidN.loc bid).share askN.loc ask).erase ask.GetOrderId
        else (if bid.IsFilled then ((b.orders_.share bidN.loc bid).share askN.loc ask).erase
              bid.GetOrderId
            else (b.orders_.share bidN.loc bid).share askN.loc ask)) := rfl
  rw [hdef] at h
  have h1 : kv ∈ (if bid.IsFilled then ((b.orders_.share bidN.loc bid).share askN.loc ask).erase
              bid.GetOrderId
            else (b.orders_.share bidN.loc bid).share askN.loc ask)
      ∧ (ask.IsFilled = true → kv.1 ≠ ask.orderId_) := by
    by_cases hf : ask.IsFilled = true
    · rw [if_pos hf] at h
      exact ⟨(Registry.mem_erase.mp h).1, fun _ => (Registry.mem_erase.mp h).2⟩
    · rw [if_neg hf] at h
      exact ⟨h, fun h2 => absurd h2 hf⟩
  have h2 : kv ∈ (b.orders_.share bidN.loc bid).share askN.loc ask
      ∧ (bid.IsFilled = true → kv.1 ≠ bid.orderId_) := by
    by_cases hf : bid.IsFilled = true
    · rw [if_pos hf] at h1
      exact ⟨(Registry.mem_erase.mp h1.1).1, fun _ => (Registry.mem_erase.mp h1.1).2⟩
    · rw [if_neg hf] at h1
      exact ⟨h1.1, fun h2 => absurd h2 hf⟩
  obtain ⟨kv1, hk1, e1⟩ := Registry.mem_share h2.1
  obtain ⟨kv0, hk0, e0⟩ := Registry.mem_share hk1
  refine ⟨h2.2, h1.2, kv0, hk0, ?_⟩
  rw [e1, e0]

theorem entry_relevel {l : Ladder} (hn : (ladderLocs l).Nodup) {p : Price} {n : Node}
    {rest : OrderPointers} {o : Order} (h : levelAt l p = some (n :: rest))
    (hop : o.price_ = n.order.price_) {loc0 : Nat} {o0 : Order}
    (h0 : ({ loc := loc0, order := o0 } : Node) ∈ boundLevel l o0.price_) :
    (loc0 = n.loc → o0 = n.order)
    ∧ (loc0 ≠ n.loc → ({ loc := loc0, order := o0 } : Node) ∈ boundLevel
        (if (if o.IsFilled then rest else { n with order := o } :: rest).isEmpty
          then eraseLevel p (setLevel p (if o.IsFilled then rest
            else { n with order := o } :: rest) l)
          else setLevel p (if o.IsFilled then rest else { n with order := o } :: rest) l)
        o0.price_)
    ∧ (loc0 = n.loc → o.IsFilled = false → ({ loc := loc0, order := o } : Node) ∈ boundLevel
        (if (if o.IsFilled then rest else { n with order := o } :: rest).isEmpty
          then eraseLevel p (setLevel p (if o.IsFilled then rest
            else { n with order := o } :: rest) l)
          else setLevel p (if o.IsFilled then rest else { n with order := o } :: rest) l)
        o.price_) := by
  obtain ⟨L, hL, hmem⟩ := mem_boundLevel_iff.mp h0
  have huniq : loc0 = n.loc → o0.price_ = p ∧ ({ loc := loc0, order := o0 } : Node) = n :=
    fun hloc => level_unique hn hL h hmem (List.mem_cons_self _ _) hloc
  refine ⟨?_, ?_, ?_⟩
  · intro hloc
    have := (huniq hloc).2
    rw [← this]
  · intro hne
    exact mem_boundLevel_relevel _ _ h h0 hne
  · intro hloc hf
    obtain ⟨hp, hnode⟩ := huniq hloc
    have hprice : o.price_ = p := by rw [hop, ← hnode]; exact hp
    rw [hprice, hf]
    simp only [Bool.false_eq_true, if_false]
    rw [boundLevel_relevel_self h (List.cons_ne_nil _ _), hloc]
    exact List.mem_cons_self _ _

theorem ladder_sell (b : Book) : b.ladder Side.Sell = b.asks_ := by simp [Book.ladder]

theorem ladder_buy (b : Book) : b.ladder Side.Buy = b.bids_ := by simp [Book.ladder]

theorem locs_disjoint {b : Book} (hn : (ladderLocs b.bids_ ++ ladderLocs b.asks_).Nodup)
    {p q : Price} {n m : Node} (h1 : n ∈ boundLevel b.bids_ p) (h2 : m ∈ boundLevel b.asks_ q) :
    n.loc ≠ m.loc := by
  obtain ⟨L1, hL1, hm1⟩ := mem_boundLevel_iff.mp h1
  obtain ⟨L2, hL2, hm2⟩ := mem_boundLevel_iff.mp h2
  intro h
  exact (List.nodup_append.mp hn).2.2 (mem_ladderLocs_of_levelAt hL1 hm1)
    (by rw [h]; exact mem_ladderLocs_of_levelAt hL2 hm2)

/-- A pass through the body of the inner loop keeps the links between the
registry and the ladders. -/
theorem matchStep_linked {bidPrice askPrice : Price} {b b1 : Book} {t : Trade}
    (hl : b.Linked) (hs : matchStep bidPrice askPrice b = .ok (b1, t)) : b1.Linked := by
  obtain ⟨hn, he⟩ := hl
  obtain ⟨bidN, bidRest, askN, askRest, bid, ask, hb, ha, hfb, hfa, hb1, -⟩ := matchStep_ok hs
  obtain ⟨-, hbid⟩ := Fill_ok hfb
  obtain ⟨-, hask⟩ := Fill_ok hfa
  have hlb := levelAt_of_boundLevel hb
  have hla := levelAt_of_boundLevel ha
  have hnb : (ladderLocs b.bids_).Nodup := List.Nodup.of_append_left hn
  have hna : (ladderLocs b.asks_).Nodup := List.Nodup.of_append_right hn
  have hbidN : bidN ∈ boundLevel b.bids_ bidPrice := by rw [hb]; exact List.mem_cons_self _ _
  have haskN : askN ∈ boundLevel b.asks_ askPrice := by rw [ha]; exact List.mem_cons_self _ _
  have hbp : bid.price_ = bidN.order.price_ := by rw [hbid]
  have hap : ask.price_ = askN.order.price_ := by rw [hask]
  subst hb1
  constructor
  · rw [settle_bids, settle_asks]
    exact hn.sublist (List.Sublist.append
      (ladderLocs_relevel hlb (front_locs_sublist bidN bidRest bid))
      (ladderLocs_relevel hla (front_locs_sublist askN askRest ask)))
  · intro kv hkv
    obtain ⟨hkb, hka, kv0, hk0, hkv0⟩ := mem_settle_orders hkv
    obtain ⟨hid0, hnode0⟩ := he kv0 hk0
    cases hside : kv0.2.order_.side_ with
    | Sell =>
      rw [hside, ladder_sell] at hnode0
      have hneb : kv0.2.location_ ≠ bidN.loc :=
        fun h => locs_disjoint hn hbidN hnode0 h.symm
      rw [if_neg hneb] at hkv0
      obtain ⟨e1, e2, e3⟩ := entry_relevel hna hla hap hnode0
      by_cases hloc : kv0.2.location_ = askN.loc
      · rw [if_pos hloc] at hkv0
        have ho := e1 hloc
        have hkey : kv.1 = ask.orderId_ := by
          rw [hkv0, hask]; simp only; rw [← ho]; exact hid0.symm
        have hnf : ask.IsFilled = false := by
          cases hf : ask.IsFilled with
          | false => rfl
          | true => exact absurd hkey (hka hf)
        have hsd : ask.side_ = Side.Sell := by rw [hask]; simp only; rw [← ho]; exact hside
        rw [hkv0]
        refine ⟨by simp only; rw [hask]; simp only; rw [← ho]; exact hid0, ?_⟩
        simp only
        rw [hsd, ladder_sell, settle_asks]
        exact e3 hloc hnf
      · rw [if_neg hloc] at hkv0
        rw [hkv0]
        refine ⟨hid0, ?_⟩
        rw [hside, ladder_sell, settle_asks]
        exact e2 hloc
    | Buy =>
      rw [hside, ladder_buy] at hnode0
      have hnea : kv0.2.location_ ≠ askN.loc :=
        fun h => locs_disjoint hn hnode0 haskN h
      obtain ⟨e1, e2, e3⟩ := entry_relevel hnb hlb hbp hnode0
      by_cases hloc : kv0.2.location_ = bidN.loc
      · rw [if_pos hloc] at hkv0
        simp only at hkv0
        rw [if_neg hnea] at hkv0
        have ho := e1 hloc
        have hkey : kv.1 = bid.orderId_ := by
          rw [hkv0, hbid]; simp only; rw [← ho]; exact hid0.symm
        have hnf : bid.IsFilled = false := by
          cases hf : bid.IsFilled with
          | false => rfl
          | true => exact absurd hkey (hkb hf)
        have hsd : bid.side_ = Side.Buy := by rw [hbid]; simp only; rw [← ho]; exact hside
        rw [hkv0]
        refine ⟨by simp only; rw [hbid]; simp only; rw [← ho]; exact hid0, ?_⟩
        simp only
        rw [hsd, ladder_buy, settle_bids]
        exact e3 hloc hnf
      · rw [if_neg hloc] at hkv0
        rw [if_neg hnea] at hkv0
        rw [hkv0]
        refine ⟨hid0, ?_⟩
        rw [hside, ladder_buy, settle_bids]
        exact e2 hloc

theorem cancelIn_ok_of_mem {l : Ladder} {price : Price} {n : Node}
    (h : n ∈ boundLevel l price) : ∃ l1, cancelIn l price n.loc = .ok l1 := by
  obtain ⟨os, hos, hmem⟩ := mem_boundLevel_iff.mp h
  have hany : os.any (fun m => m.loc == n.loc) = true :=
    List.any_eq_true.mpr ⟨n, hmem, by simp⟩
  unfold cancelIn
  rw [hos]
  simp only [hany, if_true]
  split
  · exact ⟨_, rfl⟩
  · exact ⟨_, rfl⟩

/-- What a successful `cancelIn` leaves of the ladder. -/
theorem cancelIn_keeps {l l1 : Ladder} {price : Price} {location : Nat}
    (h : cancelIn l price location = .ok l1) :
    (ladderLocs l1).Sublist (ladderLocs l)
    ∧ ∀ (q : Price) (m : Node), m ∈ boundLevel l q → m.loc ≠ location → m ∈ boundLevel l1 q := by
  unfold cancelIn at h
  split at h
  · cases h
  · rename_i os hos
    split at h
    · simp only at h
      have hsub : ((os.eraseP (fun n => n.loc == location)).map Node.loc).Sublist
          (os.map Node.loc) := List.Sublist.map _ (List.eraseP_sublist _)
      have hl1 : l1 = (if (os.eraseP (fun n => n.loc == location)).isEmpty
          then eraseLevel price (setLevel price (os.eraseP (fun n => n.loc == location)) l)
          else setLevel price (os.eraseP (fun n => n.loc == location)) l) := by
        split at h
        · rename_i he
          simp only [Except.ok.injEq] at h
          rw [if_pos he, eraseLevel_setLevel]; exact h.symm
        · rename_i he
          simp only [Except.ok.injEq] at h
          rw [if_neg he]; exact h.symm
      refine ⟨by rw [hl1]; exact ladderLocs_relevel hos hsub, ?_⟩
      intro q m hm hne
      rw [hl1]
      by_cases hq : q = price
      · subst hq
        have hb : boundLevel l q = os := by simp [boundLevel, hos]
        rw [hb] at hm
        have hin : m ∈ os.eraseP (fun n => n.loc == location) :=
          (List.mem_eraseP_of_neg (by simpa using hne)).mpr hm
        rw [boundLevel_relevel_self hos (List.ne_nil_of_mem hin)]
        exact hin
      · rw [boundLevel_relevel_ne _ _ hq]
        exact hm
    · cases h

theorem CancelOrder_ok_of_linked {b : Book} (hl : b.Linked) (orderId : OrderId) :
    ∃ b1, CancelOrder orderId b = .ok b1 := by
  unfold CancelOrder
  cases hf : b.orders_.find orderId with
  | none => exact ⟨b, rfl⟩
  | some entry =>
    obtain ⟨-, hnode⟩ := hl.2 _ (Registry.mem_of_find hf)
    simp only at hnode ⊢
    by_cases hs : entry.order_.GetSide = Side.Sell
    · rw [if_pos hs]
      have hs2 : entry.order_.side_ = Side.Sell := hs
      rw [hs2, ladder_sell] at hnode
      obtain ⟨l1, h1⟩ := cancelIn_ok_of_mem hnode
      simp only at h1
      rw [Order.GetPrice, h1]
      exact ⟨_, rfl⟩
    · rw [if_neg hs]
      have hs2 : entry.order_.side_ = Side.Buy := by
        cases h : entry.order_.side_ with
        | Buy => rfl
        | Sell => exact absurd h hs
      rw [hs2, ladder_buy] at hnode
      obtain ⟨l1, h1⟩ := cancelIn_ok_of_mem hnode
      simp only at h1
      rw [Order.GetPrice, h1]
      exact ⟨_, rfl⟩

/-- The shape of a `CancelOrder` that returns for a registered identifier. -/
theorem CancelOrder_ok {b b1 : Book} {orderId : OrderId} {entry : OrderEntry}
    (hf : b.orders_.find orderId = some entry) (h : CancelOrder orderId b = .ok b1) :
    b1.orders_ = b.orders_.erase orderId
    ∧ ((entry.order_.side_ = Side.Sell ∧ b1.bids_ = b.bids_
          ∧ cancelIn b.asks_ entry.order_.price_ entry.location_ = .ok b1.asks_)
      ∨ (entry.order_.side_ = Side.Buy ∧ b1.asks_ = b.asks_
          ∧ cancelIn b.bids_ entry.order_.price_ entry.location_ = .ok b1.bids_)) := by
  unfold CancelOrder at h
  rw [hf] at h
  simp only at h
  by_cases hs : entry.order_.GetSide = Side.Sell
  · rw [if_pos hs] at h
    split at h
    · cases h
    · rename_i asks1 hc
      simp only [Except.ok.injEq] at h
      subst h
      exact ⟨rfl, Or.inl ⟨hs, rfl, hc⟩⟩
  · rw [if_neg hs] at h
    have hs2 : entry.order_.side_ = Side.Buy := by
      cases h2 : entry.order_.side_ with
      | Buy => rfl
      | Sell => exact absurd h2 hs
    split at h
    · cases h
    · rename_i bids1 hc
      simp only [Except.ok.injEq] at h
      subst h
      exact ⟨rfl, Or.inr ⟨hs2, rfl, hc⟩⟩

theorem entry_loc_ne {l : Ladder} (hn : (ladderLocs l).Nodup) {orderId : OrderId}
    {kv : OrderId × OrderEntry} {entry : OrderEntry}
    (hid : kv.2.order_.orderId_ = kv.1) (hide : entry.order_.orderId_ = orderId)
    (hne : kv.1 ≠ orderId)
    (h1 : ({ loc := kv.2.location_, order := kv.2.order_ } : Node)
      ∈ boundLevel l kv.2.order_.price_)
    (h2 : ({ loc := entry.location_, order := entry.order_ } : Node)
      ∈ boundLevel l entry.order_.price_) :
    ({ loc := kv.2.location_, order := kv.2.order_ } : Node).loc ≠ entry.location_ := by
  intro hloc
  obtain ⟨L1, hL1, hm1⟩ := mem_boundLevel_iff.mp h1
  obtain ⟨L2, hL2, hm2⟩ := mem_boundLevel_iff.mp h2
  have := (level_unique hn hL1 hL2 hm1 hm2 hloc).2
  have ho : kv.2.order_ = entry.order_ := by
    have h3 := congrArg Node.order this
    exact h3
  apply hne
  rw [← hid, ho, hide]

/-- A `CancelOrder` that returns keeps the links between the registry and the
ladders. -/
theorem CancelOrder_linked {b b1 : Book} {orderId : OrderId}
    (hl : b.Linked) (h : CancelOrder orderId b = .ok b1) : b1.Linked := by
  cases hf : b.orders_.find orderId with
  | none =>
    rw [CancelOrder_of_find_none orderId b hf] at h
    simp only [Except.ok.injEq] at h
    rw [← h]; exact hl
  | some entry =>
    obtain ⟨hn, he⟩ := hl
    obtain ⟨hide, hnode_e⟩ := he _ (Registry.mem_of_find hf)
    simp only at hide hnode_e
    obtain ⟨hord, hcase⟩ := CancelOrder_ok hf h
    rcases hcase with ⟨hs, hbids, hc⟩ | ⟨hs, hasks, hc⟩
    · obtain ⟨hsub, hkeep⟩ := cancelIn_keeps hc
      rw [hs, ladder_sell] at hnode_e
      constructor
      · rw [hbids]
        exact hn.sublist (List.Sublist.append (List.Sublist.refl _) hsub)
      · intro kv hkv
        rw [hord] at hkv
        obtain ⟨hkv0, hne⟩ := Registry.mem_erase.mp hkv
        obtain ⟨hid, hnode⟩ := he kv hkv0
        refine ⟨hid, ?_⟩
        cases hside : kv.2.order_.side_ with
        | Sell =>
          rw [hside, ladder_sell] at hnode
          rw [ladder_sell]
          exact hkeep _ _ hnode
            (entry_loc_ne (List.Nodup.of_append_right hn) hid hide hne hnode hnode_e)
        | Buy =>
          rw [hside, ladder_buy] at hnode
          rw [ladder_buy, hbids]
          exact hnode
    · obtain ⟨hsub, hkeep⟩ := cancelIn_keeps hc
      rw [hs, ladder_buy] at hnode_e
      constructor
      · rw [hasks]
        exact hn.sublist (List.Sublist.append hsub (List.Sublist.refl _))
      · intro kv hkv
        rw [hord] at hkv
        obtain ⟨hkv0, hne⟩ := Registry.mem_erase.mp hkv
        obtain ⟨hid, hnode⟩ := he kv hkv0
        refine ⟨hid, ?_⟩
        cases hside : kv.2.order_.side_ with
        | Sell =>
          rw [hside, ladder_sell] at hnode
          rw [ladder_sell, hasks]
          exact hnode
        | Buy =>
          rw [hside, ladder_buy] at hnode
          rw [ladder_buy]
          exact hkeep _ _ hnode
            (entry_loc_ne (List.Nodup.of_append_left hn) hid hide hne hnode hnode_e)

/-- On a book with linked registry and ladders and no empty level, the block
after the loops of `MatchOrders` returns for either ladder and keeps both
properties. -/
theorem killFront_ok_of_linked {b : Book} (hl : b.Linked) (hne : LevelsNonEmpty b)
    (l : Ladder) (hnl : NoEmptyLevel l) :
    ∃ b1, killFront l b = .ok b1 ∧ b1.Linked ∧ LevelsNonEmpty b1 := by
  unfold killFront
  match l, hnl with
  | [], _ => exact ⟨b, rfl, hl, hne⟩
  | (p, []) :: tail, hnl => exact absurd rfl (hnl (p, []) (List.mem_cons_self _ _))
  | (p, order :: rest) :: tail, _ =>
    simp only
    split
    · obtain ⟨b1, h1⟩ := CancelOrder_ok_of_linked hl order.order.GetOrderId
      exact ⟨b1, h1, CancelOrder_linked hl h1, CancelOrder_levelsNonEmpty hne h1⟩
    · exact ⟨b, rfl, hl, hne⟩

theorem Book.WellFormed.linked {b : Book} (h : b.WellFormed) : b.Linked :=
  ⟨h.1.2.2.2, h.2.1⟩

theorem Book.WellFormed.levelsNonEmpty {b : Book} (h : b.WellFormed) : LevelsNonEmpty b :=
  ⟨h.2.2.2.2.1, h.2.2.2.2.2⟩

theorem outerLoop_linked {fuel : Nat} {b b1 : Book} {trades trades1 : Trades}
    (h : b.Linked) (hl : outerLoop fuel b trades = .ok (b1, trades1)) : b1.Linked :=
  outerLoop_invariant (fun b2 _ => b2.Linked)
    (fun _ _ _ _ _ _ hP hs => matchStep_linked hP hs) fuel b trades b1 trades1 h hl

/-- On a book with linked registry and ladders and no empty level, once the
loops have ended `MatchOrders` ends the same way: the block after the loops
returns. -/
theorem MatchOrders_ends_of_outerLoop {fuel : Nat} {b : Book}
    (hl : b.Linked) (hne : LevelsNonEmpty b)
    (h : outerLoop fuel b [] = .error .invalidQuantity ∨ ∃ r, outerLoop fuel b [] = .ok r) :
    MatchOrders fuel b = .error .invalidQuantity ∨ ∃ r, MatchOrders fuel b = .ok r := by
  unfold MatchOrders
  rcases h with h1 | ⟨⟨b1, trades⟩, h1⟩
  · left; rw [h1]
  · right
    rw [h1]
    simp only
    obtain ⟨b2, h2, hl2, hne2⟩ := killFront_ok_of_linked (outerLoop_linked hl h1)
      (outerLoop_levelsNonEmpty hne h1) b1.bids_ (outerLoop_levelsNonEmpty hne h1).1
    rw [h2]
    simp only
    obtain ⟨b3, h3, -, -⟩ := killFront_ok_of_linked hl2 hne2 b2.asks_ hne2.2
    rw [h3]
    exact ⟨_, rfl⟩

theorem Registry.find_share_none {r : Registry} {orderId : OrderId} (loc : Nat) (o : Order)
    (h : r.find orderId = none) : (r.share loc o).find orderId = none := by
  induction r with
  | nil => rfl
  | cons kv rest ih =>
    obtain ⟨k, v⟩ := kv
    unfold Registry.find at h
    by_cases hk : k = orderId
    · simp [hk] at h
    · simp only [hk, if_false] at h
      have ih1 := ih h
      unfold Registry.share at ih1 ⊢
      simp only [List.map_cons]
      by_cases hv : v.location_ = loc
      · simp only [hv, if_true]
        unfold Registry.find
        simp only [hk, if_false]
        exact ih1
      · simp only [hv, if_false]
        unfold Registry.find
        simp only [hk, if_false]
        exact ih1

theorem Registry.find_erase_none {r : Registry} {orderId : OrderId} (x : OrderId)
    (h : r.find orderId = none) : (r.erase x).find orderId = none := by
  by_cases hx : orderId = x
  · rw [hx]; exact Registry.find_erase_self r x
  · rw [Registry.find_erase_ne r hx]; exact h

theorem settle_find_none {bidPrice askPrice : Price} {bidN askN : Node}
    {bidRest askRest : OrderPointers} {bid ask : Order} {b : Book} {orderId : OrderId}
    (h : b.orders_.find orderId = none) :
    (settle bidPrice askPrice bidN askN bidRest askRest bid ask b).orders_.find orderId
      = none := by
  have h0 := Registry.find_share_none askN.loc ask (Registry.find_share_none bidN.loc bid h)
  unfold settle
  simp only
  split
  · split
    · exact Registry.find_erase_none _ (Registry.find_erase_none _ h0)
    · exact Registry.find_erase_none _ h0
  · split
    · exact Registry.find_erase_none _ h0
    · exact h0

theorem settle_find_bid_filled {bidPrice askPrice : Price} {bidN askN : Node}
    {bidRest askRest : OrderPointers} {bid ask : Order} {b : Book}
    (hf : bid.IsFilled = true) :
    (settle bidPrice askPrice bidN askN bidRest askRest bid ask b).orders_.find bid.orderId_
      = none := by
  unfold settle
  simp only [hf, if_true]
  split
  · exact Registry.find_erase_none _ (Registry.find_erase_self _ _)
  · exact Registry.find_erase_self _ _

theorem settle_find_ask_filled {bidPrice askPrice : Price} {bidN askN : Node}
    {bidRest askRest : OrderPointers} {bid ask : Order} {b : Book}
    (hf : ask.IsFilled = true) :
    (settle bidPrice askPrice bidN askN bidRest askRest bid ask b).orders_.find ask.orderId_
      = none := by
  unfold settle
  simp only [hf, if_true]
  exact Registry.find_erase_self _ _

theorem settle_location {bidPrice askPrice : Price} {bidN askN : Node}
    {bidRest askRest : OrderPointers} {bid ask : Order} {b : Book}
    {kv : OrderId × OrderEntry}
    (h : kv ∈ (settle bidPrice askPrice bidN askN bidRest askRest bid ask b).orders_) :
    ∃ kv0 ∈ b.orders_, kv.2.location_ = kv0.2.location_ := by
  obtain ⟨-, -, kv0, hkv0, heq⟩ := mem_settle_orders h
  refine ⟨kv0, hkv0, ?_⟩
  rw [heq]
  split_ifs <;> rfl

/-- A level below the front level is rewritten or erased: the front level
stays. -/
theorem relevel_front {p q : Price} (hne : p ≠ q) (os ps : OrderPointers) (rest : Ladder) :
    ∃ rest1, (if ps.isEmpty then eraseLevel q (setLevel q ps ((p, os) :: rest))
      else setLevel q ps ((p, os) :: rest)) = (p, os) :: rest1 := by
  rw [setLevel_cons, if_neg hne, eraseLevel_cons, if_neg hne]
  split
  · exact ⟨_, rfl⟩
  · exact ⟨_, rfl⟩

/-- The front level, holding one order, is rewritten with the order after its
fill. -/
theorem relevel_self (p : Price) (n : Node) (o : Order) (rest : Ladder)
    (hf : ¬ o.IsFilled = true) :
    (if (if o.IsFilled then [] else [{ n with order := o }]).isEmpty
      then eraseLevel p (setLevel p (if o.IsFilled then [] else [{ n with order := o }])
        ((p, [n]) :: rest))
      else setLevel p (if o.IsFilled then [] else [{ n with order := o }]) ((p, [n]) :: rest))
      = (p, [{ n with order := o }]) :: rest := by
  simp [hf, setLevel_cons]

theorem Fill_keeps {o o1 : Order} {quantity : Quantity} (h : o.Fill quantity = .ok o1) :
    o1.orderType_ = o.orderType_ ∧ o1.orderId_ = o.orderId_ := by
  obtain ⟨-, h1⟩ := Fill_ok h
  rw [h1]
  exact ⟨rfl, rfl⟩

/-- One pass through the loop body keeps a queued `FillAndKill` order
pending: the pass pops it and erases its identifier, or writes it back at the
front, or leaves its level alone. -/
theorem matchStep_pending {side : Side} {loc : Nat} {orderId : OrderId}
    {bidPrice askPrice : Price} {b b1 : Book} {t : Trade}
    (hp : Pending side loc orderId b) (h : matchStep bidPrice askPrice b = .ok (b1, t)) :
    Pending side loc orderId b1 := by
  obtain ⟨bidN, bidRest, askN, askRest, bid, ask, hb, ha, hfb, hfa, hb1, -⟩ := matchStep_ok h
  subst hb1
  refine ⟨?_, ?_⟩
  · intro kv hkv
    obtain ⟨kv0, hkv0, heq⟩ := settle_location hkv
    rw [heq]
    exact hp.1 kv0 hkv0
  · rcases hp.2 with hnone | ⟨p, n, rest, hl, hloc, hty, hid⟩
    · exact Or.inl (settle_find_none hnone)
    · cases side with
      | Buy =>
        rw [ladder_buy] at hl
        by_cases hpq : p = bidPrice
        · subst hpq
          rw [hl, boundLevel_head] at hb
          simp only [List.cons.injEq] at hb
          obtain ⟨hn, hr⟩ := hb
          subst hn; subst hr
          obtain ⟨hty1, hid1⟩ := Fill_keeps hfb
          by_cases hfill : bid.IsFilled = true
          · left
            rw [← hid, ← hid1]
            exact settle_find_bid_filled hfill
          · right
            rw [ladder_buy, settle_bids, hl, relevel_self p n bid rest hfill]
            exact ⟨p, _, rest, rfl, hloc, by rw [← hty]; exact hty1, by rw [← hid]; exact hid1⟩
        · right
          rw [ladder_buy, settle_bids, hl]
          obtain ⟨rest1, hr⟩ := relevel_front hpq [n]
            (if bid.IsFilled then bidRest else { bidN with order := bid } :: bidRest) rest
          rw [hr]
          exact ⟨p, n, rest1, rfl, hloc, hty, hid⟩
      | Sell =>
        rw [ladder_sell] at hl
        by_cases hpq : p = askPrice
        · subst hpq
          rw [hl, boundLevel_head] at ha
          simp only [List.cons.injEq] at ha
          obtain ⟨hn, hr⟩ := ha
          subst hn; subst hr
          obtain ⟨hty1, hid1⟩ := Fill_keeps hfa
          by_cases hfill : ask.IsFilled = true
          · left
            rw [← hid, ← hid1]
            exact settle_find_ask_filled hfill
          · right
            rw [ladder_sell, settle_asks, hl, relevel_self p n ask rest hfill]
            exact ⟨p, _, rest, rfl, hloc, by rw [← hty]; exact hty1, by rw [← hid]; exact hid1⟩
        · right
          rw [ladder_sell, settle_asks, hl]
          obtain ⟨rest1, hr⟩ := relevel_front hpq [n]
            (if ask.IsFilled then askRest else { askN with order := ask } :: askRest) rest
          rw [hr]
          exact ⟨p, n, rest1, rfl, hloc, hty, hid⟩

theorem outerLoop_pending {side : Side} {loc : Nat} {orderId : OrderId}
    {fuel : Nat} {b b1 : Book} {trades trades1 : Trades}
    (h : Pending side loc orderId b) (hl : outerLoop fuel b trades = .ok (b1, trades1)) :
    Pending side loc orderId b1 :=
  outerLoop_invariant (fun b2 _ => Pending side loc orderId b2)
    (fun _ _ _ _ _ _ hP hs => matchStep_pending hP hs) fuel b trades b1 trades1 h hl

/-- A cancellation that designates another list node leaves a front level of
one order in place. -/
theorem cancelIn_front {p price : Price} {n : Node} {rest l1 : Ladder} {location : Nat}
    (hne : n.loc ≠ location) (h : cancelIn ((p, [n]) :: rest) price location = .ok l1) :
    ∃ rest1, l1 = (p, [n]) :: rest1 := by
  unfold cancelIn at h
  rw [levelAt_cons] at h
  by_cases hp : p = price
  · rw [if_pos hp] at h
    simp only [List.any_cons, List.any_nil, Bool.or_false, beq_iff_eq, hne, if_false] at h
    cases h
  · rw [if_neg hp] at h
    split at h
    · cases h
    · split at h
      · simp only at h
        split at h
        · simp only [Except.ok.injEq] at h
          rw [eraseLevel_cons, if_neg hp] at h
          exact ⟨_, h.symm⟩
        · simp only [Except.ok.injEq] at h
          rw [setLevel_cons, if_neg hp] at h
          exact ⟨_, h.symm⟩
      · cases h

theorem CancelOrder_find_none {b b1 : Book} {orderId : OrderId}
    (h : CancelOrder orderId b = .ok b1) : b1.orders_.find orderId = none := by
  cases hf : b.orders_.find orderId with
  | none =>
    rw [CancelOrder_of_find_none orderId b hf] at h
    simp only [Except.ok.injEq] at h
    rw [← h]; exact hf
  | some entry =>
    rw [(CancelOrder_ok hf h).1]
    exact Registry.find_erase_self _ _

theorem CancelOrder_keeps_find_none {b b1 : Book} {x orderId : OrderId}
    (hn : b.orders_.find orderId = none)
    (h : CancelOrder x b = .ok b1) : b1.orders_.find orderId = none := by
  cases hf : b.orders_.find x with
  | none =>
    rw [CancelOrder_of_find_none x b hf] at h
    simp only [Except.ok.injEq] at h
    rw [← h]; exact hn
  | some entry =>
    rw [(CancelOrder_ok hf h).1]
    exact Registry.find_erase_none _ hn

/-- A `CancelOrder` that returns keeps a queued `FillAndKill` order pending:
no registry entry designates its node, so the cancellation removes another
node. -/
theorem CancelOrder_pending {side : Side} {loc : Nat} {orderId x : OrderId} {b b1 : Book}
    (hp : Pending side loc orderId b) (h : CancelOrder x b = .ok b1) :
    Pending side loc orderId b1 := by
  cases hf : b.orders_.find x with
  | none =>
    rw [CancelOrder_of_find_none x b hf] at h
    simp only [Except.ok.injEq] at h
    rw [← h]; exact hp
  | some entry =>
    obtain ⟨hord, hcase⟩ := CancelOrder_ok hf h
    have hloc0 : entry.location_ ≠ loc := hp.1 _ (Registry.mem_of_find hf)
    refine ⟨?_, ?_⟩
    · intro kv hkv
      rw [hord] at hkv
      exact hp.1 kv (Registry.mem_erase.mp hkv).1
    · rcases hp.2 with hnone | ⟨p, n, rest, hl, hloc, hty, hid⟩
      · exact Or.inl (CancelOrder_keeps_find_none hnone h)
      · right
        have hne : n.loc ≠ entry.location_ := by rw [hloc]; exact fun h2 => hloc0 h2.symm
        cases side with
        | Buy =>
          rw [ladder_buy] at hl ⊢
          rcases hcase with ⟨-, hbids, -⟩ | ⟨-, -, hc⟩
          · rw [hbids]; exact ⟨p, n, rest, hl, hloc, hty, hid⟩
          · rw [hl] at hc
            obtain ⟨rest1, hr⟩ := cancelIn_front hne hc
            exact ⟨p, n, rest1, hr, hloc, hty, hid⟩
        | Sell =>
          rw [ladder_sell] at hl ⊢
          rcases hcase with ⟨-, -, hc⟩ | ⟨-, hasks, -⟩
          · rw [hl] at hc
            obtain ⟨rest1, hr⟩ := cancelIn_front hne hc
            exact ⟨p, n, rest1, hr, hloc, hty, hid⟩
          · rw [hasks]; exact ⟨p, n, rest, hl, hloc, hty, hid⟩

theorem killFront_pending {side : Side} {loc : Nat} {orderId : OrderId} {b b1 : Book}
    (l : Ladder) (hp : Pending side loc orderId b) (h : killFront l b = .ok b1) :
    Pending side loc orderId b1 := by
  unfold killFront at h
  split at h
  · simp only [Except.ok.injEq] at h
    rw [← h]; exact hp
  · cases h
  · split at h
    · exact CancelOrder_pending hp h
    · simp only [Except.ok.injEq] at h
      rw [← h]; exact hp

theorem killFront_keeps_find_none {b b1 : Book} {orderId : OrderId} (l : Ladder)
    (hn : b.orders_.find orderId = none) (h : killFront l b = .ok b1) :
    b1.orders_.find orderId = none := by
  unfold killFront at h
  split at h
  · simp only [Except.ok.injEq] at h
    rw [← h]; exact hn
  · cases h
  · split at h
    · exact CancelOrder_keeps_find_none hn h
    · simp only [Except.ok.injEq] at h
      rw [← h]; exact hn

/-- The block after the loops, run on the ladder of a pending `FillAndKill`
order, leaves the identifier out of the registry: the order at the front is
`FillAndKill`, and `CancelOrder` is called with its identifier. -/
theorem killFront_kills {side : Side} {loc : Nat} {orderId : OrderId} {b b1 : Book}
    (hp : Pending side loc orderId b) (h : killFront (b.ladder side) b = .ok b1) :
    b1.orders_.find orderId = none := by
  rcases hp.2 with hnone | ⟨p, n, rest, hl, hloc, hty, hid⟩
  · exact killFront_keeps_find_none _ hnone h
  · rw [hl] at h
    unfold killFront at h
    simp only [Order.GetOrderType, hty, if_true, Order.GetOrderId, hid] at h
    exact CancelOrder_find_none h

theorem le_foldr_max {l : List Nat} {x : Nat} (h : x ∈ l) : x ≤ l.foldr max 0 := by
  induction l with
  | nil => simp at h
  | cons y ys ih =>
    simp only [List.foldr_cons]
    rcases List.mem_cons.mp h with heq | hmem
    · rw [heq]; exact le_max_left _ _
    · exact le_trans (ih hmem) (le_max_right _ _)

/-- No registry entry designates the newly allocated list node. -/
theorem freshLoc_ne_location (b : Book) : ∀ kv ∈ b.orders_, kv.2.location_ ≠ b.freshLoc := by
  intro kv hkv
  have hm : kv.2.location_ ∈ ladderLocs b.bids_ ++ ladderLocs b.asks_
      ++ b.orders_.map (fun kv => kv.2.location_) :=
    List.mem_append_right _ (List.mem_map.mpr ⟨kv, hkv, rfl⟩)
  have := le_foldr_max hm
  unfold Book.freshLoc
  omega

/-- The newly allocated list node is not in use in a ladder. -/
theorem freshLoc_not_mem (b : Book) :
    b.freshLoc ∉ ladderLocs b.bids_ ++ ladderLocs b.asks_ := by
  intro h
  have hm : b.freshLoc ∈ ladderLocs b.bids_ ++ ladderLocs b.asks_
      ++ b.orders_.map (fun kv => kv.2.location_) := List.mem_append_left _ h
  have := le_foldr_max hm
  unfold Book.freshLoc at this
  omega

/-- On a book without a cross, a buy order that can match opens a new best
bid level. -/
theorem pushBack_crossing_buy {b : Book} {price : Price} (n : Node) (hn : NoCross b)
    (hc : CanMatch b Side.Buy price = true) :
    pushBack greaterPrice price n b.bids_ = (price, [n]) :: b.bids_ := by
  unfold CanMatch at hc
  simp only [if_true] at hc
  unfold NoCross at hn
  cases ha : b.asks_ with
  | nil => rw [ha] at hc; simp at hc
  | cons la asksTail =>
    obtain ⟨bestAsk, asks⟩ := la
    rw [ha] at hc hn
    simp only [decide_eq_true_eq] at hc
    cases hb : b.bids_ with
    | nil => rfl
    | cons lb bidsTail =>
      obtain ⟨bestBid, bids⟩ := lb
      rw [hb] at hn
      simp only at hn
      have hlt : bestBid < price := lt_of_lt_of_le hn hc
      unfold pushBack
      rw [if_neg (ne_of_lt hlt)]
      have : greaterPrice price bestBid = true := by
        simp only [greaterPrice, decide_eq_true_eq]; exact hlt
      rw [if_pos this]

/-- On a book without a cross, a sell order that can match opens a new best
ask level. -/
theorem pushBack_crossing_sell {b : Book} {price : Price} (n : Node) (hn : NoCross b)
    (hc : CanMatch b Side.Sell price = true) :
    pushBack lessPrice price n b.asks_ = (price, [n]) :: b.asks_ := by
  unfold CanMatch at hc
  simp only [reduceCtorEq, if_false] at hc
  unfold NoCross at hn
  cases hb : b.bids_ with
  | nil => rw [hb] at hc; simp at hc
  | cons lb bidsTail =>
    obtain ⟨bestBid, bids⟩ := lb
    rw [hb] at hc hn
    simp only [decide_eq_true_eq] at hc
    cases ha : b.asks_ with
    | nil => rfl
    | cons la asksTail =>
      obtain ⟨bestAsk, asks⟩ := la
      rw [ha] at hn
      simp only at hn
      have hlt : price < bestAsk := lt_of_le_of_lt hc hn
      unfold pushBack
      rw [if_neg (ne_of_gt hlt)]
      have : lessPrice price bestAsk = true := by
        simp only [lessPrice, decide_eq_true_eq]; exact hlt
      rw [if_pos this]

/-- On a book without a cross, `AddOrder` of an order that passes the
identifier check and can match queues it alone at the front of its side in a
new list node, leaves the registry as it is (the identifier is present) and
calls `MatchOrders`. -/
theorem AddOrder_crossing (fuel : Nat) (order : Order) (b : Book) (hn : NoCross b)
    (hf : ¬ b.orders_.find order.GetOrderId = none)
    (hc : CanMatch b order.GetSide order.GetPrice = true) :
    AddOrder fuel order b
      = MatchOrders fuel
          (if order.GetSide = Side.Buy
            then ⟨(order.GetPrice, [⟨b.freshLoc, order⟩]) :: b.bids_, b.asks_, b.orders_⟩
            else ⟨b.bids_, (order.GetPrice, [⟨b.freshLoc, order⟩]) :: b.asks_, b.orders_⟩) := by
  unfold AddOrder
  rw [if_neg hf, if_neg (by rw [hc]; simp)]
  have hins : b.orders_.insert order.GetOrderId { order_ := order, location_ := b.freshLoc }
      = b.orders_ := by
    unfold Registry.insert
    cases h : b.orders_.find order.GetOrderId with
    | none => exact absurd h hf
    | some e => rfl
  cases hs : order.GetSide with
  | Buy =>
    rw [hs] at hc
    simp only [if_true, hins, pushBack_crossing_buy _ hn hc]
  | Sell =>
    rw [hs] at hc
    simp only [reduceCtorEq, if_false, hins, pushBack_crossing_sell _ hn hc]

/-- When `MatchOrders` returns on a book with a pending `FillAndKill` order,
the identifier of that order is not in the registry. -/
theorem MatchOrders_pending {side : Side} {loc : Nat} {orderId : OrderId} {fuel : Nat}
    {b b1 : Book} {trades : Trades}
    (hp : Pending side loc orderId b) (h : MatchOrders fuel b = .ok (b1, trades)) :
    b1.orders_.find orderId = none := by
  obtain ⟨b2, b3, h1, h2, h3⟩ := MatchOrders_ok h
  have hp2 := outerLoop_pending hp h1
  cases side with
  | Buy =>
    have hk := killFront_kills hp2 (by rw [ladder_buy]; exact h2)
    exact killFront_keeps_find_none _ hk h3
  | Sell =>
    have hp3 := killFront_pending _ hp2 h2
    exact killFront_kills hp3 (by rw [ladder_sell]; exact h3)

theorem boundLevel_cons_ne {p q : Price} (hne : p ≠ q) (os : OrderPointers) (rest : Ladder) :
    boundLevel ((p, os) :: rest) q = boundLevel rest q := by
  unfold boundLevel
  rw [levelAt_cons, if_neg hne]

theorem key_of_mem_boundLevel {l : Ladder} {q : Price} {n : Node}
    (h : n ∈ boundLevel l q) : q ∈ ladderKeys l := by
  obtain ⟨os, hos, -⟩ := mem_boundLevel_iff.mp h
  exact List.mem_map.mpr ⟨(q, os), mem_of_levelAt hos, rfl⟩

/-- On a book without a cross, no bid level has the price of a buy order that
can match. -/
theorem crossing_buy_keys {b : Book} {price : Price} (hn : NoCross b)
    (hs : (ladderKeys b.bids_).Pairwise (fun x y => x > y))
    (hc : CanMatch b Side.Buy price = true) : ∀ q ∈ ladderKeys b.bids_, q ≠ price := by
  unfold CanMatch at hc
  simp only [if_true] at hc
  unfold NoCross at hn
  cases ha : b.asks_ with
  | nil => rw [ha] at hc; simp at hc
  | cons la asksTail =>
    obtain ⟨bestAsk, asks⟩ := la
    rw [ha] at hc hn
    simp only [decide_eq_true_eq] at hc
    cases hb : b.bids_ with
    | nil => intro q hq; simp [ladderKeys] at hq
    | cons lb bidsTail =>
      obtain ⟨bestBid, bids⟩ := lb
      rw [hb] at hn hs
      simp only at hn
      have hlt : bestBid < price := lt_of_lt_of_le hn hc
      intro q hq
      simp only [ladderKeys, List.map_cons, List.pairwise_cons, List.mem_cons] at hs hq
      rcases hq with heq | hmem
      · rw [heq]; exact ne_of_lt hlt
      · exact ne_of_lt (lt_trans (hs.1 q hmem) hlt)

/-- On a book without a cross, no ask level has the price of a sell order that
can match. -/
theorem crossing_sell_keys {b : Book} {price : Price} (hn : NoCross b)
    (hs : (ladderKeys b.asks_).Pairwise (fun x y => x < y))
    (hc : CanMatch b Side.Sell price = true) : ∀ q ∈ ladderKeys b.asks_, q ≠ price := by
  unfold CanMatch at hc
  simp only [reduceCtorEq, if_false] at hc
  unfold NoCross at hn
  cases hb : b.bids_ with
  | nil => rw [hb] at hc; simp at hc
  | cons lb bidsTail =>
    obtain ⟨bestBid, bids⟩ := lb
    rw [hb] at hc hn
    simp only [decide_eq_true_eq] at hc
    cases ha : b.asks_ with
    | nil => intro q hq; simp [ladderKeys] at hq
    | cons la asksTail =>
      obtain ⟨bestAsk, asks⟩ := la
      rw [ha] at hn hs
      simp only at hn
      have hlt : price < bestAsk := lt_of_le_of_lt hc hn
      intro q hq
      simp only [ladderKeys, List.map_cons, List.pairwise_cons, List.mem_cons] at hs hq
      rcases hq with heq | hmem
      · rw [heq]; exact ne_of_gt hlt
      · exact ne_of_gt (lt_trans hlt (hs.1 q hmem))

/-- The book with a new order queued alone in a new best bid level, in a new
list node: registry and ladders stay linked, no level is empty, and one more
order rests. -/
theorem queued_buy {b : Book} {price : Price} {order : Order}
    (hl : b.Linked) (hne : LevelsNonEmpty b)
    (hkeys : ∀ q ∈ ladderKeys b.bids_, q ≠ price)
    (ho : order.remaining_quantity ≤ order.initial_quantity_)
    (hb : RemainingLeInitial b.bids_) :
    (Book.mk ((price, [⟨b.freshLoc, order⟩]) :: b.bids_) b.asks_ b.orders_).Linked
    ∧ LevelsNonEmpty (Book.mk ((price, [⟨b.freshLoc, order⟩]) :: b.bids_) b.asks_ b.orders_)
    ∧ RemainingLeInitial ((price, [(⟨b.freshLoc, order⟩ : Node)]) :: b.bids_)
    ∧ (Book.mk ((price, [⟨b.freshLoc, order⟩]) :: b.bids_) b.asks_ b.orders_).resting.length
        = b.resting.length + 1 := by
  refine ⟨⟨?_, ?_⟩, ⟨?_, hne.2⟩, ?_, ?_⟩
  · simp only [ladderLocs_cons, List.map_cons, List.map_nil, List.singleton_append,
      List.cons_append, List.nodup_cons]
    exact ⟨freshLoc_not_mem b, hl.1⟩
  · intro kv hkv
    obtain ⟨hid, hnode⟩ := hl.2 kv hkv
    refine ⟨hid, ?_⟩
    cases hside : kv.2.order_.side_ with
    | Sell =>
      rw [hside, ladder_sell] at hnode
      rw [ladder_sell]; exact hnode
    | Buy =>
      rw [hside, ladder_buy] at hnode
      rw [ladder_buy]
      simp only
      rw [boundLevel_cons_ne (fun h => hkeys _ (key_of_mem_boundLevel hnode) h.symm)]
      exact hnode
  · intro lv hlv
    rcases List.mem_cons.mp hlv with heq | hmem
    · rw [heq]; simp
    · exact hne.1 lv hmem
  · intro n hn
    rw [ladderNodes_cons] at hn
    rcases List.mem_append.mp hn with h1 | h1
    · simp only [List.mem_singleton] at h1
      rw [h1]; exact ho
    · exact hb n h1
  · simp only [Book.resting, ladderNodes_cons, List.length_append, List.length_cons,
      List.length_nil]
    omega

/-- The book with a new order queued alone in a new best ask level, in a new
list node: registry and ladders stay linked, no level is empty, and one more
order rests. -/
theorem queued_sell {b : Book} {price : Price} {order : Order}
    (hl : b.Linked) (hne : LevelsNonEmpty b)
    (hkeys : ∀ q ∈ ladderKeys b.asks_, q ≠ price)
    (ho : order.remaining_quantity ≤ order.initial_quantity_)
    (ha : RemainingLeInitial b.asks_) :
    (Book.mk b.bids_ ((price, [⟨b.freshLoc, order⟩]) :: b.asks_) b.orders_).Linked
    ∧ LevelsNonEmpty (Book.mk b.bids_ ((price, [⟨b.freshLoc, order⟩]) :: b.asks_) b.orders_)
    ∧ RemainingLeInitial ((price, [(⟨b.freshLoc, order⟩ : Node)]) :: b.asks_)
    ∧ (Book.mk b.bids_ ((price, [⟨b.freshLoc, order⟩]) :: b.asks_) b.orders_).resting.length
        = b.resting.length + 1 := by
  refine ⟨⟨?_, ?_⟩, ⟨hne.1, ?_⟩, ?_, ?_⟩
  · simp only [ladderLocs_cons, List.map_cons, List.map_nil, List.singleton_append]
    have := hl.1
    rw [List.nodup_append] at this ⊢
    obtain ⟨h1, h2, h3⟩ := this
    refine ⟨h1, List.nodup_cons.mpr ⟨fun h => freshLoc_not_mem b (List.mem_append_right _ h), h2⟩,
      ?_⟩
    intro x hx1 hx2
    rcases List.mem_cons.mp hx2 with heq | hmem
    · exact freshLoc_not_mem b (List.mem_append_left _ (heq ▸ hx1))
    · exact h3 hx1 hmem
  · intro kv hkv
    obtain ⟨hid, hnode⟩ := hl.2 kv hkv
    refine ⟨hid, ?_⟩
    cases hside : kv.2.order_.side_ with
    | Buy =>
      rw [hside, ladder_buy] at hnode
      rw [ladder_buy]; exact hnode
    | Sell =>
      rw [hside, ladder_sell] at hnode
      rw [ladder_sell]
      simp only
      rw [boundLevel_cons_ne (fun h => hkeys _ (key_of_mem_boundLevel hnode) h.symm)]
      exact hnode
  · intro lv hlv
    rcases List.mem_cons.mp hlv with heq | hmem
    · rw [heq]; simp
    · exact hne.2 lv hmem
  · intro n hn
    rw [ladderNodes_cons] at hn
    rcases List.mem_append.mp hn with h1 | h1
    · simp only [List.mem_singleton] at h1
      rw [h1]; exact ho
    · exact ha n h1
  · simp only [Book.resting, ladderNodes_cons, List.length_append, List.length_cons,
      List.length_nil]
    omega

/-- On a well-formed book without a cross in which every resting order has
`remaining ≤ initial`, `AddOrder` of an order with `remaining ≤ initial` that
passes the identifier check and can match ends, with a step budget above the
number of resting orders plus one: it returns or signals the invalid-fill
error. -/
theorem AddOrder_crossing_ends (fuel : Nat) (order : Order) (b : Book)
    (hw : b.WellFormed) (hn : NoCross b)
    (hb : RemainingLeInitial b.bids_) (ha : RemainingLeInitial b.asks_)
    (ho : order.remaining_quantity ≤ order.initial_quantity_)
    (hfuel : b.resting.length + 2 ≤ fuel)
    (hf : ¬ b.orders_.find order.GetOrderId = none)
    (hc : CanMatch b order.GetSide order.GetPrice = true) :
    AddOrder fuel order b = .error .invalidQuantity ∨ ∃ r, AddOrder fuel order b = .ok r := by
  rw [AddOrder_crossing fuel order b hn hf hc]
  cases hs : order.GetSide with
  | Buy =>
    rw [hs] at hc
    simp only [if_true]
    obtain ⟨h1, h2, h3, h4⟩ := @queued_buy b order.GetPrice order hw.linked hw.levelsNonEmpty
      (crossing_buy_keys hn hw.1.1 hc) ho hb
    exact MatchOrders_ends_of_outerLoop h1 h2
      (outerLoop_ends fuel _ [] h2 h3 ha (by rw [h4]; omega))
  | Sell =>
    rw [hs] at hc
    simp only [reduceCtorEq, if_false]
    obtain ⟨h1, h2, h3, h4⟩ := @queued_sell b order.GetPrice order hw.linked hw.levelsNonEmpty
      (crossing_sell_keys hn hw.1.2.1 hc) ho ha
    exact MatchOrders_ends_of_outerLoop h1 h2
      (outerLoop_ends fuel _ [] h2 hb h3 (by rw [h4]; omega))

/-- The book with a `FillAndKill` order queued alone at the front of its side
in a new list node has that order pending. -/
theorem pending_queued (order : Order) (b : Book)
    (hk : order.GetOrderType = OrderType.FillAndKill) :
    Pending order.GetSide b.freshLoc order.GetOrderId
      (if order.GetSide = Side.Buy
        then ⟨(order.GetPrice, [⟨b.freshLoc, order⟩]) :: b.bids_, b.asks_, b.orders_⟩
        else ⟨b.bids_, (order.GetPrice, [⟨b.freshLoc, order⟩]) :: b.asks_, b.orders_⟩) := by
  cases hs : order.GetSide with
  | Buy =>
    simp only [if_true]
    exact ⟨freshLoc_ne_location b, Or.inr ⟨_, _, _, rfl, rfl, hk, rfl⟩⟩
  | Sell =>
    simp only [reduceCtorEq, if_false]
    exact ⟨freshLoc_ne_location b, Or.inr ⟨_, _, _, rfl, rfl, hk, rfl⟩⟩

end OB
